import Mathlib

/-!
# The `cc` assembler toolchain: AMD64 (`i64asm.cc`), PowerPC (`ppcasm.cc`), `GetNumber32`

A shallow embedding of the assembler back ends.  The process-wide variables of
`i64asm.cc` (`kBytes`, `kRecords`, `kOriginLabel`, `kOrigin`, ...) become the fields
of `AsmState`, which every operation receives and hands back.  A `std::string` is a
`List Char`; `std::string::npos` is `none`.  Bytes and machine words are natural
numbers, reduced modulo `2 ^ w` where the C++ type truncates.
-/

namespace Asm

/-! ## `std::string` operations -/

/-- A `std::string`, one `Char` per `char`. -/
abbrev Line := List Char

/-- Embeds `std::string::find(needle)`: index of the first occurrence, `none` for `npos`. -/
def find : Line → Line → Option Nat
  | [], needle => if needle.isEmpty then some 0 else none
  | c :: cs, needle =>
    if needle.isPrefixOf (c :: cs) then some 0
    else (find cs needle).map (· + 1)

/-- Embeds `std::string::operator[]`: the character at `i`, and `'\0'` at `i = size()`.
Callers guard the indices past `size()`, which the C++ leaves undefined. -/
def charAt (s : Line) (i : Nat) : Char := s.getD i '\x00'

/-- Embeds `std::string::substr(pos)` for `pos ≤ size()`. -/
def substr (s : Line) (pos : Nat) : Line := s.drop pos

/-- Embeds `std::string::erase(pos)`: drop everything from `pos` on. -/
def eraseFrom (s : Line) (pos : Nat) : Line := s.take pos

/-- Embeds `std::string::erase(pos, n)`. -/
def erase (s : Line) (pos n : Nat) : Line := s.take pos ++ s.drop (pos + n)

/-- The function `std::to_string` on a `size_t`. -/
def to_string (n : Nat) : Line := Nat.toDigits 10 n

/-! ## `<cctype>` in the "C" locale -/

/-- Embeds `isdigit`. -/
def isdigit (c : Char) : Bool := decide ('0' ≤ c) && decide (c ≤ '9')

/-- Embeds `isalpha`. -/
def isalpha (c : Char) : Bool :=
  (decide ('a' ≤ c) && decide (c ≤ 'z')) || (decide ('A' ≤ c) && decide (c ≤ 'Z'))

/-- Embeds `isspace`: space, `\t`, `\n`, `\v`, `\f`, `\r`. -/
def isspace (c : Char) : Bool :=
  c == ' ' || c == '\t' || c == '\n' || c == '\x0b' || c == '\x0c' || c == '\r'

/-- Embeds `ispunct`: a printable character that is neither alphanumeric nor the space. -/
def ispunct (c : Char) : Bool :=
  decide (33 ≤ c.toNat) && decide (c.toNat ≤ 126) && !(isalpha c) && !(isdigit c)

/-! ## `strtoq` / `strtol` (glibc, 64-bit `long`) -/

/-- The constant `LLONG_MAX`, which is `LONG_MAX` on LP64. -/
def LLONG_MAX : Int := 9223372036854775807

/-- The constant `LLONG_MIN`. -/
def LLONG_MIN : Int := -9223372036854775808

/-- The constant `ERANGE`. -/
def ERANGE : Nat := 34

/-- Value of a character as a digit: `0-9`, then letters of either case from 10 on. -/
def digitValue (c : Char) : Option Nat :=
  if isdigit c then some (c.toNat - 48)
  else if decide ('a' ≤ c) && decide (c ≤ 'z') then some (c.toNat - 97 + 10)
  else if decide ('A' ≤ c) && decide (c ≤ 'Z') then some (c.toNat - 65 + 10)
  else none

/-- The digit loop of `strtoq`: consume characters while they are digits of `base`. -/
def parseDigits (base : Nat) : Line → Nat → Nat
  | [], acc => acc
  | c :: cs, acc =>
    match digitValue c with
    | some d => if d < base then parseDigits base cs (acc * base + d) else acc
    | none => acc

/-- What one `strtoq` call yields: the returned value, and whether it stored `ERANGE`. -/
structure StrtoResult where
  value : Int
  range : Bool
deriving DecidableEq, Repr

/-- Embeds `strtoq(text, nullptr, base)` for `2 ≤ base ≤ 36` as glibc computes it: leading
white space is skipped, one sign is read, base 16 skips a `0x`/`0X` prefix, then the
longest run of digits of `base` is converted.  A magnitude outside the `long long`
range gives `LLONG_MAX`/`LLONG_MIN` and stores `ERANGE`; otherwise `errno` is left
alone, also when no digit was found (the value is then 0). -/
def strtoq (text : Line) (base : Nat) : StrtoResult :=
  let t := text.dropWhile isspace
  let neg := charAt t 0 == '-'
  let t := if charAt t 0 == '-' || charAt t 0 == '+' then t.drop 1 else t
  let t := if base == 16 && charAt t 0 == '0' && (charAt t 1 == 'x' || charAt t 1 == 'X')
           then t.drop 2 else t
  let m : Int := (parseDigits base t 0 : Nat)
  if neg then
    if m > -LLONG_MIN then ⟨LLONG_MIN, true⟩ else ⟨-m, false⟩
  else
    if m > LLONG_MAX then ⟨LLONG_MAX, true⟩ else ⟨m, false⟩

/-- The function `strtol`, which has the range of `strtoq` on LP64. -/
def strtol (text : Line) (base : Nat) : StrtoResult := strtoq text base

/-- The value of `errno` after a `strto*` call that started with `errno = e`. -/
def errnoAfter (r : StrtoResult) (e : Nat) : Nat := if r.range then ERANGE else e

/-! ## `NumberCast32` / `NumberCast64` -/

/-- Little-endian bytes of a natural number, `n` of them. -/
def leBytes : Nat → Nat → List Nat
  | 0, _ => []
  | n + 1, v => v % 256 :: leBytes n (v / 256)

/-- Modelled from the spec: `NumberCast32` (declared in AsmKit, which is not among the
sources).  "Successful decode returns the value's bytes in fixed width (4 or 8 bytes
depending on architecture word size), low byte first": the value converted to 32 bits,
seen as `char number[4]`. -/
def NumberCast32 (v : Int) : List Nat := leBytes 4 (v % 4294967296).toNat

/-- Modelled from the spec: `NumberCast64` (declared in AsmKit, which is not among the
sources): the 64-bit value seen as `char number[8]`, low byte first. -/
def NumberCast64 (v : Int) : List Nat := leBytes 8 (v % 18446744073709551616).toNat

/-! ## `ParserKit::find_word` -/

/-- The constant `std::string::npos` as a `size_t`. -/
def npos : Nat := 18446744073709551615

/-- The `size_t` a `find` call returns. -/
def findPos (r : Option Nat) : Nat := r.getD npos

/-- The `size_t` sum `find(...) + k`.  A position found in the text plus `k` does not
wrap, since a `std::string` is shorter than `2 ^ 64`; `npos + k` does. -/
def posAfter (r : Option Nat) (k : Nat) : Nat :=
  match r with
  | some i => i + k
  | none => (npos + k) % 18446744073709551616

/-- Whether the character at `i` ends a word: outside the text, white space or
punctuation. -/
def not_part_of_word (haystack : Line) (i : Int) : Bool :=
  if i < 0 || i ≥ haystack.length then true
  else isspace (charAt haystack i.toNat) || ispunct (charAt haystack i.toNat)

/-- Modelled from the spec: `ParserKit::find_word` (ParserKit.hpp is not among the
sources).  "a line matches an entry if the mnemonic appears as a whole token in the
line text": the needle is located with `std::string::find`, and the characters right
before and right after that occurrence must not belong to a word. -/
def find_word (haystack needle : Line) : Bool :=
  match find haystack needle with
  | none => false
  | some index =>
    not_part_of_word haystack ((index : Int) - 1) &&
    not_part_of_word haystack ((index : Int) + needle.length)

/-! ## The AE container (`AE.hpp`, `PEF.hpp`) -/

/-- Length of the name array of a record. -/
def kAESymbolLen : Nat := 64

/-- Length of the pad arrays. -/
def kAEPad : Nat := 8

/-- The byte the pad arrays are filled with, and the kind of a pseudo-record. -/
def kAEInvalidOpcode : Nat := 0

/-- Kind of a code record. -/
def kPefCode : Nat := 0xC

/-- Kind of a data record. -/
def kPefData : Nat := 0xD

/-- Kind of a zero-page record. -/
def kPefZero : Nat := 0xE

/-- The enumerator that follows `kPefArchIntel86S = 100`. -/
def kPefArchAMD64 : Nat := 101

/-- Start value of `kOrigin`. -/
def kPefBaseOrigin : Nat := 0

/-- The flag the writer sets on every record. -/
def kKindRelocationAtRuntime : Nat := 0x34f

/-- The size `sizeof(AEHeader)`, packed: 2 + 1 + 8 + 1 + 8 + 8 + 8. -/
def sizeofAEHeader : Nat := 36

/-- The size `sizeof(AERecordHeader)`, packed: 64 + 8 + 8 + 8 + 8 + 8. -/
def sizeofAERecordHeader : Nat := 104

/-- The struct `AEHeader`. -/
structure AEHeader where
  fMagic : List Char
  fArch : Nat
  fCount : Nat
  fSize : Nat
  fStartCode : Nat
  fCodeSize : Nat
  fPad : List Nat
deriving DecidableEq, Repr

/-- The struct `AERecordHeader`; `fName` holds the `kAESymbolLen` characters of the array. -/
structure AERecordHeader where
  fName : List Char
  fKind : Nat
  fSize : Nat
  fFlags : Nat
  fOffset : Nat
  fPad : List Nat
deriving DecidableEq, Repr

/-- The call `memset(fName, 0, kAESymbolLen)` followed by `memcpy(fName, text, text.size())`,
for a text that fits the array. -/
def nameField (text : Line) : List Char :=
  text ++ List.replicate (kAESymbolLen - text.length) '\x00'

/-! ## Process-wide state of `i64asm.cc` -/

/-- The free-standing variables of the assembler, and `errno`. -/
structure AsmState where
  kOutputAsBinary : Bool
  kErrorLimit : Nat
  kAcceptableErrors : Nat
  kCounter : Nat
  kOrigin : Nat
  kOriginLabel : List (Line × Nat)
  kBytes : List Nat
  kCurrentRecord : AERecordHeader
  kRecords : List AERecordHeader
  kUndefinedSymbols : List Line
  errno : Nat
deriving DecidableEq, Repr

/-- The static initialisers; `binary` is whether `-binary` was given.  `errno` is 0
when the first line is read. -/
def initialState (binary : Bool) : AsmState :=
  { kOutputAsBinary := binary
    kErrorLimit := 10
    kAcceptableErrors := 0
    kCounter := 1
    kOrigin := kPefBaseOrigin
    kOriginLabel := []
    kBytes := []
    kCurrentRecord :=
      { fName := nameField [], fKind := kPefCode, fSize := 0, fFlags := 0, fOffset := 0,
        fPad := List.replicate kAEPad 0 }
    kRecords := []
    kUndefinedSymbols := []
    errno := 0 }

/-- How a call ends: it returns, it throws a `std::exception` with the given `what()`,
the process is ended by `std::exit`, or the C++ has no defined behaviour (a read or a
copy outside an array). -/
inductive Outcome (α : Type) where
  | ret (a : α) (s : AsmState)
  | throw (what : String) (s : AsmState)
  | exit (code : Nat) (s : AsmState)
  | undefined
deriving DecidableEq, Repr

/-- Sequencing: only a returning call lets the next statement run. -/
def Outcome.bind {α β : Type} (o : Outcome α) (f : α → AsmState → Outcome β) : Outcome β :=
  match o with
  | .ret a s => f a s
  | .throw w s => .throw w s
  | .exit c s => .exit c s
  | .undefined => .undefined

/-- Embeds `detail::print_error`: past the error limit the process exits with 3, otherwise
the error is counted (the printing itself is not modelled). -/
def print_error (s : AsmState) : Outcome Unit :=
  if s.kAcceptableErrors > s.kErrorLimit then .exit 3 s
  else .ret () { s with kAcceptableErrors := (s.kAcceptableErrors + 1) % 4294967296 }

/-- The assignment `kRecords[kRecords.size() - 1].fSize = n` when `kRecords` is not empty. -/
def setLastSize (recs : List AERecordHeader) (n : Nat) : List AERecordHeader :=
  match recs.reverse with
  | [] => []
  | last :: before => (({ last with fSize := n }) :: before).reverse

/-- The `for (char &j : name)` loops: replace the listed characters by `$`. -/
def mangle (targets : List Char) (name : Line) : Line :=
  name.map fun j => if targets.contains j then '$' else j

/-- The call `name_copy.erase(name_copy.find(token), strlen(token))`; `erase` throws
`std::out_of_range` when the position is `npos`. -/
def eraseToken (name_copy token : Line) : Option Line :=
  match find name_copy token with
  | some i => some (erase name_copy i token.length)
  | none => none

/-! ## `asm_read_attributes` (`i64asm.cc`, `ppcasm.cc`) -/

/-- The constant `kUndefinedSymbol` of `i64asm.cc`. -/
def kUndefinedSymbol : Line := ":ld:".toList

/-- The section tokens of `i64asm.cc` with the kind each selects, in test order. -/
def sectionKinds : List (Line × Nat) :=
  [(".text".toList, kPefCode), (".data".toList, kPefData), (".page_zero".toList, kPefZero)]

/-- The `if / else if` chain of the `import` branch: the first token found in `name`
sets the kind, and with no token the kind of `kCurrentRecord` stays. -/
def importKind (tokens : List (Line × Nat)) (name : Line) (kind : Nat) : Nat :=
  match tokens with
  | [] => kind
  | (tok, k) :: rest => if (find name tok).isSome then k else importKind rest name kind

/-- The `if / else if` chain of the `export` branch: the first token found in `name`
sets the kind and is erased from `name_copy`. -/
def classify (tokens : List (Line × Nat)) (name name_copy : Line) (kind : Nat) :
    Option (Line × Nat) :=
  match tokens with
  | [] => some (name_copy, kind)
  | (tok, k) :: rest =>
    if (find name tok).isSome then (eraseToken name_copy tok).map fun nc => (nc, k)
    else classify rest name name_copy kind

/-- The common tail of both directives: finalise the previous record, fill in the
current record and append it.  Copying a name longer than the array is undefined. -/
def openRecord (text : Line) (kind : Nat) (s : AsmState) : Outcome Bool :=
  if text.length > kAESymbolLen then .undefined
  else
    let cur : AERecordHeader :=
      { s.kCurrentRecord with
        fKind := kind
        fName := nameField text
        fPad := List.replicate kAEPad kAEInvalidOpcode }
    .ret true
      { s with
        kRecords := setLastSize s.kRecords s.kBytes.length ++ [cur]
        kCurrentRecord := cur
        kCounter := (s.kCounter + 1) % 18446744073709551616 }

/-- The body shared by the two `asm_read_attributes`, which differ in the
undefined-symbol marker, the section tokens and the start symbol only. -/
def readAttributes (marker : Line) (tokens : List (Line × Nat)) (start : Line)
    (line : Line) (s : AsmState) : Outcome Bool :=
  if find_word line "import ".toList then
    if s.kOutputAsBinary then
      (print_error s).bind fun _ s1 => .throw "invalid_import_bin" s1
    else
      let pos := posAfter (find line "import ".toList) 7
      if pos > line.length then .throw "basic_string::substr" s
      else
        let name := substr line pos
        let result := to_string name.length ++ marker
        let name := mangle [' ', ','] name
        let result := result ++ name
        let kind := importKind tokens name s.kCurrentRecord.fKind
        let kind := if name == start then kPefCode else kind
        openRecord result kind s
  else if find_word line "export ".toList then
    if s.kOutputAsBinary then
      (print_error s).bind fun _ s1 => .throw "invalid_export_bin" s1
    else
      let pos := posAfter (find line "export ".toList) 7
      if pos > line.length then .throw "basic_string::substr" s
      else
        let name := substr line pos
        let name_copy := name
        let name := mangle [' '] name
        match classify tokens name name_copy s.kCurrentRecord.fKind with
        | none => .throw "basic_string::erase" s
        | some (name_copy, kind) =>
          let kind := if name == start then kPefCode else kind
          let name_copy := name_copy.filter (· != ' ')
          let s1 :=
            { s with
              kOriginLabel := s.kOriginLabel ++ [(name_copy, s.kOrigin)]
              kOrigin := (s.kOrigin + 1) % 18446744073709551616 }
          openRecord name kind s1
  else .ret false s

/-- The function `asm_read_attributes` of `i64asm.cc`. -/
def asm_read_attributes (line : Line) (s : AsmState) : Outcome Bool :=
  readAttributes kUndefinedSymbol sectionKinds "__start".toList line s

/-! ## `detail::algorithm::is_valid`, `CheckLine` -/

/-- Embeds `detail::algorithm::is_not_alnum_space`. -/
def is_not_alnum_space (c : Char) : Bool :=
  !(isalpha c || isdigit c || (c == ' ') || (c == '\t') || (c == ',') ||
    (c == '(') || (c == ')') || (c == '"') || (c == '\'') || (c == '[') || (c == ']') ||
    (c == '+') || (c == '_') || (c == ':') || (c == '@') || (c == '.'))

/-- Embeds `detail::algorithm::is_valid`: `find_if` reaches the end. -/
def is_valid (str : Line) : Bool := (str.find? is_not_alnum_space).isNone

/-- The `for (auto &ch : substr)` loop of `CheckLine`. -/
def nothing_on_right (sub : Line) : Bool :=
  sub.foldl (fun acc ch => if ch != ' ' && ch != '\t' then false else acc) true

/-- Message for a line with a character outside the allow-set. -/
def msgNonAlnum : Line := "Line contains non alphanumeric characters.\nhere -> ".toList
/-- Message for a line that ends in its first comma. -/
def msgLacksRight : Line := "\nInstruction lacks right register, here -> ".toList
/-- Message for a line with only blanks after its first comma. -/
def msgNotComplete : Line := "\nInstruction not complete, here -> ".toList

/-- Embeds `PlatformAssemblerAMD64::CheckLine`: the error string and the line as it is left
(the line is taken by reference and the comment is erased in place). -/
def CheckLine (line : Line) : Line × Line :=
  if line.isEmpty || find_word line "import".toList || find_word line "export".toList ||
      find_word line "#".toList || find_word line ";".toList then
    match find line ['#'] with
    | some i => ([], eraseFrom line i)
    | none =>
      match find line [';'] with
      | some i => ([], eraseFrom line i)
      | none =>
        if !is_valid line then (msgNonAlnum ++ line, line) else ([], line)
  else if !is_valid line then (msgNonAlnum ++ line, line)
  else
    match find line [','] with
    | some i =>
      if i + 1 == line.length then (msgLacksRight ++ substr line i, line)
      else if i + 1 > line.length then (msgNotComplete ++ line, line)
      else if nothing_on_right (substr line (i + 1)) then (msgNotComplete ++ line, line)
      else ([], line)
    | none => ([], line)

/-! ## `PlatformAssemblerAMD64::WriteNumber` -/

/-- The `if (i == 0) i = 0xFF;` of the byte loops. -/
def sentinel (b : Nat) : Nat := if b = 0 then 0xFF else b

/-- The `for (char &i : num.number)` loop: append the four bytes, zero bytes as 0xFF. -/
def pushNumber (v : Int) (s : AsmState) : AsmState :=
  { s with kBytes := s.kBytes ++ (NumberCast32 v).map sentinel }

/-- One `case` of the switch in `WriteNumber`: `strtoq` is called once for the error
test and once more for the value. -/
def writeBased (base : Nat) (what : String) (text : Line) (s : AsmState) : Outcome Bool :=
  let res := strtoq text base
  let s1 := { s with errno := errnoAfter res s.errno }
  if res.value = 0 ∧ s1.errno ≠ 0 then
    (print_error s1).bind fun _ s2 => .throw what s2
  else
    let num := strtoq text base
    let s2 := { s1 with errno := errnoAfter num s1.errno }
    .ret true (pushNumber num.value s2)

/-- The decimal tail of `WriteNumber`, which returns `false` instead of throwing. -/
def writeDecimal (text : Line) (s : AsmState) : Outcome Bool :=
  let res := strtoq text 10
  let s1 := { s with errno := errnoAfter res s.errno }
  if res.value = 0 ∧ s1.errno ≠ 0 then .ret false s1
  else
    let num := strtoq text 10
    let s2 := { s1 with errno := errnoAfter num s1.errno }
    .ret true (pushNumber num.value s2)

/-- Embeds `PlatformAssemblerAMD64::WriteNumber`.  Reading `jump_label[pos]` past `size()` is
undefined; the `'o'` case passes 7 to `strtoq`. -/
def WriteNumber (pos : Nat) (jump_label : Line) (s : AsmState) : Outcome Bool :=
  if pos > jump_label.length then .undefined
  else if !isdigit (charAt jump_label pos) then .ret false s
  else if charAt jump_label (pos + 1) == 'x' then
    writeBased 16 "invalid_hex" (substr jump_label (pos + 2)) s
  else if charAt jump_label (pos + 1) == 'b' then
    writeBased 2 "invalid_bin" (substr jump_label (pos + 2)) s
  else if charAt jump_label (pos + 1) == 'o' then
    writeBased 7 "invalid_octal" (substr jump_label (pos + 2)) s
  else writeDecimal (substr jump_label pos) s

/-! ## The opcode table -/

/-- The struct `CpuCodeAMD64`, the two fields that are ever set. -/
structure CpuCodeAMD64 where
  fName : Line
  fOpcode : Nat
deriving DecidableEq, Repr

/-- The initialiser of `kOpcodesAMD64` in `amd64.hpp`. -/
def kOpcodesAMD64_decl : List CpuCodeAMD64 :=
  [ ⟨"int".toList, 0xCD⟩, ⟨"into".toList, 0xCE⟩, ⟨"intd".toList, 0xF1⟩,
    ⟨"int3".toList, 0xC3⟩, ⟨"iret".toList, 0xCF⟩, ⟨"retf".toList, 0xCB⟩,
    ⟨"retn".toList, 0xC3⟩, ⟨"ret".toList, 0xC3⟩, ⟨"sti".toList, 0xfb⟩,
    ⟨"cli".toList, 0xfa⟩, ⟨"hlt".toList, 0xf4⟩, ⟨"nop".toList, 0x90⟩,
    ⟨"mov".toList, 0x48⟩, ⟨"jmp".toList, 0xE9⟩, ⟨"call".toList, 0xFF⟩ ]

/-- Opcode of the first conditional jump. -/
def kAsmJumpOpcode : Nat := 0x0F80

/-- Number of conditional jumps. -/
def kJumpLimit : Nat := 30

/-- First opcode of the `jmp` entries pushed by the entry point. -/
def kJumpLimitStandard : Nat := 0xE3

/-- Bound (excluded) of the opcodes of those `jmp` entries. -/
def kJumpLimitStandardLimit : Nat := 0xEB

/-- The array `opcodes_jump` of the entry point. -/
def opcodes_jump : List Line :=
  ["ja", "jae", "jb", "jbe", "jc", "je", "jg", "jge", "jl", "jle", "jna", "jnae", "jnb",
   "jnbe", "jnc", "jne", "jng", "jnge", "jnl", "jnle", "jno", "jnp", "jns", "jnz", "jo",
   "jp", "jpe", "jpo", "js", "jz"].map String.toList

/-- The first loop of the entry point: entry `i` is `opcodes_jump[i]` with the 16-bit
opcode `kAsmJumpOpcode + i`. -/
def jumpEntries (names : List Line) (i : Nat) : List CpuCodeAMD64 :=
  match names with
  | [] => []
  | n :: rest => ⟨n, (kAsmJumpOpcode + i) % 65536⟩ :: jumpEntries rest (i + 1)

/-- The table `WriteLine` iterates: the initialiser followed by what the entry point
pushes before the first line is read. -/
def kOpcodesAMD64 : List CpuCodeAMD64 :=
  kOpcodesAMD64_decl ++ jumpEntries (opcodes_jump.take kJumpLimit) 0 ++
  [⟨"jcxz".toList, 0xE3⟩] ++
  ((List.range (kJumpLimitStandardLimit - kJumpLimitStandard)).map fun i =>
    ⟨"jmp".toList, kJumpLimitStandard + i⟩) ++
  [⟨"lahf".toList, 0x9F⟩, ⟨"lds".toList, 0xC5⟩, ⟨"lea".toList, 0x8D⟩, ⟨"nop".toList, 0x90⟩]

/-! ## `PlatformAssemblerAMD64::WriteLine` -/

/-- The `for (auto &opcodeAMD64 : kOpcodesAMD64)` loop.  Every matching entry appends
its opcode, converted to the one-byte element type of `kBytes`; an entry whose name
contains `mov` then decodes a number two characters past the mnemonic. -/
def writeOpcodes (line : Line) : List CpuCodeAMD64 → AsmState → Outcome Unit
  | [], s => .ret () s
  | op :: rest, s =>
    if find_word line op.fName && is_valid line then
      let s1 := { s with kBytes := s.kBytes ++ [op.fOpcode % 256] }
      if (find op.fName "mov".toList).isSome then
        match WriteNumber (posAfter (find line op.fName) (op.fName.length + 2)) line s1 with
        | .ret _ s2 => writeOpcodes line rest s2
        | .throw w s2 => .throw w s2
        | .exit c s2 => .exit c s2
        | .undefined => .undefined
      else writeOpcodes line rest s1
    else writeOpcodes line rest s

/-- One round of the `org` loop: `kOrigin = strtol(text, nullptr, base)`. -/
def orgStep (text : Line) (s : AsmState) (base : Nat) : AsmState :=
  let r := strtol text base
  { s with kOrigin := (r.value % 18446744073709551616).toNat, errno := errnoAfter r s.errno }

/-- The `db` and `org` parts of `WriteLine`. -/
def writeDirectives (line : Line) (s : AsmState) : Outcome Bool :=
  let afterDb : Outcome Bool :=
    match find line "db".toList with
    | some i => WriteNumber (i + 2 + 1) line s
    | none => .ret true s
  afterDb.bind fun _ s1 =>
    if (find line "org ".toList).isSome then
      let pos := posAfter (find line "org".toList) (3 + 1)
      if pos > line.length then .throw "basic_string::substr" s1
      else .ret true ([10, 16, 2, 7].foldl (orgStep (substr line pos)) s1)
    else .ret true s1

/-- Embeds `PlatformAssemblerAMD64::WriteLine`. -/
def WriteLine (line : Line) (s : AsmState) : Outcome Bool :=
  if find_word line "export ".toList then .ret true s
  else (writeOpcodes line kOpcodesAMD64 s).bind fun _ s1 => writeDirectives line s1

/-! ## The entry point `MPUXAssemblerAMD64`: compilation loop and object writer -/

/-- One round of the `while (std::getline(file_ptr, line))` loop: a line that fails
`CheckLine` is reported and skipped, any other line goes through
`asm_read_attributes` and `WriteLine`. -/
def compileLine (line : Line) (s : AsmState) : Outcome Unit :=
  let checked := CheckLine line
  if !checked.1.isEmpty then print_error s
  else
    (asm_read_attributes checked.2 s).bind fun _ s1 =>
      (WriteLine checked.2 s1).bind fun _ s2 => .ret () s2

/-- The compilation loop over the lines of the input file. -/
def compileLines : List Line → AsmState → Outcome Unit
  | [], s => .ret () s
  | line :: rest, s =>
    match compileLine line s with
    | .ret _ s1 => compileLines rest s1
    | .throw w s1 => .throw w s1
    | .exit c s1 => .exit c s1
    | .undefined => .undefined

/-- The byte loop that ends the entry point: a zero byte is skipped, 0xFF is written
as zero, any other byte is written as it is. -/
def writePass : List Nat → List Nat
  | [] => []
  | byte :: rest =>
    if byte = 0 then writePass rest
    else if byte = 0xFF then 0 :: writePass rest
    else byte :: writePass rest

/-- The `for (auto &rec : kRecords)` loop of the writer, `record_count` starting at `n`. -/
def finishRecords : List AERecordHeader → Nat → List AERecordHeader
  | [], _ => []
  | rec :: rest, n =>
    { rec with fFlags := rec.fFlags ||| kKindRelocationAtRuntime, fOffset := n } ::
      finishRecords rest (n + 1)

/-- The `for (auto &sym : kUndefinedSymbols)` loop, `record_count` starting at `n`. -/
def symbolRecords : List Line → Nat → List AERecordHeader
  | [], _ => []
  | sym :: rest, n =>
    { fName := nameField sym, fKind := kAEInvalidOpcode, fSize := sym.length, fFlags := 0,
      fOffset := n, fPad := List.replicate kAEPad kAEInvalidOpcode } ::
      symbolRecords rest (n + 1)

/-- What reaches the output file, in file order.  In flat-binary mode only `payload`
is written. -/
structure ObjectFile where
  hdr : AEHeader
  records : List AERecordHeader
  symbols : List AERecordHeader
  payload : List Nat
deriving DecidableEq, Repr

/-- The header as the entry point prepares it before the loop. -/
def initialHeader : AEHeader :=
  { fMagic := ['A', 'E'], fArch := kPefArchAMD64, fCount := 0, fSize := sizeofAEHeader,
    fStartCode := 0, fCodeSize := 0, fPad := List.replicate kAEPad kAEInvalidOpcode }

/-- The object-mode writer, from stream position `pos`; `none` is the
`return -1` taken when no record exists (the output file is removed). -/
def writeObject (pos : Nat) (s : AsmState) : Option ObjectFile :=
  if s.kRecords.isEmpty then none
  else
    let recs := finishRecords (setLastSize s.kRecords s.kBytes.length) 0
    let syms := symbolRecords s.kUndefinedSymbols (recs.length + 1)
    let pos_end := pos + sizeofAEHeader + sizeofAERecordHeader * (recs.length + syms.length)
    some
      { hdr :=
          { initialHeader with
            fCount := s.kRecords.length + s.kUndefinedSymbols.length
            fStartCode := pos_end
            fCodeSize := s.kBytes.length }
        records := recs
        symbols := syms
        payload := writePass s.kBytes }

/-- The object a run on one input file in object mode writes: the lines are compiled
from the initial state and the writer runs; `none` stands for every run that writes no
object, however it ends (`MPUXAssemblerAMD64` below tells those ends apart). -/
def assembleObject (lines : List Line) : Option ObjectFile :=
  match compileLines lines (initialState false) with
  | .ret _ s => writeObject 0 s
  | _ => none

/-- How the entry point ends on one input file in object mode, and what it leaves of the
output file, which is created before the compilation loop.  With `written` the object
is in the file and the entry point returns 0.  With `failed` the output file is removed
and the entry point returns -1: an exception was caught in the loop, or no record
exists when the loop is over.  With `exited` the call `std::exit(code)` in
`print_error` ended the process inside the loop: the output file stays on disk with
nothing written to it.  With `undefined` the run read past the end of a string. -/
inductive RunEnd where
  | written (o : ObjectFile)
  | failed
  | exited (code : Nat)
  | undefined
deriving DecidableEq, Repr

/-- The entry point `MPUXAssemblerAMD64` on one input file in object mode. -/
def MPUXAssemblerAMD64 (lines : List Line) : RunEnd :=
  match compileLines lines (initialState false) with
  | .ret _ s =>
    match writeObject 0 s with
    | some o => .written o
    | none => .failed
  | .throw _ _ => .failed
  | .exit code _ => .exited code
  | .undefined => .undefined

/-! ## PowerPC (`ppcasm.cc`) -/

namespace PPC

/-- The constant `kUndefinedSymbol` of `ppcasm.cc`. -/
def kUndefinedSymbol : Line := ":UndefinedSymbol:".toList

/-- The section tokens of `ppcasm.cc`, in test order. -/
def sectionKinds : List (Line × Nat) :=
  [(".code64".toList, kPefCode), (".data64".toList, kPefData),
   (".page_zero".toList, kPefZero)]

/-- Modelled from the spec: `kPefStart` (its definition is not among the sources).
"exact match `__start` always forces Code". -/
def kPefStart : Line := "__start".toList

/-- The function `asm_read_attributes` of `ppcasm.cc`. -/
def asm_read_attributes (line : Line) (s : AsmState) : Outcome Bool :=
  readAttributes kUndefinedSymbol sectionKinds kPefStart line s

/-- The byte loop of `EncoderPowerPC::WriteNumber`: the eight bytes as they are. -/
def pushNumber (v : Int) (s : AsmState) : AsmState :=
  { s with kBytes := s.kBytes ++ NumberCast64 v }

/-- One `case` of the switch in `EncoderPowerPC::WriteNumber`. -/
def writeBased (base : Nat) (what : String) (text : Line) (s : AsmState) : Outcome Bool :=
  let res := strtol text base
  let s1 := { s with errno := errnoAfter res s.errno }
  if res.value = 0 ∧ s1.errno ≠ 0 then
    (print_error s1).bind fun _ s2 => .throw what s2
  else
    let num := strtol text base
    let s2 := { s1 with errno := errnoAfter num s1.errno }
    .ret true (pushNumber num.value s2)

/-- The decimal tail of `EncoderPowerPC::WriteNumber`. -/
def writeDecimal (text : Line) (s : AsmState) : Outcome Bool :=
  let res := strtol text 10
  let s1 := { s with errno := errnoAfter res s.errno }
  if res.value = 0 ∧ s1.errno ≠ 0 then .ret false s1
  else
    let num := strtol text 10
    let s2 := { s1 with errno := errnoAfter num s1.errno }
    .ret true (pushNumber num.value s2)

/-- Embeds `EncoderPowerPC::WriteNumber`. -/
def WriteNumber (pos : Nat) (jump_label : Line) (s : AsmState) : Outcome Bool :=
  if pos > jump_label.length then .undefined
  else if !isdigit (charAt jump_label pos) then .ret false s
  else if charAt jump_label (pos + 1) == 'x' then
    writeBased 16 "invalid_hex" (substr jump_label (pos + 2)) s
  else if charAt jump_label (pos + 1) == 'b' then
    writeBased 2 "invalid_bin" (substr jump_label (pos + 2)) s
  else if charAt jump_label (pos + 1) == 'o' then
    writeBased 7 "invalid_octal" (substr jump_label (pos + 2)) s
  else writeDecimal (substr jump_label pos) s

/-- The instruction checks that end `EncoderPowerPC::CheckLine`, over the mnemonics
of `kOpcodesPowerPC` (the table is not among the sources and is a parameter). -/
def checkInstruction (line : Line) : List Line → Line
  | [] => "Unrecognized instruction and operands: ".toList ++ line
  | name :: rest =>
    if (find line name).isSome then
      let err1 : Line :=
        (["stw", "ld", "lda", "sta"].map String.toList).foldl
          (fun err op =>
            if line == op then
              err ++ "\nMalformed ".toList ++ op ++ " instruction, here -> ".toList ++ line
            else err) []
      if !(["blr", "bl", "sc"].map String.toList).contains name
          && find_word line name
          && !isspace (charAt line (findPos (find line name) + name.length)) then
        err1 ++ "\nMissing space between ".toList ++ name ++
          " and operands.\nhere -> ".toList ++ line
      else err1
    else checkInstruction line rest

/-- Embeds `EncoderPowerPC::CheckLine`: the error string and the line as it is left. -/
def CheckLine (opcodeNames : List Line) (line : Line) : Line × Line :=
  if line.isEmpty || find_word line "import".toList || find_word line "export".toList ||
      (find line ['#']).isSome || find_word line ";".toList then
    match find line ['#'] with
    | some i => ([], eraseFrom line i)
    | none =>
      match find line [';'] with
      | some i => ([], eraseFrom line i)
      | none =>
        if !is_valid line then (msgNonAlnum ++ line, line) else ([], line)
  else if !is_valid line then (msgNonAlnum ++ line, line)
  else
    match find line [','] with
    | some i =>
      if i + 1 == line.length then (msgLacksRight ++ substr line i, line)
      else if i + 1 > line.length then (msgNotComplete ++ line, line)
      else if nothing_on_right (substr line (i + 1)) then (msgNotComplete ++ line, line)
      else (checkInstruction line opcodeNames, line)
    | none => (checkInstruction line opcodeNames, line)

end PPC

/-! ## `GetNumber32` (`AsmUtils.h`) -/

/-- How a `GetNumber32` call ends; `errno` is the only variable it touches. -/
inductive NumberOutcome where
  | ret (number : List Nat) (errno : Nat)
  | throw (what : String) (errno : Nat)
  | undefined
deriving DecidableEq, Repr

/-- The `while (lineBuffer[pos] == ' ') ++pos;` loop, on the text from `pos` on. -/
def skipSpaces : Line → Nat → Nat
  | [], pos => pos
  | c :: cs, pos => if c == ' ' then skipSpaces cs (pos + 1) else pos

/-- One `case` of the switch in `GetNumber32`; the text still carries its prefix. -/
def getBased (base : Nat) (what : String) (text : Line) (errno : Nat) : NumberOutcome :=
  let res := strtol text base
  let e1 := errnoAfter res errno
  if res.value = 0 ∧ e1 ≠ 0 then .throw what e1
  else
    let numOffset := strtol text base
    .ret (NumberCast32 numOffset.value) (errnoAfter numOffset e1)

/-- Embeds `GetNumber32`.  The number starts after `numberKey` and the spaces that follow
it; reading `lineBuffer[pos + 1]` is undefined when `pos` is not inside the text. -/
def GetNumber32 (errno : Nat) (lineBuffer numberKey : Line) : NumberOutcome :=
  let pos := posAfter (find lineBuffer numberKey) numberKey.length
  if pos > lineBuffer.length then .undefined
  else
    let pos := skipSpaces (lineBuffer.drop pos) pos
    if pos ≥ lineBuffer.length then .undefined
    else if charAt lineBuffer (pos + 1) == 'x' then
      getBased 16 "invalid_hex" (substr lineBuffer pos) errno
    else if charAt lineBuffer (pos + 1) == 'b' then
      getBased 2 "invalid_bin" (substr lineBuffer pos) errno
    else if charAt lineBuffer (pos + 1) == 'o' then
      getBased 7 "invalid_octal" (substr lineBuffer pos) errno
    else getBased 10 "invalid_hex" (substr lineBuffer pos) errno

/-! ## Vocabulary of the statements -/

/-- The state a call returns with, if it returns. -/
def Outcome.state? {α : Type} : Outcome α → Option AsmState
  | .ret _ s => some s
  | _ => none

/-- The byte buffer a call returns with, if it returns. -/
def Outcome.bytes? {α : Type} (o : Outcome α) : Option (List Nat) :=
  o.state?.map (·.kBytes)

/-- The number a `GetNumber32` call returns, if it returns. -/
def NumberOutcome.number? : NumberOutcome → Option (List Nat)
  | .ret number _ => some number
  | _ => none

/-- Byte `i` of a value counted from the low end (two's complement for a negative
value). -/
def byteOf (v : Int) (i : Nat) : Nat := ((v / 256 ^ i) % 256).toNat

/-- The value `WriteNumber` parses: the result of the `strtoq` call its switch
selects for the literal at `pos`. -/
def parsedValue (pos : Nat) (jump_label : Line) : Int :=
  if charAt jump_label (pos + 1) == 'x' then (strtoq (substr jump_label (pos + 2)) 16).value
  else if charAt jump_label (pos + 1) == 'b' then
    (strtoq (substr jump_label (pos + 2)) 2).value
  else if charAt jump_label (pos + 1) == 'o' then
    (strtoq (substr jump_label (pos + 2)) 7).value
  else (strtoq (substr jump_label pos) 10).value

/-- The three lines of the worked example. -/
def exampleProgram : List Line :=
  ["export .text main".toList, "mov r1, 0x10".toList, "ret".toList]

/-- The allow-set as the specification lists it: a letter, a digit, or one of the
fourteen listed characters. -/
def inAllowSet (c : Char) : Prop :=
  isalpha c = true ∨ isdigit c = true ∨
    c ∈ [' ', '\t', ',', '(', ')', '"', '\'', '[', ']', '+', '_', ':', '@', '.']

/-- The text in front of the comment: up to the first `#`, or with no `#` in the line
up to the first `;`. -/
def beforeComment (line : Line) : Line :=
  if '#' ∈ line then line.takeWhile (· != '#') else line.takeWhile (· != ';')

/-- The state in which `print_error` has counted `n` errors. -/
def afterErrors (n : Nat) (s : AsmState) : AsmState :=
  { s with kAcceptableErrors := n }

/-- The text that follows the first `,` of a line. -/
def afterFirstComma (line : Line) : Line := (line.dropWhile (· != ',')).drop 1

/-- The `<name>` of a directive: the text after the first occurrence of the keyword. -/
def directiveName (keyword line : Line) : Line :=
  substr line (posAfter (find line keyword) keyword.length)

/-- Whether `needle` occurs in `text`, as `text.find(needle) != npos` tests it. -/
def containsText (text needle : Line) : Bool := (find text needle).isSome

/-- The text without the first occurrence of `token`. -/
def removeFirst (token : Line) : Line → Line
  | [] => []
  | c :: cs =>
    if token.isPrefixOf (c :: cs) then (c :: cs).drop token.length
    else c :: removeFirst token cs

/-- The name without the first occurrence of the section token it matches: `.text`,
else `.data`, else `.page_zero`. -/
def withoutSection (name : Line) : Line :=
  if containsText name ".text".toList then removeFirst ".text".toList name
  else if containsText name ".data".toList then removeFirst ".data".toList name
  else if containsText name ".page_zero".toList then removeFirst ".page_zero".toList name
  else name

/-- The cleaned name of an `export`: the name without its section token, then without
its spaces. -/
def cleanedName (name : Line) : Line := (withoutSection name).filter (· != ' ')

/-- The kind the section tokens of `i64asm.cc` select, `previous` being the kind the
current record carries from the directive before. -/
def sectionKind (name : Line) (previous : Nat) : Nat :=
  if containsText name ".text".toList then kPefCode
  else if containsText name ".data".toList then kPefData
  else if containsText name ".page_zero".toList then kPefZero
  else previous

/-- The kind of the record a directive opens in `i64asm.cc`. -/
def directiveKind (name : Line) (previous : Nat) : Nat :=
  if name = "__start".toList then kPefCode else sectionKind name previous

/-- A line on which `asm_read_attributes` recognises a directive in the compilation
loop: it passes `CheckLine`, and what `CheckLine` leaves holds `import` or `export`
as `find_word` sees them. -/
def recognisedDirective (line : Line) : Bool :=
  (CheckLine line).1.isEmpty &&
    (find_word (CheckLine line).2 "import ".toList ||
      find_word (CheckLine line).2 "export ".toList)

/-- The variables that only `asm_read_attributes` writes are the same in both states. -/
def sameTables (s s' : AsmState) : Prop :=
  s'.kRecords = s.kRecords ∧ s'.kUndefinedSymbols = s.kUndefinedSymbols ∧
    s'.kOutputAsBinary = s.kOutputAsBinary ∧ s'.kOriginLabel = s.kOriginLabel ∧
    s'.kCurrentRecord = s.kCurrentRecord ∧ s'.kErrorLimit = s.kErrorLimit ∧
    s'.kCounter = s.kCounter

/-- A text in a 64-byte field: the text, then zero bytes up to 64. -/
def zeroPadded (text : Line) : List Char := text ++ List.replicate (64 - text.length) '\x00'

/-- The name with every space and comma replaced by `$`. -/
def dollarName (name : Line) : Line :=
  name.map fun c => if c = ' ' ∨ c = ',' then '$' else c

/-- The mangled form of an imported name as the AE layout states it: the decimal
length of the name, then `:ld:`, then the name with `$` for spaces and commas. -/
def importMangled (name : Line) : Line :=
  (toString name.length).toList ++ ":ld:".toList ++ dollarName name

/-- The state a run of the compilation loop from the initial state in object mode
ends in (the initial state itself when the run does not return). -/
def stateAfter (lines : List Line) : AsmState :=
  ((compileLines lines (initialState false)).state?).getD (initialState false)

/-- A fixed-size array of `w` bytes holding `xs`, as it lies in a packed struct. -/
def fieldBytes (w : Nat) (xs : List Nat) : List Nat := (xs ++ List.replicate w 0).take w

/-- Modelled from the spec: the bytes `operator<<` writes for an `AEHeader`, the packed
struct as it lies in memory.  The widths of `CharType` and `SizeType` (Defines.hpp is
not among the sources) are those of the AE layout: "magic[2]", "arch : 1 byte",
"count : 8 bytes", "size : 1 byte", "start_code : 8 bytes", "code_size : 8 bytes",
"pad[8]", integers low byte first. -/
def AEHeader.serialise (h : AEHeader) : List Nat :=
  fieldBytes 2 (h.fMagic.map Char.toNat) ++ leBytes 1 h.fArch ++ leBytes 8 h.fCount ++
    leBytes 1 h.fSize ++ leBytes 8 h.fStartCode ++ leBytes 8 h.fCodeSize ++
    fieldBytes 8 h.fPad

/-- Modelled from the spec: the bytes `operator<<` writes for an `AERecordHeader`:
"name[64]", "kind : 8 bytes", "size : 8 bytes", "flags : 8 bytes", "offset :
pointer-sized", "pad[8]", with 8-byte pointers. -/
def AERecordHeader.serialise (r : AERecordHeader) : List Nat :=
  fieldBytes 64 (r.fName.map Char.toNat) ++ leBytes 8 r.fKind ++ leBytes 8 r.fSize ++
    leBytes 8 r.fFlags ++ leBytes 8 r.fOffset ++ fieldBytes 8 r.fPad

/-- The file an object-mode run leaves: header, record headers, pseudo-records,
payload. -/
def ObjectFile.serialise (o : ObjectFile) : List Nat :=
  o.hdr.serialise ++ (o.records.map AERecordHeader.serialise).flatten ++
    (o.symbols.map AERecordHeader.serialise).flatten ++ o.payload

/-! ## `EncoderPowerPC::WriteLine` -/

namespace PPC

/-- The operand classes `WriteLine` switches on (the enumeration is declared in
ppc.hpp, which is not among the sources); `other` stands for every value the switch
sends to `default`. -/
inductive OperandType where
  | other
  | PCREL
  | G0REG
  | FREG
  | VREG
  | GREG
deriving DecidableEq, Repr

/-- An entry of `kOpcodesPowerPC` as `WriteLine` reads it: `name`, `ops->type` and
`opcode`.  The table itself is declared in ppc.hpp, so the functions below take it as
an argument, as they do `kAsmRegisterPrefix[0]` and `kAsmRegisterLimit`. -/
structure CpuOpcodePPC where
  name : Line
  type : OperandType
  opcode : Nat
deriving DecidableEq, Repr

/-- Embeds `isalnum`. -/
def isalnum (c : Char) : Bool := isalpha c || isdigit c

/-- The `switch (line[pos + 1])` of the `PCREL` case: the base handed to `strtol` and
the text of the exception. -/
def pcrelBase (c : Char) : Nat × String :=
  if c == 'x' then (16, "invalid_hex")
  else if c == 'b' then (2, "invalid_bin")
  else if c == 'o' then (7, "invalid_octal")
  else (10, "invalid_hex")

/-- The `PCREL` case.  `pos` is the index right after the mnemonic; reading
`line[pos + 1]` past `size()` is undefined. -/
def writePcRel (name line : Line) (s : AsmState) : Outcome Unit :=
  let pos := posAfter (find line name) name.length
  if pos + 1 > line.length then .undefined
  else
    let sel := pcrelBase (charAt line (pos + 1))
    let res := strtol (substr line pos) sel.1
    let s1 := { s with errno := errnoAfter res s.errno }
    if res.value = 0 ∧ s1.errno ≠ 0 then
      (print_error s1).bind fun _ s2 => .throw sel.2 s2
    else
      let numOffset := strtol (substr line pos) sel.1
      let s2 := { s1 with errno := errnoAfter numOffset s1.errno }
      let number := NumberCast32 numOffset.value
      .ret () { s2 with
        kBytes := s2.kBytes ++ [number.getD 0 0, number.getD 1 0, number.getD 2 0, 0x48] }

/-- The loop `for (size_t i = 0; i != reg_index; i++) numIndex += 0x20;` on a `char`. -/
def registerOffset : Nat → Nat
  | 0 => 0
  | n + 1 => (registerOffset n + 0x20) % 256

/-- The string `reg_str` built for the register token at `line_index`. -/
def regToken (line : Line) (line_index : Nat) : Line :=
  if isdigit (charAt line (line_index + 2)) then
    [charAt line (line_index + 1), charAt line (line_index + 2)]
  else [charAt line (line_index + 1)]

/-- The register scan of the `G0REG`/`FREG`/`VREG`/`GREG` case, with `remaining`
rounds to go from `line_index`; it returns `num.number[2]` and `found_some_count`.
`line[line_index + 3]` is read before `line[line_index + 2]` is tested; where it lies
past the end of the line, `line[line_index + 2]` is the terminating zero, so the value
read cannot change the test and `charAt` stands for it. -/
def scanRegisters (regPrefix : Char) (limit : Nat) (name line : Line) :
    Nat → Nat → Nat → Nat → AsmState → Outcome (Nat × Nat)
  | 0, _, byte2, found, s => .ret (byte2, found) s
  | remaining + 1, line_index, byte2, found, s =>
    if charAt line line_index == regPrefix && isdigit (charAt line (line_index + 1)) then
      if isdigit (charAt line (line_index + 3)) && isdigit (charAt line (line_index + 2)) then
        (print_error s).bind fun _ s1 => .throw "invalid_register_index" s1
      else
        let r := strtol (regToken line line_index) 10
        let s1 := { s with errno := errnoAfter r s.errno }
        let reg_index := r.value.toNat
        if reg_index > limit then
          (print_error s1).bind fun _ s2 => .throw "invalid_register_index" s2
        else
          let byte2a := (byte2 + registerOffset reg_index) % 256
          if charAt name 0 == 'm' then .ret (byte2a, found + 1) s1
          else scanRegisters regPrefix limit name line remaining (line_index + 1) byte2a
            (found + 1) s1
    else scanRegisters regPrefix limit name line remaining (line_index + 1) byte2 found s

/-- The `G0REG`/`FREG`/`VREG`/`GREG` case: the scan, the eight bytes of `num`, then the
two tests on the number of registers found. -/
def writeRegisters (regPrefix : Char) (limit : Nat) (op : CpuOpcodePPC) (line : Line)
    (s : AsmState) : Outcome Unit :=
  let num := NumberCast64 op.opcode
  (scanRegisters regPrefix limit op.name line line.length 0 (num.getD 2 0) 0 s).bind
    fun scan s1 =>
      let s2 := { s1 with kBytes := s1.kBytes ++ num.set 2 scan.1 }
      if op.type != .GREG && scan.2 == 1 then
        (print_error s2).bind fun _ s3 => .throw "not_a_register" s3
      else if scan.2 < 1 && op.name != "ld".toList && op.name != "stw".toList then
        (print_error s2).bind fun _ s3 => .throw "invalid_comb_op_reg" s3
      else .ret () s2

/-- The loop `while (jump_label.find(",") != npos)`, at most `rounds` times (each round
shortens `jump_label`, so `jump_label.size() + 1` rounds end it).  Reading
`jump_label[1]` of an empty string is undefined. -/
def operandLoop (regPrefix : Char) :
    Nat → Line → Bool → AsmState → Outcome Line
  | 0, _, _, _ => .undefined
  | rounds + 1, jump_label, found_sym, s =>
    match find jump_label [','] with
    | none => .ret jump_label s
    | some i =>
      let label := (substr jump_label (i + 1)).filter (· != ' ')
      if charAt label 0 != regPrefix then
        if label.length < 1 then .undefined
        else if !isdigit (charAt label 1) then
          if found_sym then
            (print_error s).bind fun _ s1 => .throw "invalid_comb_op_ops" s1
          else operandLoop regPrefix rounds label true s
        else operandLoop regPrefix rounds label found_sym s
      else operandLoop regPrefix rounds label found_sym s

/-- The loop `while (jump_label.find(' ') != npos)` that follows, at most `rounds`
times (each round erases one space). -/
def stripLoop : Nat → Line → Line
  | 0, jump_label => jump_label
  | rounds + 1, jump_label =>
    match find jump_label [' '] with
    | none => jump_label
    | some i =>
      if isalnum (charAt jump_label 0) || isdigit (charAt jump_label 0) then jump_label
      else stripLoop rounds (erase jump_label i 1)

/-- The loop `for (auto &label : kOriginLabel)`: the address of the first pair whose
name is `cpy_jump_label`. -/
def findLabel (cpy_jump_label : Line) : List (Line × Nat) → Option Nat
  | [] => none
  | label :: rest =>
    if cpy_jump_label == label.1 then some label.2 else findLabel cpy_jump_label rest

/-- The loop `for (auto &reloc_chr : mld_reloc_str)`: a backslash and the character
after it are not pushed. -/
def pushReloc : Line → Bool → List Nat
  | [], _ => []
  | reloc_chr :: rest, ignore_back_slash =>
    if reloc_chr == '\x5c' then pushReloc rest true
    else if ignore_back_slash then pushReloc rest false
    else reloc_chr.toNat % 256 :: pushReloc rest false

/-- The statements from the label `asm_write_label` on.  The result is `true` when
control reaches `asm_end_label_cpy` and `false` when a `break` leaves the loop over
the table before it. -/
def writeLabel (name cpy_jump_label : Line) (s : AsmState) : Outcome Bool :=
  let cpy :=
    match find cpy_jump_label ['\n'] with
    | some i => erase cpy_jump_label i 1
    | none => cpy_jump_label
  let tail : Outcome Bool :=
    if cpy.length < 1 then (print_error s).bind fun _ s1 => .throw "label_empty" s1
    else if (find name "ld".toList).isSome || (find name "st".toList).isSome then
      .ret false s
    else
      .ret true { s with
        kBytes := s.kBytes ++
          pushReloc (to_string cpy.length ++ kUndefinedSymbol ++ cpy) false ++ [0] }
  match find cpy "import".toList with
  | some _ =>
    if name == "sta".toList then
      (print_error s).bind fun _ s1 => .throw "import_sta_op" s1
    else .ret true s
  | none =>
    if name == "lda".toList || name == "sta".toList then
      match findLabel cpy s.kOriginLabel with
      | some address => .ret true { s with kBytes := s.kBytes ++ NumberCast64 address }
      | none =>
        if charAt cpy 0 == '0' then
          let first : Outcome Bool :=
            if charAt cpy 1 == 'x' || charAt cpy 1 == 'o' || charAt cpy 1 == 'b' then
              WriteNumber 0 cpy s
            else .ret false s
          first.bind fun done s1 =>
            if done then .ret true s1
            else (WriteNumber 0 cpy s1).bind fun again s2 => .ret again s2
        else tail
    else tail

/-- The body of the loop over the table for the entry `op` that matches the line: the
switch on the operand class, the operand of a `stw`/`ld` mnemonic, and `++kOrigin`
at `asm_end_label_cpy`. -/
def writeEntry (regPrefix : Char) (limit : Nat) (op : CpuOpcodePPC) (line : Line)
    (s : AsmState) : Outcome Bool :=
  let afterSwitch : Outcome Unit :=
    match op.type with
    | .other => .ret () { s with kBytes := s.kBytes ++ NumberCast32 op.opcode }
    | .PCREL => writePcRel op.name line s
    | _ => writeRegisters regPrefix limit op line s
  afterSwitch.bind fun _ s1 =>
    let reached : Outcome Bool :=
      if (find op.name "stw".toList).isSome || (find op.name "ld".toList).isSome then
        (operandLoop regPrefix (line.length + 1) line false s1).bind fun jump_label s2 =>
          let stripped :=
            if charAt jump_label 0 == ' ' then stripLoop jump_label.length jump_label
            else jump_label
          (WriteNumber 0 stripped s2).bind fun written s3 =>
            if !written then
              if op.name == "sta".toList then
                (print_error s3).bind fun _ s4 => .throw "invalid_comb_op_ops" s4
              else writeLabel op.name jump_label s3
            else if op.name == "sta".toList && (find jump_label "import ".toList).isSome then
              (print_error s3).bind fun _ s4 => .throw "invalid_sta_usage" s4
            else writeLabel op.name jump_label s3
      else .ret true s1
    reached.bind fun toEnd s5 =>
      .ret true
        (if toEnd then { s5 with kOrigin := (s5.kOrigin + 1) % 18446744073709551616 } else s5)

/-- The loop `for (auto &opcodePPC : kOpcodesPowerPC)`: the first entry whose name
`find_word` sees in a valid line is written, and the loop ends there. -/
def writeFirstMatch (regPrefix : Char) (limit : Nat) (line : Line) :
    List CpuOpcodePPC → AsmState → Outcome Bool
  | [], s => .ret true s
  | op :: rest, s =>
    if find_word line op.name && is_valid line then writeEntry regPrefix limit op line s
    else writeFirstMatch regPrefix limit line rest s

/-- Embeds `EncoderPowerPC::WriteLine`. -/
def WriteLine (regPrefix : Char) (limit : Nat) (table : List CpuOpcodePPC) (line : Line)
    (s : AsmState) : Outcome Bool :=
  if find_word line "export ".toList then .ret true s
  else writeFirstMatch regPrefix limit line table s

end PPC

/-- The index a register token at `i` denotes: the decimal value of the one or two
digits that follow the prefix character. -/
def registerIndex (line : Line) (i : Nat) : Nat :=
  if isdigit (charAt line (i + 2)) then
    10 * ((charAt line (i + 1)).toNat - 48) + ((charAt line (i + 2)).toNat - 48)
  else (charAt line (i + 1)).toNat - 48

/-- Whether a register token starts at `i`: the prefix character, then a digit. -/
def registerTokenAt (regPrefix : Char) (line : Line) (i : Nat) : Bool :=
  charAt line i == regPrefix && isdigit (charAt line (i + 1))

/-- A directive name that holds none of the section tokens of `i64asm.cc` and is not
`__start`. -/
def untagged (name : Line) : Bool :=
  !containsText name ".text".toList && !containsText name ".data".toList &&
    !containsText name ".page_zero".toList && name != "__start".toList

/-- The `<name>` of the directive on a line: `import` is tested first. -/
def directiveText (line : Line) : Line :=
  if find_word line "import ".toList then directiveName "import ".toList line
  else directiveName "export ".toList line

/-- The text copied into the name field of the record a directive opens: the mangled
form for `import`, the name with `$` for spaces for `export`. -/
def recordText (line : Line) : Line :=
  if find_word line "import ".toList then importMangled (directiveName "import ".toList line)
  else mangle [' '] (directiveName "export ".toList line)

/-- The length of the byte buffer at the moment each directive line of a run of the
compilation loop is processed, in the order of the lines. -/
def bufferAtDirectives : List Line → AsmState → List Nat
  | [], _ => []
  | line :: rest, s =>
    match compileLine line s with
    | .ret _ s1 =>
      if recognisedDirective line then s.kBytes.length :: bufferAtDirectives rest s1
      else bufferAtDirectives rest s1
    | _ => []

/-! ## Lemmas on the embedding -/

theorem NumberCast32_bytes (v : Int) :
    NumberCast32 v = [byteOf v 0, byteOf v 1, byteOf v 2, byteOf v 3] := by
  simp only [NumberCast32, leBytes, byteOf]
  have h0 : (0:Int) ≤ v % 4294967296 := Int.emod_nonneg _ (by norm_num)
  obtain ⟨n, hn⟩ := Int.eq_ofNat_of_zero_le h0
  rw [hn]
  simp only [Int.toNat_ofNat]
  norm_num
  refine ⟨?_, ?_, ?_, ?_⟩ <;> omega

theorem errnoAfter_idem (r : StrtoResult) (e : Nat) :
    errnoAfter r (errnoAfter r e) = errnoAfter r e := by
  unfold errnoAfter; split <;> rfl

theorem writeBased_ret {base : Nat} {what : String} {text : Line} {s s' : AsmState} {b : Bool}
    (h : writeBased base what text s = .ret b s') :
    b = true ∧ s' = pushNumber (strtoq text base).value
      { s with errno := errnoAfter (strtoq text base) s.errno } := by
  unfold writeBased at h
  simp only at h
  split at h
  · unfold print_error Outcome.bind at h
    split at h <;> simp at h
  · simp only [Outcome.ret.injEq] at h
    refine ⟨h.1.symm, ?_⟩
    rw [← h.2, errnoAfter_idem]

theorem writeDecimal_ret_true {text : Line} {s s' : AsmState}
    (h : writeDecimal text s = .ret true s') :
    s' = pushNumber (strtoq text 10).value
      { s with errno := errnoAfter (strtoq text 10) s.errno } := by
  unfold writeDecimal at h
  simp only at h
  split at h
  · simp at h
  · simp only [Outcome.ret.injEq, true_and] at h
    rw [← h, errnoAfter_idem]

/-- What a successful `WriteNumber` leaves in the byte buffer. -/
theorem WriteNumber_ret_true {pos : Nat} {jump_label : Line} {s s' : AsmState}
    (h : WriteNumber pos jump_label s = .ret true s') :
    s'.kBytes = s.kBytes ++ (NumberCast32 (parsedValue pos jump_label)).map sentinel := by
  unfold WriteNumber at h
  unfold parsedValue
  split at h
  · simp at h
  split at h
  · simp at h
  split at h
  · next hx => rw [if_pos hx, (writeBased_ret h).2]; rfl
  split at h
  · next hx hb => rw [if_neg hx, if_pos hb, (writeBased_ret h).2]; rfl
  split at h
  · next hx hb ho => rw [if_neg hx, if_neg hb, if_pos ho, (writeBased_ret h).2]; rfl
  · next hx hb ho => rw [if_neg hx, if_neg hb, if_neg ho, writeDecimal_ret_true h]; rfl

theorem writePass_map_sentinel (bs : List Nat) :
    writePass (bs.map sentinel) = bs.map fun b => if b = 0xFF then 0 else b := by
  induction bs with
  | nil => rfl
  | cons b rest ih =>
    by_cases h0 : b = 0
    · simp [writePass, sentinel, h0, ih]
    · by_cases hF : b = 0xFF
      · simp [writePass, sentinel, hF, ih]
      · simp [writePass, sentinel, h0, hF, ih]

theorem map_unsentinel_eq_self_iff (bs : List Nat) :
    (bs.map fun b => if b = 0xFF then 0 else b) = bs ↔ ∀ b ∈ bs, b ≠ 0xFF := by
  induction bs with
  | nil => simp
  | cons b rest ih =>
    simp only [List.map_cons, List.cons.injEq, ih, List.mem_cons, forall_eq_or_imp]
    constructor
    · rintro ⟨h1, h2⟩
      refine ⟨?_, h2⟩
      intro hb
      rw [if_pos hb] at h1
      omega
    · rintro ⟨h1, h2⟩
      exact ⟨if_neg h1, h2⟩

theorem find_eq_none_of_absent (needle : Line) :
    ∀ hay : Line, ¬ needle <:+: hay → find hay needle = none
  | [], h => by
    unfold find
    split
    · next hemp =>
      exfalso; apply h
      have : needle = [] := by simpa using hemp
      rw [this]
    · rfl
  | c :: cs, h => by
    unfold find
    split
    · next hp =>
      exfalso; apply h
      exact (List.isPrefixOf_iff_prefix.1 hp).isInfix
    · have hcs : ¬ needle <:+: cs := fun hi => h (List.infix_cons hi)
      rw [find_eq_none_of_absent needle cs hcs]; rfl

theorem find_word_eq_false_of_absent {hay needle : Line} (h : ¬ needle <:+: hay) :
    find_word hay needle = false := by
  unfold find_word
  rw [find_eq_none_of_absent needle hay h]

theorem find_singleton_none (c : Char) :
    ∀ line : Line, find line [c] = none ↔ c ∉ line
  | [] => by simp [find]
  | a :: rest => by
    unfold find
    by_cases hca : c = a
    · subst hca; simp [List.isPrefixOf]
    · have : ([c].isPrefixOf (a :: rest)) = false := by
        simp [List.isPrefixOf, hca]
      rw [this]
      simp [find_singleton_none c rest, hca]

theorem find_singleton_some (c : Char) :
    ∀ (line : Line) (i : Nat), find line [c] = some i →
      line.take i = line.takeWhile (· != c) ∧
      line.drop (i + 1) = (line.dropWhile (· != c)).drop 1 ∧ i < line.length
  | [], i, h => by simp [find] at h
  | a :: rest, i, h => by
    unfold find at h
    by_cases hca : c = a
    · subst hca
      simp [List.isPrefixOf] at h
      subst h
      simp [List.takeWhile, List.dropWhile]
    · have : ([c].isPrefixOf (a :: rest)) = false := by
        simp [List.isPrefixOf, hca]
      rw [this] at h
      simp only [Bool.false_eq_true, if_false, Option.map_eq_some'] at h
      obtain ⟨j, hj, rfl⟩ := h
      obtain ⟨h1, h2, h3⟩ := find_singleton_some c rest j hj
      have hac : (a != c) = true := by simpa using fun h => hca h.symm
      simp [List.takeWhile, List.dropWhile, hac, h1, h2, h3]

theorem is_not_alnum_space_eq_false_iff (c : Char) :
    is_not_alnum_space c = false ↔ inAllowSet c := by
  unfold is_not_alnum_space inAllowSet
  simp only [Bool.not_eq_false', Bool.or_eq_true, beq_iff_eq, List.mem_cons, List.mem_singleton,
    List.not_mem_nil, or_false]
  tauto

theorem is_valid_iff (line : Line) : is_valid line = true ↔ ∀ c ∈ line, inAllowSet c := by
  unfold is_valid
  rw [Option.isNone_iff_eq_none, List.find?_eq_none]
  constructor
  · intro h c hc
    exact (is_not_alnum_space_eq_false_iff c).1 (by simpa using h c hc)
  · intro h c hc
    simpa using (is_not_alnum_space_eq_false_iff c).2 (h c hc)

theorem nothing_on_right_foldl (sub : Line) (acc : Bool) :
    sub.foldl (fun acc ch => if ch != ' ' && ch != '\t' then false else acc) acc = true ↔
      acc = true ∧ ∀ c ∈ sub, c = ' ' ∨ c = '\t' := by
  induction sub generalizing acc with
  | nil => simp
  | cons a rest ih =>
    rw [List.foldl_cons, ih]
    by_cases h : (a != ' ' && a != '\t') = true
    · rw [if_pos h]
      simp only [Bool.and_eq_true, bne_iff_ne, ne_eq] at h
      simp [h.1, h.2]
    · rw [if_neg h]
      simp only [Bool.and_eq_true, bne_iff_ne, ne_eq, not_and, not_not] at h
      have : a = ' ' ∨ a = '\t' := by
        by_cases h1 : a = ' '
        · exact Or.inl h1
        · exact Or.inr (h h1)
      simp [this]

theorem nothing_on_right_iff (sub : Line) :
    nothing_on_right sub = true ↔ ∀ c ∈ sub, c = ' ' ∨ c = '\t' := by
  unfold nothing_on_right
  rw [nothing_on_right_foldl]; simp

theorem find_isSome_of_find_word {hay needle : Line} (h : find_word hay needle = true) :
    ∃ i, find hay needle = some i := by
  unfold find_word at h
  cases hf : find hay needle with
  | none => rw [hf] at h; cases h
  | some i => exact ⟨i, rfl⟩

theorem readAttributes_binary (marker : Line) (tokens : List (Line × Nat)) (start : Line)
    (line : Line) (s : AsmState) (hbin : s.kOutputAsBinary = true)
    (hdir : find_word line "import ".toList = true ∨ find_word line "export ".toList = true) :
    readAttributes marker tokens start line s =
      if s.kErrorLimit < s.kAcceptableErrors then .exit 3 s
      else .throw
        (if find_word line "import ".toList then "invalid_import_bin" else "invalid_export_bin")
        (afterErrors ((s.kAcceptableErrors + 1) % 4294967296) s) := by
  unfold readAttributes print_error Outcome.bind afterErrors
  generalize find_word line "import ".toList = bi at hdir
  generalize find_word line "export ".toList = be at hdir
  by_cases hl : s.kErrorLimit < s.kAcceptableErrors
  · cases bi <;> cases be <;> simp [hbin, hl] at hdir ⊢
  · cases bi <;> cases be <;> simp [hbin, hl] at hdir ⊢

theorem to_string_eq (n : Nat) : to_string n = (toString n).toList := rfl

theorem find_bound (needle : Line) :
    ∀ (hay : Line) (i : Nat), find hay needle = some i → i + needle.length ≤ hay.length
  | [], i, h => by
    unfold find at h
    split at h
    · next he =>
      have : needle = [] := by simpa using he
      cases h
      simp [this]
    · cases h
  | c :: cs, i, h => by
    unfold find at h
    split at h
    · next hp =>
      cases h
      have := (List.isPrefixOf_iff_prefix.1 hp).length_le
      simpa using this
    · simp only [Option.map_eq_some'] at h
      obtain ⟨j, hj, rfl⟩ := h
      have := find_bound needle cs j hj
      simp only [List.length_cons]
      omega

theorem isPrefixOf_map_fixed (f : Char → Char) :
    ∀ (tok l : Line), (∀ c ∈ tok, ∀ x, f x = c ↔ x = c) →
      tok.isPrefixOf (l.map f) = tok.isPrefixOf l
  | [], l, _ => by simp [List.isPrefixOf]
  | c :: t, [], _ => by simp [List.isPrefixOf]
  | c :: t, x :: xs, hf => by
    have ht : ∀ c' ∈ t, ∀ x, f x = c' ↔ x = c' := fun c' hc' => hf c' (List.mem_cons_of_mem _ hc')
    have hc : (c == f x) = (c == x) := by
      have := hf c (List.mem_cons_self _ _) x
      by_cases hx : x = c
      · subst hx; simp [this.2 rfl]
      · have hfx : f x ≠ c := fun h => hx (this.1 h)
        have h1 : (c == f x) = false := by simpa using fun h => hfx h.symm
        have h2 : (c == x) = false := by simpa using fun h => hx h.symm
        rw [h1, h2]
    simp only [List.map_cons, List.isPrefixOf, hc, isPrefixOf_map_fixed f t xs ht]

theorem find_map_fixed (f : Char → Char) (tok : Line)
    (hf : ∀ c ∈ tok, ∀ x, f x = c ↔ x = c) :
    ∀ l : Line, find (l.map f) tok = find l tok
  | [] => rfl
  | x :: xs => by
    have hp := isPrefixOf_map_fixed f tok (x :: xs) hf
    simp only [List.map_cons] at hp
    simp only [List.map_cons, find, hp, find_map_fixed f tok hf xs]

theorem map_fixed_beq (f : Char → Char) :
    ∀ (t l : Line), (∀ c ∈ t, ∀ x, f x = c ↔ x = c) → (l.map f == t) = (l == t)
  | [], [], _ => rfl
  | [], x :: xs, _ => rfl
  | c :: t, [], _ => rfl
  | c :: t, x :: xs, hf => by
    have ht : ∀ c' ∈ t, ∀ x, f x = c' ↔ x = c' := fun c' hc' => hf c' (List.mem_cons_of_mem _ hc')
    have hc : (f x == c) = (x == c) := by
      have := hf c (List.mem_cons_self _ _) x
      by_cases hx : x = c
      · subst hx; simp [this.2 rfl]
      · have hfx : f x ≠ c := fun h => hx (this.1 h)
        have h1 : (f x == c) = false := by simpa using hfx
        have h2 : (x == c) = false := by simpa using hx
        rw [h1, h2]
    have ih := map_fixed_beq f t xs ht
    simp only [List.map_cons, List.cons_beq_cons] at ih ⊢
    rw [hc, ih]

theorem mangle_fixes (targets : List Char) (c : Char) (hc : c ≠ '$') (ht : c ∉ targets) (x : Char) :
    (if targets.contains x then '$' else x) = c ↔ x = c := by
  by_cases hx : targets.contains x = true
  · rw [if_pos hx]
    have hx' : x ∈ targets := by simpa using hx
    constructor
    · intro h; exact absurd h.symm hc
    · intro h; subst h; exact absurd hx' ht
  · rw [if_neg hx]

theorem find_mangle (targets : List Char) (tok name : Line)
    (h : ∀ c ∈ tok, c ≠ '$' ∧ c ∉ targets) :
    find (mangle targets name) tok = find name tok :=
  find_map_fixed _ tok (fun c hc x => mangle_fixes targets c (h c hc).1 (h c hc).2 x) name

theorem mangle_beq (targets : List Char) (t name : Line)
    (h : ∀ c ∈ t, c ≠ '$' ∧ c ∉ targets) :
    (mangle targets name == t) = (name == t) :=
  map_fixed_beq _ t name (fun c hc x => mangle_fixes targets c (h c hc).1 (h c hc).2 x)

theorem erase_eq_removeFirst (tok : Line) :
    ∀ (name : Line) (i : Nat), find name tok = some i → erase name i tok.length = removeFirst tok name
  | [], i, h => by
    unfold find at h
    split at h
    · next he =>
      have : tok = [] := by simpa using he
      cases h
      simp [erase, removeFirst]
    · cases h
  | c :: cs, i, h => by
    unfold find at h
    split at h
    · next hp =>
      cases h
      simp [erase, removeFirst, hp]
    · next hp =>
      simp only [Option.map_eq_some'] at h
      obtain ⟨j, hj, rfl⟩ := h
      have ih := erase_eq_removeFirst tok cs j hj
      simp only [erase] at ih
      simp only [erase, removeFirst, hp, Bool.false_eq_true, if_false, List.take_succ_cons,
        List.cons_append, List.cons.injEq, true_and]
      rw [← ih]
      congr 1
      have : j + 1 + tok.length = (j + tok.length) + 1 := by omega
      rw [this, List.drop_succ_cons]

theorem setLastSize_length (recs : List AERecordHeader) (n : Nat) :
    (setLastSize recs n).length = recs.length := by
  unfold setLastSize
  split
  · next h =>
    have : recs = [] := by simpa using h
    simp [this]
  · next last before h =>
    have := congrArg List.length h
    simp at this ⊢
    omega

theorem posAfter_le_of_find_word {line kw : Line} (h : find_word line kw = true) :
    posAfter (find line kw) kw.length ≤ line.length := by
  obtain ⟨i, hi⟩ := find_isSome_of_find_word h
  rw [hi]
  exact find_bound kw line i hi

theorem openRecord_fits (text : Line) (kind : Nat) (s : AsmState)
    (h : text.length ≤ kAESymbolLen) :
    openRecord text kind s = .ret true
      { s with
        kRecords := setLastSize s.kRecords s.kBytes.length ++
          [{ s.kCurrentRecord with
              fKind := kind
              fName := nameField text
              fPad := List.replicate kAEPad kAEInvalidOpcode }]
        kCurrentRecord :=
          { s.kCurrentRecord with
            fKind := kind
            fName := nameField text
            fPad := List.replicate kAEPad kAEInvalidOpcode }
        kCounter := (s.kCounter + 1) % 18446744073709551616 } := by
  unfold openRecord
  rw [if_neg (by omega)]

theorem section_tokens_plain :
    (∀ c ∈ ".text".toList, c ≠ '$' ∧ c ∉ [' ', ',']) ∧
    (∀ c ∈ ".data".toList, c ≠ '$' ∧ c ∉ [' ', ',']) ∧
    (∀ c ∈ ".page_zero".toList, c ≠ '$' ∧ c ∉ [' ', ',']) ∧
    (∀ c ∈ "__start".toList, c ≠ '$' ∧ c ∉ [' ', ',']) := by
  decide

theorem plain_weaken {tok : Line} (h : ∀ c ∈ tok, c ≠ '$' ∧ c ∉ [' ', ',']) :
    ∀ c ∈ tok, c ≠ '$' ∧ c ∉ [' '] := by
  intro c hc
  refine ⟨(h c hc).1, ?_⟩
  intro hm
  apply (h c hc).2
  simp only [List.mem_singleton] at hm
  simp [hm]

theorem importKind_sectionKinds (name : Line) (kind : Nat) :
    importKind sectionKinds (mangle [' ', ','] name) kind = sectionKind name kind := by
  obtain ⟨h1, h2, h3, _⟩ := section_tokens_plain
  simp only [importKind, sectionKinds, sectionKind, containsText, find_mangle _ _ _ h1,
    find_mangle _ _ _ h2, find_mangle _ _ _ h3]

theorem eraseToken_removeFirst {name tok : Line} (h : (find name tok).isSome = true) :
    eraseToken name tok = some (removeFirst tok name) := by
  unfold eraseToken
  cases hf : find name tok with
  | none => rw [hf] at h; cases h
  | some i => simp only [erase_eq_removeFirst tok name i hf]

theorem classify_sectionKinds (name : Line) (kind : Nat) :
    classify sectionKinds (mangle [' '] name) name kind =
      some (withoutSection name, sectionKind name kind) := by
  obtain ⟨h1, h2, h3, _⟩ := section_tokens_plain
  simp only [classify, sectionKinds, sectionKind, withoutSection, containsText,
    find_mangle _ _ _ (plain_weaken h1), find_mangle _ _ _ (plain_weaken h2),
    find_mangle _ _ _ (plain_weaken h3)]
  by_cases c1 : (find name ".text".toList).isSome = true
  · rw [if_pos c1, if_pos c1, if_pos c1, eraseToken_removeFirst c1]; rfl
  · rw [if_neg c1, if_neg c1, if_neg c1]
    by_cases c2 : (find name ".data".toList).isSome = true
    · rw [if_pos c2, if_pos c2, if_pos c2, eraseToken_removeFirst c2]; rfl
    · rw [if_neg c2, if_neg c2, if_neg c2]
      by_cases c3 : (find name ".page_zero".toList).isSome = true
      · rw [if_pos c3, if_pos c3, if_pos c3, eraseToken_removeFirst c3]; rfl
      · rw [if_neg c3, if_neg c3, if_neg c3]

/-- What `asm_read_attributes` does with a recognised `import` in object mode. -/
theorem asm_read_attributes_import (line : Line) (s : AsmState)
    (hobj : s.kOutputAsBinary = false) (hrec : find_word line "import ".toList = true) :
    asm_read_attributes line s =
      openRecord (to_string (directiveName "import ".toList line).length ++ kUndefinedSymbol ++
          mangle [' ', ','] (directiveName "import ".toList line))
        (directiveKind (directiveName "import ".toList line) s.kCurrentRecord.fKind) s := by
  have hpos := posAfter_le_of_find_word hrec
  have hb : ¬ (s.kOutputAsBinary = true) := by rw [hobj]; exact Bool.false_ne_true
  unfold asm_read_attributes readAttributes
  rw [if_pos hrec, if_neg hb]
  dsimp only
  rw [if_neg (by exact Nat.not_lt.mpr hpos)]
  rw [importKind_sectionKinds, mangle_beq _ _ _ section_tokens_plain.2.2.2]
  unfold directiveKind directiveName
  by_cases hs : substr line (posAfter (find line "import ".toList) "import ".toList.length)
      = "__start".toList
  · rw [if_pos hs, if_pos (by rw [beq_iff_eq]; exact hs)]; rfl
  · rw [if_neg hs, if_neg (by rw [beq_iff_eq]; exact hs)]; rfl

/-- What `asm_read_attributes` does with a recognised `export` in object mode. -/
theorem asm_read_attributes_export (line : Line) (s : AsmState)
    (hobj : s.kOutputAsBinary = false) (himp : find_word line "import ".toList = false)
    (hrec : find_word line "export ".toList = true) :
    asm_read_attributes line s =
      openRecord (mangle [' '] (directiveName "export ".toList line))
        (directiveKind (directiveName "export ".toList line) s.kCurrentRecord.fKind)
        { s with
          kOriginLabel := s.kOriginLabel ++
            [(cleanedName (directiveName "export ".toList line), s.kOrigin)]
          kOrigin := (s.kOrigin + 1) % 18446744073709551616 } := by
  have hpos := posAfter_le_of_find_word hrec
  have hb : ¬ (s.kOutputAsBinary = true) := by rw [hobj]; exact Bool.false_ne_true
  have hi : ¬ (find_word line "import ".toList = true) := by rw [himp]; exact Bool.false_ne_true
  unfold asm_read_attributes readAttributes
  rw [if_neg hi, if_pos hrec, if_neg hb]
  dsimp only
  rw [if_neg (by exact Nat.not_lt.mpr hpos)]
  rw [classify_sectionKinds, mangle_beq _ _ _ (plain_weaken section_tokens_plain.2.2.2)]
  unfold directiveKind directiveName cleanedName
  dsimp only
  by_cases hs : substr line (posAfter (find line "export ".toList) "export ".toList.length)
      = "__start".toList
  · rw [if_pos hs, if_pos (by rw [beq_iff_eq]; exact hs)]; rfl
  · rw [if_neg hs, if_neg (by rw [beq_iff_eq]; exact hs)]; rfl

theorem sameTables_refl (s : AsmState) : sameTables s s :=
  ⟨rfl, rfl, rfl, rfl, rfl, rfl, rfl⟩

theorem sameTables_trans {a b c : AsmState} (h1 : sameTables a b) (h2 : sameTables b c) :
    sameTables a c := by
  obtain ⟨a1, a2, a3, a4, a5, a6, a7⟩ := h1
  obtain ⟨b1, b2, b3, b4, b5, b6, b7⟩ := h2
  exact ⟨b1.trans a1, b2.trans a2, b3.trans a3, b4.trans a4, b5.trans a5, b6.trans a6,
    b7.trans a7⟩

theorem print_error_ret {s s' : AsmState} (h : print_error s = .ret () s') :
    sameTables s s' ∧ s'.kBytes = s.kBytes ∧ s'.kOrigin = s.kOrigin := by
  unfold print_error at h
  split at h
  · cases h
  · cases h
    exact ⟨sameTables_refl _, rfl, rfl⟩

theorem writeDecimal_ret {text : Line} {s s' : AsmState} {b : Bool}
    (h : writeDecimal text s = .ret b s') : sameTables s s' ∧ s'.kOrigin = s.kOrigin := by
  unfold writeDecimal at h
  simp only at h
  split at h
  · cases h
    exact ⟨sameTables_refl _, rfl⟩
  · cases h
    exact ⟨sameTables_refl _, rfl⟩

theorem WriteNumber_ret {pos : Nat} {jump_label : Line} {s s' : AsmState} {b : Bool}
    (h : WriteNumber pos jump_label s = .ret b s') :
    sameTables s s' ∧ s'.kOrigin = s.kOrigin := by
  unfold WriteNumber at h
  split at h
  · cases h
  split at h
  · cases h; exact ⟨sameTables_refl _, rfl⟩
  split at h
  · rw [(writeBased_ret h).2]; exact ⟨sameTables_refl _, rfl⟩
  split at h
  · rw [(writeBased_ret h).2]; exact ⟨sameTables_refl _, rfl⟩
  split at h
  · rw [(writeBased_ret h).2]; exact ⟨sameTables_refl _, rfl⟩
  · exact writeDecimal_ret h

theorem writeOpcodes_ret (line : Line) :
    ∀ (table : List CpuCodeAMD64) (s s' : AsmState),
      writeOpcodes line table s = .ret () s' → sameTables s s' ∧ s'.kOrigin = s.kOrigin
  | [], s, s', h => by
    unfold writeOpcodes at h
    cases h
    exact ⟨sameTables_refl _, rfl⟩
  | op :: rest, s, s', h => by
    unfold writeOpcodes at h
    split at h
    · dsimp only at h
      split at h
      · split at h
        · next b s2 hw =>
          have h1 := WriteNumber_ret hw
          have h2 := writeOpcodes_ret line rest s2 s' h
          exact ⟨sameTables_trans (sameTables_trans (sameTables_refl _) h1.1) h2.1,
            h2.2.trans h1.2⟩
        · cases h
        · cases h
        · cases h
      · have h2 := writeOpcodes_ret line rest _ s' h
        exact ⟨sameTables_trans (sameTables_refl _) h2.1, h2.2⟩
    · exact writeOpcodes_ret line rest s s' h

theorem orgStep_sameTables (text : Line) (bases : List Nat) :
    ∀ s : AsmState, sameTables s (bases.foldl (orgStep text) s) ∧
      (bases.foldl (orgStep text) s).kBytes = s.kBytes := by
  induction bases with
  | nil => intro s; exact ⟨sameTables_refl _, rfl⟩
  | cons b rest ih =>
    intro s
    rw [List.foldl_cons]
    have := ih (orgStep text s b)
    exact ⟨sameTables_trans (sameTables_refl _) this.1, this.2⟩

theorem writeDirectives_ret {line : Line} {s s' : AsmState} {b : Bool}
    (h : writeDirectives line s = .ret b s') : sameTables s s' := by
  unfold writeDirectives at h
  dsimp only at h
  cases hdb : (match find line "db".toList with
      | some i => WriteNumber (i + 2 + 1) line s
      | none => Outcome.ret true s) with
  | ret b1 s1 =>
    rw [hdb] at h
    have h1 : sameTables s s1 := by
      split at hdb
      · exact (WriteNumber_ret hdb).1
      · cases hdb; exact sameTables_refl _
    unfold Outcome.bind at h
    dsimp only at h
    split at h
    · split at h
      · cases h
      · cases h
        exact sameTables_trans h1 (orgStep_sameTables _ _ _).1
    · cases h
      exact h1
  | throw w s1 => rw [hdb] at h; cases h
  | exit c s1 => rw [hdb] at h; cases h
  | undefined => rw [hdb] at h; cases h

theorem WriteLine_ret {line : Line} {s s' : AsmState} {b : Bool}
    (h : WriteLine line s = .ret b s') : sameTables s s' := by
  unfold WriteLine at h
  split at h
  · cases h; exact sameTables_refl _
  · cases ho : writeOpcodes line kOpcodesAMD64 s with
    | ret u s1 =>
      rw [ho] at h
      unfold Outcome.bind at h
      dsimp only at h
      cases u
      exact sameTables_trans (writeOpcodes_ret line _ s s1 ho).1 (writeDirectives_ret h)
    | throw w s1 => rw [ho] at h; cases h
    | exit c s1 => rw [ho] at h; cases h
    | undefined => rw [ho] at h; cases h

theorem openRecord_ret {text : Line} {kind : Nat} {s s' : AsmState} {b : Bool}
    (h : openRecord text kind s = .ret b s') :
    b = true ∧ text.length ≤ kAESymbolLen ∧
      s'.kRecords = setLastSize s.kRecords s.kBytes.length ++
        [{ s.kCurrentRecord with
            fKind := kind
            fName := nameField text
            fPad := List.replicate kAEPad kAEInvalidOpcode }] ∧
      s'.kUndefinedSymbols = s.kUndefinedSymbols ∧ s'.kOutputAsBinary = s.kOutputAsBinary ∧
      s'.kBytes = s.kBytes ∧ s'.kOriginLabel = s.kOriginLabel ∧ s'.kOrigin = s.kOrigin := by
  unfold openRecord at h
  split at h
  · cases h
  · next hlen =>
    cases h
    exact ⟨rfl, by omega, rfl, rfl, rfl, rfl, rfl, rfl⟩

/-- Every way `asm_read_attributes` can return: `false` on a line without directive,
leaving the state alone, or `true` in object mode with one record appended. -/
theorem asm_read_attributes_ret {line : Line} {s s' : AsmState} {b : Bool}
    (h : asm_read_attributes line s = .ret b s') :
    (b = false ∧ s' = s ∧ find_word line "import ".toList = false ∧
        find_word line "export ".toList = false) ∨
      (b = true ∧ s.kOutputAsBinary = false ∧
        (find_word line "import ".toList = true ∨ find_word line "export ".toList = true) ∧
        (∃ rec, s'.kRecords = setLastSize s.kRecords s.kBytes.length ++ [rec]) ∧
        s'.kUndefinedSymbols = s.kUndefinedSymbols ∧ s'.kOutputAsBinary = s.kOutputAsBinary ∧
        s'.kBytes = s.kBytes) := by
  by_cases hi : find_word line "import ".toList = true
  · by_cases hbin : s.kOutputAsBinary = true
    · exfalso
      unfold asm_read_attributes at h
      rw [readAttributes_binary _ _ _ line s hbin (Or.inl hi)] at h
      split at h <;> cases h
    · have hobj : s.kOutputAsBinary = false := by simpa using hbin
      rw [asm_read_attributes_import line s hobj hi] at h
      obtain ⟨hb, _, hr, hu, ho, hby, _, _⟩ := openRecord_ret h
      exact Or.inr ⟨hb, hobj, Or.inl hi, ⟨_, hr⟩, hu, ho, hby⟩
  · have hif : find_word line "import ".toList = false := by simpa using hi
    by_cases he : find_word line "export ".toList = true
    · by_cases hbin : s.kOutputAsBinary = true
      · exfalso
        unfold asm_read_attributes at h
        rw [readAttributes_binary _ _ _ line s hbin (Or.inr he)] at h
        split at h <;> cases h
      · have hobj : s.kOutputAsBinary = false := by simpa using hbin
        rw [asm_read_attributes_export line s hobj hif he] at h
        obtain ⟨hb, _, hr, hu, ho, hby, _, _⟩ := openRecord_ret h
        exact Or.inr ⟨hb, hobj, Or.inr he, ⟨_, hr⟩, hu, ho, hby⟩
    · have hef : find_word line "export ".toList = false := by simpa using he
      unfold asm_read_attributes readAttributes at h
      rw [if_neg hi, if_neg he] at h
      cases h
      exact Or.inl ⟨rfl, rfl, hif, hef⟩

/-- A line of the compilation loop that is no directive leaves the record list, the
undefined-symbol list and the output mode as they are. -/
theorem compileLine_plain {line : Line} {s s' : AsmState}
    (hrec : recognisedDirective line = false) (h : compileLine line s = .ret () s') :
    s'.kRecords = s.kRecords ∧ s'.kUndefinedSymbols = s.kUndefinedSymbols ∧
      s'.kOutputAsBinary = s.kOutputAsBinary := by
  unfold compileLine at h
  dsimp only at h
  split at h
  · have := (print_error_ret h).1
    exact ⟨this.1, this.2.1, this.2.2.1⟩
  · next hck =>
    have hemp : (CheckLine line).1.isEmpty = true := by simpa using hck
    unfold recognisedDirective at hrec
    rw [hemp, Bool.true_and] at hrec
    cases ha : asm_read_attributes (CheckLine line).2 s with
    | ret b s1 =>
      rw [ha] at h
      unfold Outcome.bind at h
      dsimp only at h
      cases hw : WriteLine (CheckLine line).2 s1 with
      | ret b2 s2 =>
        rw [hw] at h
        dsimp only at h
        cases h
        have hwl := WriteLine_ret hw
        rcases asm_read_attributes_ret ha with ⟨_, hs, _, _⟩ | ⟨_, _, hdir, _⟩
        · subst hs
          exact ⟨hwl.1, hwl.2.1, hwl.2.2.1⟩
        · exfalso
          rcases hdir with hd | hd <;> rw [hd] at hrec <;> simp at hrec
      | throw w s2 => rw [hw] at h; cases h
      | exit c s2 => rw [hw] at h; cases h
      | undefined => rw [hw] at h; cases h
    | throw w s1 => rw [ha] at h; cases h
    | exit c s1 => rw [ha] at h; cases h
    | undefined => rw [ha] at h; cases h

/-- A directive line of the compilation loop is processed in object mode only, and
appends one record after finalising the size of the record before. -/
theorem compileLine_directive {line : Line} {s s' : AsmState}
    (hrec : recognisedDirective line = true) (h : compileLine line s = .ret () s') :
    s.kOutputAsBinary = false ∧
      (∃ rec, s'.kRecords = setLastSize s.kRecords s.kBytes.length ++ [rec]) ∧
      s'.kUndefinedSymbols = s.kUndefinedSymbols ∧ s'.kOutputAsBinary = s.kOutputAsBinary := by
  unfold recognisedDirective at hrec
  rw [Bool.and_eq_true] at hrec
  unfold compileLine at h
  dsimp only at h
  rw [if_neg (by rw [hrec.1]; decide)] at h
  cases ha : asm_read_attributes (CheckLine line).2 s with
  | ret b s1 =>
    rw [ha] at h
    unfold Outcome.bind at h
    dsimp only at h
    cases hw : WriteLine (CheckLine line).2 s1 with
    | ret b2 s2 =>
      rw [hw] at h
      dsimp only at h
      cases h
      have hwl := WriteLine_ret hw
      rcases asm_read_attributes_ret ha with ⟨_, _, h1, h2⟩ | ⟨_, hobj, _, hr, hu, ho, _⟩
      · exfalso
        rw [h1, h2] at hrec
        simp at hrec
      · obtain ⟨rec, hr⟩ := hr
        exact ⟨hobj, ⟨rec, hwl.1.trans hr⟩, hwl.2.1.trans hu, hwl.2.2.1.trans ho⟩
    | throw w s2 => rw [hw] at h; cases h
    | exit c s2 => rw [hw] at h; cases h
    | undefined => rw [hw] at h; cases h
  | throw w s1 => rw [ha] at h; cases h
  | exit c s1 => rw [ha] at h; cases h
  | undefined => rw [ha] at h; cases h

theorem compileLines_cons_ret {line : Line} {rest : List Line} {s s' : AsmState}
    (h : compileLines (line :: rest) s = .ret () s') :
    ∃ s1, compileLine line s = .ret () s1 ∧ compileLines rest s1 = .ret () s' := by
  unfold compileLines at h
  split at h
  · next u s1 hc => cases u; exact ⟨s1, hc, h⟩
  · cases h
  · cases h
  · cases h

/-- Over a run of the compilation loop the record list grows by one record for each
directive line and the undefined-symbol list does not change. -/
theorem compileLines_count :
    ∀ (lines : List Line) (s s' : AsmState), compileLines lines s = .ret () s' →
      s'.kRecords.length = s.kRecords.length + (lines.filter recognisedDirective).length ∧
        s'.kUndefinedSymbols = s.kUndefinedSymbols ∧ s'.kOutputAsBinary = s.kOutputAsBinary
  | [], s, s', h => by
    unfold compileLines at h
    cases h
    exact ⟨rfl, rfl, rfl⟩
  | line :: rest, s, s', h => by
    obtain ⟨s1, h1, h2⟩ := compileLines_cons_ret h
    obtain ⟨ih1, ih2, ih3⟩ := compileLines_count rest s1 s' h2
    by_cases hrec : recognisedDirective line = true
    · obtain ⟨_, ⟨rec, hr⟩, hu, ho⟩ := compileLine_directive hrec h1
      rw [List.filter_cons_of_pos hrec, ih1, hr]
      simp only [List.length_append, setLastSize_length, List.length_cons, List.length_nil]
      exact ⟨by omega, ih2.trans hu, ih3.trans ho⟩
    · have hrf : recognisedDirective line = false := by simpa using hrec
      obtain ⟨hr, hu, ho⟩ := compileLine_plain hrf h1
      rw [List.filter_cons_of_neg hrec, ih1, hr]
      exact ⟨rfl, ih2.trans hu, ih3.trans ho⟩

/-- Lines that are no directives leave the record list as it is. -/
theorem compileLines_plain :
    ∀ (lines : List Line) (s s' : AsmState),
      (∀ l ∈ lines, recognisedDirective l = false) → compileLines lines s = .ret () s' →
      s'.kRecords = s.kRecords
  | [], s, s', _, h => by
    unfold compileLines at h
    cases h
    rfl
  | line :: rest, s, s', hno, h => by
    obtain ⟨s1, h1, h2⟩ := compileLines_cons_ret h
    have ih := compileLines_plain rest s1 s' (fun l hl => hno l (List.mem_cons_of_mem _ hl)) h2
    exact ih.trans (compileLine_plain (hno line (List.mem_cons_self _ _)) h1).1

theorem setLastSize_append_singleton (recs : List AERecordHeader) (a : AERecordHeader)
    (n : Nat) : setLastSize (recs ++ [a]) n = recs ++ [{ a with fSize := n }] := by
  unfold setLastSize
  simp

theorem mangle_space_comma (name : Line) : mangle [' ', ','] name = dollarName name := by
  unfold mangle dollarName
  apply List.map_congr_left
  intro c _
  by_cases h1 : c = ' '
  · subst h1; rfl
  · by_cases h2 : c = ','
    · subst h2; rfl
    · have : [' ', ','].contains c = false := by simp [h1, h2]
      rw [this]
      simp [h1, h2]

theorem mangle_space (name : Line) :
    mangle [' '] name = name.map fun c => if c = ' ' then '$' else c := by
  unfold mangle
  apply List.map_congr_left
  intro c _
  by_cases h1 : c = ' '
  · subst h1; rfl
  · have : [' '].contains c = false := by simp [h1]
    rw [this]
    simp [h1]

/-- What the `asm_read_attributes` of `ppcasm.cc` does with a recognised `import` in
object mode. -/
theorem PPC_asm_read_attributes_import (line : Line) (s : AsmState)
    (hobj : s.kOutputAsBinary = false) (hrec : find_word line "import ".toList = true) :
    ∃ kind, PPC.asm_read_attributes line s =
      openRecord (to_string (directiveName "import ".toList line).length ++
          PPC.kUndefinedSymbol ++ mangle [' ', ','] (directiveName "import ".toList line))
        kind s := by
  have hpos := posAfter_le_of_find_word hrec
  have hb : ¬ (s.kOutputAsBinary = true) := by rw [hobj]; exact Bool.false_ne_true
  unfold PPC.asm_read_attributes readAttributes
  rw [if_pos hrec, if_neg hb]
  dsimp only
  rw [if_neg (by exact Nat.not_lt.mpr hpos)]
  exact ⟨_, rfl⟩

theorem writeOpcodes_skip (line : Line) (s : AsmState) :
    ∀ table : List CpuCodeAMD64, (∀ op ∈ table, find_word line op.fName = false) →
      writeOpcodes line table s = .ret () s
  | [], _ => rfl
  | op :: rest, h => by
    unfold writeOpcodes
    rw [h op (List.mem_cons_self _ _)]
    simp only [Bool.false_and, Bool.false_eq_true, if_false]
    exact writeOpcodes_skip line s rest (fun o ho => h o (List.mem_cons_of_mem _ ho))

theorem leBytes_length : ∀ (n v : Nat), (leBytes n v).length = n
  | 0, _ => rfl
  | n + 1, v => by simp [leBytes, leBytes_length n]

theorem fieldBytes_length (w : Nat) (xs : List Nat) : (fieldBytes w xs).length = w := by
  unfold fieldBytes
  simp

theorem AEHeader_serialise_length (h : AEHeader) : h.serialise.length = 36 := by
  unfold AEHeader.serialise
  simp [leBytes_length, fieldBytes_length]

theorem AERecordHeader_serialise_length (r : AERecordHeader) : r.serialise.length = 104 := by
  unfold AERecordHeader.serialise
  simp [leBytes_length, fieldBytes_length]

theorem join_serialise_length (rs : List AERecordHeader) :
    ((rs.map AERecordHeader.serialise).flatten).length = 104 * rs.length := by
  induction rs with
  | nil => rfl
  | cons r rest ih =>
    simp only [List.map_cons, List.flatten_cons, List.length_append, ih,
      AERecordHeader_serialise_length, List.length_cons]
    omega

theorem finishRecords_length : ∀ (recs : List AERecordHeader) (n : Nat),
    (finishRecords recs n).length = recs.length
  | [], _ => rfl
  | r :: rest, n => by simp [finishRecords, finishRecords_length rest]

theorem symbolRecords_length : ∀ (syms : List Line) (n : Nat),
    (symbolRecords syms n).length = syms.length
  | [], _ => rfl
  | r :: rest, n => by simp [symbolRecords, symbolRecords_length rest]

/-- The parts of the object the writer builds from a state with records. -/
theorem writeObject_some {pos : Nat} {s : AsmState} {o : ObjectFile}
    (h : writeObject pos s = some o) :
    s.kRecords ≠ [] ∧
      o.records = finishRecords (setLastSize s.kRecords s.kBytes.length) 0 ∧
      o.symbols = symbolRecords s.kUndefinedSymbols (s.kRecords.length + 1) ∧
      o.payload = writePass s.kBytes ∧
      o.hdr = { initialHeader with
        fCount := s.kRecords.length + s.kUndefinedSymbols.length
        fStartCode := pos + sizeofAEHeader +
          sizeofAERecordHeader * (s.kRecords.length + s.kUndefinedSymbols.length)
        fCodeSize := s.kBytes.length } := by
  unfold writeObject at h
  split at h
  · cases h
  · next hne =>
    cases h
    refine ⟨?_, rfl, ?_, rfl, ?_⟩
    · intro h0; rw [h0] at hne; exact hne rfl
    · simp [finishRecords_length, setLastSize_length]
    · simp [finishRecords_length, setLastSize_length, symbolRecords_length]

/-- The record a directive appends: the current record with its kind, name and pad
set. -/
theorem asm_read_attributes_ret_record {line : Line} {s s' : AsmState}
    (h : asm_read_attributes line s = .ret true s') :
    ∃ kind text, s'.kRecords = setLastSize s.kRecords s.kBytes.length ++
      [{ s.kCurrentRecord with
          fKind := kind
          fName := nameField text
          fPad := List.replicate kAEPad kAEInvalidOpcode }] := by
  rcases asm_read_attributes_ret h with ⟨hb, _⟩ | ⟨_, hobj, hdir, _⟩
  · cases hb
  · by_cases hi : find_word line "import ".toList = true
    · rw [asm_read_attributes_import line s hobj hi] at h
      exact ⟨_, _, (openRecord_ret h).2.2.1⟩
    · have hif : find_word line "import ".toList = false := by simpa using hi
      have he : find_word line "export ".toList = true := hdir.resolve_left hi
      rw [asm_read_attributes_export line s hobj hif he] at h
      exact ⟨_, _, (openRecord_ret h).2.2.1⟩

/-- What a round of the compilation loop does to the record list and the byte buffer
of the state it starts from. -/
theorem compileLine_records {line : Line} {s s' : AsmState}
    (h : compileLine line s = .ret () s') :
    s'.kRecords = s.kRecords ∨
      ∃ kind text, s'.kRecords = setLastSize s.kRecords s.kBytes.length ++
        [{ s.kCurrentRecord with
            fKind := kind
            fName := nameField text
            fPad := List.replicate kAEPad kAEInvalidOpcode }] := by
  unfold compileLine at h
  dsimp only at h
  split at h
  · exact Or.inl (print_error_ret h).1.1
  · cases ha : asm_read_attributes (CheckLine line).2 s with
    | ret b s1 =>
      rw [ha] at h
      unfold Outcome.bind at h
      dsimp only at h
      cases hw : WriteLine (CheckLine line).2 s1 with
      | ret b2 s2 =>
        rw [hw] at h
        dsimp only at h
        cases h
        have hwl := (WriteLine_ret hw).1
        cases b with
        | false =>
          rcases asm_read_attributes_ret ha with ⟨_, hs, _⟩ | ⟨hb, _⟩
          · subst hs; exact Or.inl hwl
          · cases hb
        | true =>
          obtain ⟨kind, text, hr⟩ := asm_read_attributes_ret_record ha
          exact Or.inr ⟨kind, text, hwl.trans hr⟩
      | throw w s2 => rw [hw] at h; cases h
      | exit c s2 => rw [hw] at h; cases h
      | undefined => rw [hw] at h; cases h
    | throw w s1 => rw [ha] at h; cases h
    | exit c s1 => rw [ha] at h; cases h
    | undefined => rw [ha] at h; cases h

theorem setLastSize_pad (recs : List AERecordHeader) (n : Nat) (pad : List Nat)
    (h : ∀ r ∈ recs, r.fPad = pad) : ∀ r ∈ setLastSize recs n, r.fPad = pad := by
  rcases List.eq_nil_or_concat recs with h0 | ⟨front, a, h1⟩
  · subst h0
    intro r hr
    simp [setLastSize] at hr
  · subst h1
    rw [List.concat_eq_append] at h ⊢
    rw [setLastSize_append_singleton]
    intro r hr
    rw [List.mem_append, List.mem_singleton] at hr
    rcases hr with hr | hr
    · exact h r (List.mem_append_left _ hr)
    · subst hr
      exact h a (List.mem_append_right _ (List.mem_singleton_self a))

theorem finishRecords_pad (pad : List Nat) :
    ∀ (recs : List AERecordHeader) (n : Nat), (∀ r ∈ recs, r.fPad = pad) →
      ∀ r ∈ finishRecords recs n, r.fPad = pad
  | [], _, _, r, hr => by simp [finishRecords] at hr
  | a :: rest, n, h, r, hr => by
    simp only [finishRecords, List.mem_cons] at hr
    rcases hr with hr | hr
    · subst hr; exact h a (List.mem_cons_self _ _)
    · exact finishRecords_pad pad rest (n + 1) (fun x hx => h x (List.mem_cons_of_mem _ hx)) r hr

theorem symbolRecords_pad :
    ∀ (syms : List Line) (n : Nat), ∀ r ∈ symbolRecords syms n,
      r.fPad = List.replicate kAEPad kAEInvalidOpcode
  | [], _, r, hr => by simp [symbolRecords] at hr
  | a :: rest, n, r, hr => by
    simp only [symbolRecords, List.mem_cons] at hr
    rcases hr with hr | hr
    · subst hr; rfl
    · exact symbolRecords_pad rest (n + 1) r hr

/-- Every record a run of the compilation loop appends has its pad filled with
`kAEInvalidOpcode`. -/
theorem compileLines_pad :
    ∀ (lines : List Line) (s s' : AsmState),
      (∀ r ∈ s.kRecords, r.fPad = List.replicate kAEPad kAEInvalidOpcode) →
      compileLines lines s = .ret () s' →
      ∀ r ∈ s'.kRecords, r.fPad = List.replicate kAEPad kAEInvalidOpcode
  | [], s, s', hs, h => by
    unfold compileLines at h
    cases h
    exact hs
  | line :: rest, s, s', hs, h => by
    obtain ⟨s1, h1, h2⟩ := compileLines_cons_ret h
    refine compileLines_pad rest s1 s' ?_ h2
    rcases compileLine_records h1 with hr | ⟨kind, text, hr⟩
    · rw [hr]; exact hs
    · rw [hr]
      intro r hmem
      rw [List.mem_append, List.mem_singleton] at hmem
      rcases hmem with hm | hm
      · exact setLastSize_pad _ _ _ hs r hm
      · subst hm; rfl

theorem sentinel_ne_zero (b : Nat) : sentinel b ≠ 0 := by
  unfold sentinel
  split <;> omega

theorem pushNumber_nonzero (v : Int) {s : AsmState} (h : 0 ∉ s.kBytes) :
    0 ∉ (pushNumber v s).kBytes := by
  unfold pushNumber
  simp only [List.mem_append, List.mem_map, not_or, not_exists, not_and]
  exact ⟨h, fun b _ hb => sentinel_ne_zero b hb⟩

theorem writeDecimal_nonzero {text : Line} {s s' : AsmState} {b : Bool}
    (h : writeDecimal text s = .ret b s') (hs : 0 ∉ s.kBytes) : 0 ∉ s'.kBytes := by
  unfold writeDecimal at h
  simp only at h
  split at h
  · cases h; exact hs
  · cases h; exact pushNumber_nonzero _ hs

/-- The function `WriteNumber` never leaves a zero byte in the buffer. -/
theorem WriteNumber_nonzero {pos : Nat} {jump_label : Line} {s s' : AsmState} {b : Bool}
    (h : WriteNumber pos jump_label s = .ret b s') (hs : 0 ∉ s.kBytes) : 0 ∉ s'.kBytes := by
  unfold WriteNumber at h
  split at h
  · cases h
  split at h
  · cases h; exact hs
  split at h
  · rw [(writeBased_ret h).2]; exact pushNumber_nonzero _ hs
  split at h
  · rw [(writeBased_ret h).2]; exact pushNumber_nonzero _ hs
  split at h
  · rw [(writeBased_ret h).2]; exact pushNumber_nonzero _ hs
  · exact writeDecimal_nonzero h hs

theorem writeOpcodes_nonzero (line : Line) :
    ∀ (table : List CpuCodeAMD64) (s s' : AsmState),
      (∀ op ∈ table, op.fOpcode % 256 ≠ 0) →
      writeOpcodes line table s = .ret () s' → 0 ∉ s.kBytes → 0 ∉ s'.kBytes
  | [], s, s', _, h, hs => by
    unfold writeOpcodes at h
    cases h
    exact hs
  | op :: rest, s, s', ht, h, hs => by
    have hrest : ∀ o ∈ rest, o.fOpcode % 256 ≠ 0 := fun o ho => ht o (List.mem_cons_of_mem _ ho)
    have hop : op.fOpcode % 256 ≠ 0 := ht op (List.mem_cons_self _ _)
    have hs1 : 0 ∉ s.kBytes ++ [op.fOpcode % 256] := by
      simp only [List.mem_append, List.mem_singleton, not_or]
      exact ⟨hs, fun h0 => hop h0.symm⟩
    unfold writeOpcodes at h
    split at h
    · dsimp only at h
      split at h
      · split at h
        · next b s2 hw =>
          exact writeOpcodes_nonzero line rest s2 s' hrest h (WriteNumber_nonzero hw hs1)
        · cases h
        · cases h
        · cases h
      · exact writeOpcodes_nonzero line rest _ s' hrest h hs1
    · exact writeOpcodes_nonzero line rest s s' hrest h hs

theorem writeDirectives_nonzero {line : Line} {s s' : AsmState} {b : Bool}
    (h : writeDirectives line s = .ret b s') (hs : 0 ∉ s.kBytes) : 0 ∉ s'.kBytes := by
  unfold writeDirectives at h
  dsimp only at h
  cases hdb : (match find line "db".toList with
      | some i => WriteNumber (i + 2 + 1) line s
      | none => Outcome.ret true s) with
  | ret b1 s1 =>
    rw [hdb] at h
    have h1 : 0 ∉ s1.kBytes := by
      split at hdb
      · exact WriteNumber_nonzero hdb hs
      · cases hdb; exact hs
    unfold Outcome.bind at h
    dsimp only at h
    split at h
    · split at h
      · cases h
      · cases h
        rw [(orgStep_sameTables _ _ s1).2]
        exact h1
    · cases h; exact h1
  | throw w s1 => rw [hdb] at h; cases h
  | exit c s1 => rw [hdb] at h; cases h
  | undefined => rw [hdb] at h; cases h

theorem kOpcodesAMD64_nonzero : ∀ op ∈ kOpcodesAMD64, op.fOpcode % 256 ≠ 0 := by decide

theorem WriteLine_nonzero {line : Line} {s s' : AsmState} {b : Bool}
    (h : WriteLine line s = .ret b s') (hs : 0 ∉ s.kBytes) : 0 ∉ s'.kBytes := by
  unfold WriteLine at h
  split at h
  · cases h; exact hs
  · cases ho : writeOpcodes line kOpcodesAMD64 s with
    | ret u s1 =>
      rw [ho] at h
      unfold Outcome.bind at h
      dsimp only at h
      cases u
      exact writeDirectives_nonzero h
        (writeOpcodes_nonzero line _ s s1 kOpcodesAMD64_nonzero ho hs)
    | throw w s1 => rw [ho] at h; cases h
    | exit c s1 => rw [ho] at h; cases h
    | undefined => rw [ho] at h; cases h

theorem compileLine_nonzero {line : Line} {s s' : AsmState}
    (h : compileLine line s = .ret () s') (hs : 0 ∉ s.kBytes) : 0 ∉ s'.kBytes := by
  unfold compileLine at h
  dsimp only at h
  split at h
  · rw [(print_error_ret h).2.1]; exact hs
  · cases ha : asm_read_attributes (CheckLine line).2 s with
    | ret b s1 =>
      rw [ha] at h
      unfold Outcome.bind at h
      dsimp only at h
      cases hw : WriteLine (CheckLine line).2 s1 with
      | ret b2 s2 =>
        rw [hw] at h
        dsimp only at h
        cases h
        refine WriteLine_nonzero hw ?_
        rcases asm_read_attributes_ret ha with ⟨_, h1, _⟩ | ⟨_, _, _, _, _, _, h1⟩
        · rw [h1]; exact hs
        · rw [h1]; exact hs
      | throw w s2 => rw [hw] at h; cases h
      | exit c s2 => rw [hw] at h; cases h
      | undefined => rw [hw] at h; cases h
    | throw w s1 => rw [ha] at h; cases h
    | exit c s1 => rw [ha] at h; cases h
    | undefined => rw [ha] at h; cases h

/-- No run of the compilation loop leaves a zero byte in the byte buffer. -/
theorem compileLines_nonzero :
    ∀ (lines : List Line) (s s' : AsmState), compileLines lines s = .ret () s' →
      0 ∉ s.kBytes → 0 ∉ s'.kBytes
  | [], s, s', h, hs => by
    unfold compileLines at h
    cases h
    exact hs
  | line :: rest, s, s', h, hs => by
    obtain ⟨s1, h1, h2⟩ := compileLines_cons_ret h
    exact compileLines_nonzero rest s1 s' h2 (compileLine_nonzero h1 hs)

theorem writePass_length : ∀ (buf : List Nat), 0 ∉ buf → (writePass buf).length = buf.length
  | [], _ => rfl
  | b :: rest, h => by
    have hb : b ≠ 0 := fun h0 => h (h0 ▸ List.mem_cons_self _ _)
    have hr : 0 ∉ rest := fun h0 => h (List.mem_cons_of_mem _ h0)
    unfold writePass
    rw [if_neg hb]
    split <;> simp [writePass_length rest hr]

/-- The payload of a written object starts at the offset `start_code` of its
serialisation. -/
theorem start_code_drop {s : AsmState} {o : ObjectFile} (h : writeObject 0 s = some o) :
    o.serialise.drop o.hdr.fStartCode = o.payload := by
  obtain ⟨_, hr, hs, _, hh⟩ := writeObject_some h
  have hrl : o.records.length = s.kRecords.length := by
    rw [hr, finishRecords_length, setLastSize_length]
  have hsl : o.symbols.length = s.kUndefinedSymbols.length := by
    rw [hs, symbolRecords_length]
  have hst : o.hdr.fStartCode = 36 + 104 * (s.kRecords.length + s.kUndefinedSymbols.length) := by
    rw [hh]
    simp [sizeofAEHeader, sizeofAERecordHeader]
  unfold ObjectFile.serialise
  have hlen : (o.hdr.serialise ++ (o.records.map AERecordHeader.serialise).flatten ++
      (o.symbols.map AERecordHeader.serialise).flatten).length = o.hdr.fStartCode := by
    rw [List.length_append, List.length_append, AEHeader_serialise_length,
      join_serialise_length, join_serialise_length, hrl, hsl, hst]
    omega
  rw [← hlen, List.drop_left]

theorem finishRecords_offsets :
    ∀ (recs : List AERecordHeader) (k : Nat),
      (finishRecords recs k).map (·.fOffset) = List.range' k recs.length
  | [], _ => rfl
  | a :: rest, k => by
    simp only [finishRecords, List.map_cons, List.length_cons, List.range'_succ]
    rw [finishRecords_offsets rest (k + 1)]

theorem symbolRecords_offsets :
    ∀ (syms : List Line) (k : Nat),
      (symbolRecords syms k).map (·.fOffset) = List.range' k syms.length
  | [], _ => rfl
  | a :: rest, k => by
    simp only [symbolRecords, List.map_cons, List.length_cons, List.range'_succ]
    rw [symbolRecords_offsets rest (k + 1)]

theorem isdigit_cases {c : Char} (h : isdigit c = true) :
    c ∈ ['0', '1', '2', '3', '4', '5', '6', '7', '8', '9'] := by
  unfold isdigit at h
  simp only [Bool.and_eq_true, decide_eq_true_eq] at h
  obtain ⟨h1, h2⟩ := h
  have h1n : 48 ≤ c.toNat := h1
  have h2n : c.toNat ≤ 57 := h2
  have hc : c = Char.ofNat c.toNat := (Char.ofNat_toNat c).symm
  generalize c.toNat = n at h1n h2n hc
  subst hc
  interval_cases n <;> decide

theorem strtol_digits_one :
    ∀ a ∈ ['0', '1', '2', '3', '4', '5', '6', '7', '8', '9'],
      strtol [a] 10 = ⟨((a.toNat - 48 : Nat) : Int), false⟩ := by
  decide

theorem strtol_digits_two :
    ∀ a ∈ ['0', '1', '2', '3', '4', '5', '6', '7', '8', '9'],
      ∀ b ∈ ['0', '1', '2', '3', '4', '5', '6', '7', '8', '9'],
        strtol [a, b] 10 = ⟨((10 * (a.toNat - 48) + (b.toNat - 48) : Nat) : Int), false⟩ := by
  decide

/-- On the one or two digits of a register token `strtol` returns their decimal value
and leaves `errno` alone. -/
theorem strtol_regToken {line : Line} {i : Nat} (h : isdigit (charAt line (i + 1)) = true) :
    strtol (PPC.regToken line i) 10 = ⟨(registerIndex line i : Int), false⟩ := by
  unfold PPC.regToken registerIndex
  split
  · next h2 => exact strtol_digits_two _ (isdigit_cases h) _ (isdigit_cases h2)
  · exact strtol_digits_one _ (isdigit_cases h)

/-- The register scan passes over the positions at which no register token starts. -/
theorem scanRegisters_skip (p : Char) (limit : Nat) (name line : Line) :
    ∀ (k m i0 byte2 found : Nat) (s : AsmState),
      (∀ j, i0 ≤ j → j < i0 + k → registerTokenAt p line j = false) →
      PPC.scanRegisters p limit name line (k + m) i0 byte2 found s =
        PPC.scanRegisters p limit name line m (i0 + k) byte2 found s
  | 0, m, i0, byte2, found, s, _ => by rw [Nat.zero_add, Nat.add_zero]
  | k + 1, m, i0, byte2, found, s, h => by
    have h0 : registerTokenAt p line i0 = false := h i0 (Nat.le_refl _) (by omega)
    unfold registerTokenAt at h0
    have e : k + 1 + m = (k + m) + 1 := by omega
    rw [e]
    conv_lhs => rw [PPC.scanRegisters]
    rw [if_neg (by rw [h0]; decide)]
    rw [scanRegisters_skip p limit name line k m (i0 + 1) byte2 found s
      (fun j hj1 hj2 => h j (by omega) (by omega))]
    have e2 : i0 + 1 + k = i0 + (k + 1) := by omega
    rw [e2]

/-- The scan at the first register token of the line, when that token has three digits
or an index above the limit. -/
theorem scanRegisters_rejects (p : Char) (limit : Nat) (name line : Line) (i byte2 found : Nat)
    (s : AsmState) (hi : i < line.length)
    (htok : registerTokenAt p line i = true)
    (hfirst : ∀ j < i, registerTokenAt p line j = false)
    (hbad : (isdigit (charAt line (i + 2)) = true ∧ isdigit (charAt line (i + 3)) = true) ∨
      limit < registerIndex line i) :
    PPC.scanRegisters p limit name line line.length 0 byte2 found s =
      (print_error s).bind fun _ s1 => .throw "invalid_register_index" s1 := by
  obtain ⟨m, hm⟩ : ∃ m, line.length = i + (m + 1) := ⟨line.length - i - 1, by omega⟩
  rw [hm, scanRegisters_skip p limit name line i (m + 1) 0 byte2 found s
    (fun j _ hj => hfirst j (by omega)), Nat.zero_add]
  unfold registerTokenAt at htok
  rw [PPC.scanRegisters, if_pos htok]
  have hd : isdigit (charAt line (i + 1)) = true := by
    rw [Bool.and_eq_true] at htok; exact htok.2
  by_cases h3 : (isdigit (charAt line (i + 3)) && isdigit (charAt line (i + 2))) = true
  · rw [if_pos h3]
  · rw [if_neg h3]
    have hlim : limit < registerIndex line i := by
      rcases hbad with ⟨h2, h33⟩ | hl
      · exact absurd (by rw [h2, h33]; rfl) h3
      · exact hl
    dsimp only
    rw [strtol_regToken hd]
    have hs : ({ s with errno := errnoAfter ⟨(registerIndex line i : Int), false⟩ s.errno } : AsmState)
        = s := rfl
    rw [hs, if_pos (by simpa using hlim)]

theorem writeFirstMatch_first (p : Char) (limit : Nat) (line : Line) (op : PPC.CpuOpcodePPC)
    (post : List PPC.CpuOpcodePPC) (s : AsmState) :
    ∀ (pre : List PPC.CpuOpcodePPC),
      (∀ e ∈ pre, (find_word line e.name && is_valid line) = false) →
      (find_word line op.name && is_valid line) = true →
      PPC.writeFirstMatch p limit line (pre ++ op :: post) s = PPC.writeEntry p limit op line s
  | [], _, hop => by
    rw [List.nil_append]
    unfold PPC.writeFirstMatch
    rw [if_pos hop]
  | e :: pre, hpre, hop => by
    rw [List.cons_append]
    unfold PPC.writeFirstMatch
    rw [if_neg (by rw [hpre e (List.mem_cons_self _ _)]; decide)]
    exact writeFirstMatch_first p limit line op post s pre
      (fun x hx => hpre x (List.mem_cons_of_mem _ hx)) hop

/-- For a mnemonic that does not start with `m` the scan reaches every register token:
one with three digits or an index above the limit, anywhere in the rounds to go, ends
it. -/
theorem scanRegisters_rejects_any (p : Char) (limit : Nat) (name line : Line) (i : Nat)
    (hm : (charAt name 0 == 'm') = false)
    (htok : registerTokenAt p line i = true)
    (hbad : (isdigit (charAt line (i + 2)) = true ∧ isdigit (charAt line (i + 3)) = true) ∨
      limit < registerIndex line i) :
    ∀ (remaining i0 byte2 found : Nat) (s : AsmState), i0 ≤ i → i < i0 + remaining →
      PPC.scanRegisters p limit name line remaining i0 byte2 found s =
        (print_error s).bind fun _ s1 => .throw "invalid_register_index" s1
  | 0, i0, _, _, _, h1, h2 => by omega
  | remaining + 1, i0, byte2, found, s, h1, h2 => by
    rw [PPC.scanRegisters]
    by_cases ht : (charAt line i0 == p && isdigit (charAt line (i0 + 1))) = true
    · rw [if_pos ht]
      have hd : isdigit (charAt line (i0 + 1)) = true := by
        rw [Bool.and_eq_true] at ht; exact ht.2
      by_cases h3 : (isdigit (charAt line (i0 + 3)) && isdigit (charAt line (i0 + 2))) = true
      · rw [if_pos h3]
      · rw [if_neg h3]
        dsimp only
        rw [strtol_regToken hd]
        have hs : ({ s with errno := errnoAfter ⟨(registerIndex line i0 : Int), false⟩ s.errno } :
            AsmState) = s := rfl
        rw [hs]
        by_cases hl : limit < registerIndex line i0
        · rw [if_pos (by simpa using hl)]
        · rw [if_neg (by simpa using hl), if_neg (by rw [hm]; decide)]
          have hne : i ≠ i0 := by
            rintro rfl
            rcases hbad with ⟨h2a, h3a⟩ | hl2
            · exact h3 (by rw [h2a, h3a]; rfl)
            · exact hl hl2
          exact scanRegisters_rejects_any p limit name line i hm htok hbad remaining (i0 + 1) _ _ s
            (by omega) (by omega)
    · rw [if_neg ht]
      have hne : i ≠ i0 := by
        rintro rfl
        exact ht htok
      exact scanRegisters_rejects_any p limit name line i hm htok hbad remaining (i0 + 1) _ _ s
        (by omega) (by omega)

theorem registerOffset_eq (n : Nat) : PPC.registerOffset n = 0x20 * n % 256 := by
  induction n with
  | zero => rfl
  | succ k ih =>
    unfold PPC.registerOffset
    rw [ih]
    omega

theorem findLabel_first (cpy : Line) (a : Nat) (post : List (Line × Nat)) :
    ∀ (pre : List (Line × Nat)), (∀ l ∈ pre, l.1 ≠ cpy) →
      PPC.findLabel cpy (pre ++ (cpy, a) :: post) = some a
  | [], _ => by
    rw [List.nil_append]
    unfold PPC.findLabel
    rw [if_pos (by simp)]
  | l :: pre, h => by
    rw [List.cons_append]
    unfold PPC.findLabel
    have hne : l.1 ≠ cpy := h l (List.mem_cons_self _ _)
    rw [if_neg (by simpa using fun e => hne e.symm)]
    exact findLabel_first cpy a post pre (fun x hx => h x (List.mem_cons_of_mem _ hx))

/-- Where a text occurs, each of its prefixes occurs. -/
theorem find_isSome_of_longer (short long : Line) (hp : short <+: long) :
    ∀ hay : Line, (find hay long).isSome = true → (find hay short).isSome = true
  | [], h => by
    unfold find at h ⊢
    split at h
    · next he =>
      have hl : long = [] := by simpa using he
      subst hl
      have hs : short = [] := List.prefix_nil.mp hp
      subst hs
      rfl
    · cases h
  | c :: cs, h => by
    unfold find at h ⊢
    by_cases hl : long.isPrefixOf (c :: cs) = true
    · have hs : short.isPrefixOf (c :: cs) = true :=
        List.isPrefixOf_iff_prefix.mpr (hp.trans (List.isPrefixOf_iff_prefix.mp hl))
      rw [if_pos hs]; rfl
    · rw [if_neg hl] at h
      by_cases hs : short.isPrefixOf (c :: cs) = true
      · rw [if_pos hs]; rfl
      · rw [if_neg hs]
        have h1 : (find cs long).isSome = true := by
          cases hf : find cs long with
          | none => rw [hf] at h; cases h
          | some i => rfl
        have h2 := find_isSome_of_longer short long hp cs h1
        cases hf : find cs short with
        | none => rw [hf] at h2; cases h2
        | some i => rfl

/-- A line that passes `is_valid` holds no comment marker, so the text in front of the
comment is the whole line. -/
theorem beforeComment_of_valid {line : Line} (h : is_valid line = true) :
    '#' ∉ line ∧ ';' ∉ line ∧ beforeComment line = line := by
  rw [is_valid_iff] at h
  have h1 : '#' ∉ line := fun hm => by
    have := h '#' hm
    unfold inAllowSet at this
    revert this
    decide
  have h2 : ';' ∉ line := fun hm => by
    have := h ';' hm
    unfold inAllowSet at this
    revert this
    decide
  refine ⟨h1, h2, ?_⟩
  unfold beforeComment
  rw [if_neg h1, List.takeWhile_eq_self_iff]
  intro c hc
  simp only [bne_iff_ne, ne_eq]
  rintro rfl
  exact h2 hc

/-- The comment branch of both `CheckLine` functions, when it reports no error. -/
theorem comment_branch_snd (line : Line) :
    (match find line ['#'] with
      | some i => (([] : Line), eraseFrom line i)
      | none =>
        match find line [';'] with
        | some i => ([], eraseFrom line i)
        | none => if !is_valid line then (msgNonAlnum ++ line, line) else ([], line)).1 = [] →
    (match find line ['#'] with
      | some i => (([] : Line), eraseFrom line i)
      | none =>
        match find line [';'] with
        | some i => ([], eraseFrom line i)
        | none => if !is_valid line then (msgNonAlnum ++ line, line) else ([], line)).2 =
      beforeComment line := by
  intro herr
  cases hf : find line ['#'] with
  | some i =>
    have hmem : '#' ∈ line := by
      by_contra hc
      rw [(find_singleton_none '#' line).2 hc] at hf
      cases hf
    simp only [beforeComment, hmem, if_true, eraseFrom, (find_singleton_some '#' line i hf).1]
  | none =>
    have hnot : '#' ∉ line := (find_singleton_none '#' line).1 hf
    rw [hf] at herr
    cases hg : find line [';'] with
    | some j =>
      simp only [beforeComment, hnot, if_false, eraseFrom, (find_singleton_some ';' line j hg).1]
    | none =>
      rw [hg] at herr
      dsimp only at herr ⊢
      by_cases hv : is_valid line = true
      · simp only [hv, Bool.not_true, Bool.false_eq_true, if_false]
        exact (beforeComment_of_valid hv).2.2.symm
      · exfalso
        have hv2 : is_valid line = false := by simpa using hv
        simp [hv2, msgNonAlnum] at herr

/-- What the AMD64 `CheckLine` leaves when it reports no error. -/
theorem CheckLine_snd (line : Line) (h : (CheckLine line).1 = []) :
    (CheckLine line).2 = beforeComment line := by
  unfold CheckLine at h ⊢
  split at h
  · next hc => rw [if_pos hc]; exact comment_branch_snd line h
  · next hc =>
    rw [if_neg hc]
    by_cases hv : is_valid line = true
    · have hl : beforeComment line = line := (beforeComment_of_valid hv).2.2
      rw [hl]
      simp only [hv, Bool.not_true, Bool.false_eq_true, if_false]
      split
      · split_ifs <;> rfl
      · rfl
    · exfalso
      have hv2 : is_valid line = false := by simpa using hv
      simp [hv2, msgNonAlnum] at h

/-- What the PowerPC `CheckLine` leaves when it reports no error. -/
theorem PPC_CheckLine_snd (opcodeNames : List Line) (line : Line)
    (h : (PPC.CheckLine opcodeNames line).1 = []) :
    (PPC.CheckLine opcodeNames line).2 = beforeComment line := by
  unfold PPC.CheckLine at h ⊢
  split at h
  · next hc => rw [if_pos hc]; exact comment_branch_snd line h
  · next hc =>
    rw [if_neg hc]
    by_cases hv : is_valid line = true
    · have hl : beforeComment line = line := (beforeComment_of_valid hv).2.2
      rw [hl]
      simp only [hv, Bool.not_true, Bool.false_eq_true, if_false]
      split
      · split_ifs <;> rfl
      · rfl
    · exfalso
      have hv2 : is_valid line = false := by simpa using hv
      simp [hv2, msgNonAlnum] at h

/-- The text in front of the comment holds no `#`, and holds a `;` only in front of a
`#`. -/
theorem beforeComment_markers (line : Line) :
    '#' ∉ beforeComment line ∧
      (';' ∈ beforeComment line ↔ '#' ∈ line ∧ ';' ∈ line.takeWhile (· != '#')) := by
  unfold beforeComment
  by_cases hm : '#' ∈ line
  · rw [if_pos hm]
    refine ⟨?_, ?_⟩
    · intro hin
      have := List.mem_takeWhile_imp hin
      simp at this
    · exact ⟨fun h => ⟨hm, h⟩, fun h => h.2⟩
  · rw [if_neg hm]
    refine ⟨?_, ?_⟩
    · intro hin
      exact hm ((List.takeWhile_sublist _).subset hin)
    · constructor
      · intro hin
        have := List.mem_takeWhile_imp hin
        simp at this
      · intro h
        exact absurd h.1 hm

theorem writePass_append (a b : List Nat) : writePass (a ++ b) = writePass a ++ writePass b := by
  induction a with
  | nil => rfl
  | cons x rest ih =>
    rw [List.cons_append, writePass, writePass]
    split_ifs <;> simp [ih]

theorem kOpcodesAMD64_payload :
    ∀ op ∈ kOpcodesAMD64, writePass [op.fOpcode % 256] =
      [if op.fName = "call".toList then 0x00 else op.fOpcode % 256] ∧
      (op.fName = "call".toList ↔ op.fOpcode % 256 = 0xFF) := by
  decide

theorem NumberCast32_length (v : Int) : (NumberCast32 v).length = 4 := by
  unfold NumberCast32
  exact leBytes_length 4 _

theorem pushNumber_bytes (v : Int) (s : AsmState) :
    (pushNumber v s).kBytes = s.kBytes ++ (NumberCast32 v).map sentinel := rfl

/-- How a `case` of the switch in `WriteNumber` ends, and what it leaves in the byte
buffer. -/
theorem writeBased_outcome (base : Nat) (what : String) (text : Line) (s : AsmState) :
    (∃ s' bytes, writeBased base what text s = .ret true s' ∧ bytes.length = 4 ∧
        s'.kBytes = s.kBytes ++ bytes) ∨
      (∃ s', writeBased base what text s = .throw what s' ∧ s'.kBytes = s.kBytes) ∨
      (∃ s', writeBased base what text s = .exit 3 s' ∧ s'.kBytes = s.kBytes) := by
  unfold writeBased
  dsimp only
  split
  · unfold print_error
    split
    · exact Or.inr (Or.inr ⟨_, rfl, rfl⟩)
    · exact Or.inr (Or.inl ⟨_, rfl, rfl⟩)
  · exact Or.inl ⟨_, (NumberCast32 _).map sentinel, rfl,
      by rw [List.length_map, NumberCast32_length], rfl⟩

theorem writeDecimal_outcome (text : Line) (s : AsmState) :
    (∃ s' bytes, writeDecimal text s = .ret true s' ∧ bytes.length = 4 ∧
        s'.kBytes = s.kBytes ++ bytes) ∨
      (∃ s', writeDecimal text s = .ret false s' ∧ s'.kBytes = s.kBytes) := by
  unfold writeDecimal
  dsimp only
  split
  · exact Or.inr ⟨_, rfl, rfl⟩
  · exact Or.inl ⟨_, (NumberCast32 _).map sentinel, rfl,
      by rw [List.length_map, NumberCast32_length], rfl⟩

theorem directiveKind_untagged {name : Line} (h : untagged name = true) (previous : Nat) :
    directiveKind name previous = previous := by
  unfold untagged at h
  simp only [Bool.and_eq_true, Bool.not_eq_true', bne_iff_ne, ne_eq] at h
  obtain ⟨⟨⟨h1, h2⟩, h3⟩, h4⟩ := h
  unfold directiveKind sectionKind
  rw [if_neg h4, h1, h2, h3]
  rfl

/-- A directive that returns leaves the record it opened as the current record: the
current record of before with kind, name and pad set, appended to the record list. -/
theorem asm_read_attributes_opens {line : Line} {s s' : AsmState}
    (h : asm_read_attributes line s = .ret true s') :
    s.kOutputAsBinary = false ∧
    (∃ text, s'.kCurrentRecord =
      { s.kCurrentRecord with
        fKind := directiveKind (directiveText line) s.kCurrentRecord.fKind
        fName := nameField text
        fPad := List.replicate kAEPad kAEInvalidOpcode }) ∧
      s'.kRecords = setLastSize s.kRecords s.kBytes.length ++ [s'.kCurrentRecord] := by
  rcases asm_read_attributes_ret h with ⟨hb, _⟩ | ⟨_, hobj, hdir, _⟩
  · cases hb
  · refine ⟨hobj, ?_⟩
    unfold directiveText
    by_cases hi : find_word line "import ".toList = true
    · rw [asm_read_attributes_import line s hobj hi] at h
      rw [if_pos hi]
      unfold openRecord at h
      split at h
      · cases h
      · cases h
        exact ⟨⟨_, rfl⟩, rfl⟩
    · have hif : find_word line "import ".toList = false := by simpa using hi
      have he : find_word line "export ".toList = true := hdir.resolve_left hi
      rw [asm_read_attributes_export line s hobj hif he] at h
      rw [if_neg hi]
      unfold openRecord at h
      split at h
      · cases h
      · cases h
        exact ⟨⟨_, rfl⟩, rfl⟩

/-- A round of the compilation loop either keeps the record list and the current
record, or opens a record as `asm_read_attributes` does. -/
theorem compileLine_opens {line : Line} {s s' : AsmState}
    (h : compileLine line s = .ret () s') :
    (s'.kRecords = s.kRecords ∧ s'.kCurrentRecord = s.kCurrentRecord) ∨
      ((∃ text, s'.kCurrentRecord =
          { s.kCurrentRecord with
            fKind := directiveKind (directiveText (CheckLine line).2) s.kCurrentRecord.fKind
            fName := nameField text
            fPad := List.replicate kAEPad kAEInvalidOpcode }) ∧
        s'.kRecords = setLastSize s.kRecords s.kBytes.length ++ [s'.kCurrentRecord]) := by
  unfold compileLine at h
  dsimp only at h
  split at h
  · have := (print_error_ret h).1
    exact Or.inl ⟨this.1, this.2.2.2.2.1⟩
  · cases ha : asm_read_attributes (CheckLine line).2 s with
    | ret b s1 =>
      rw [ha] at h
      unfold Outcome.bind at h
      dsimp only at h
      cases hw : WriteLine (CheckLine line).2 s1 with
      | ret b2 s2 =>
        rw [hw] at h
        dsimp only at h
        cases h
        have hwl := WriteLine_ret hw
        cases b with
        | false =>
          rcases asm_read_attributes_ret ha with ⟨_, hs, _⟩ | ⟨hb, _⟩
          · subst hs; exact Or.inl ⟨hwl.1, hwl.2.2.2.2.1⟩
          · cases hb
        | true =>
          obtain ⟨_, ⟨text, hc⟩, hr⟩ := asm_read_attributes_opens ha
          refine Or.inr ⟨⟨text, ?_⟩, ?_⟩
          · rw [hwl.2.2.2.2.1, hc]
          · rw [hwl.1, hwl.2.2.2.2.1, hr]
      | throw w s2 => rw [hw] at h; cases h
      | exit c s2 => rw [hw] at h; cases h
      | undefined => rw [hw] at h; cases h
    | throw w s1 => rw [ha] at h; cases h
    | exit c s1 => rw [ha] at h; cases h
    | undefined => rw [ha] at h; cases h

/-- Which of the two a round does is told by `recognisedDirective`. -/
theorem compileLine_current {line : Line} {s s' : AsmState}
    (h : compileLine line s = .ret () s') :
    (recognisedDirective line = false →
      s'.kRecords = s.kRecords ∧ s'.kCurrentRecord = s.kCurrentRecord) ∧
    (recognisedDirective line = true →
      (∃ text, s'.kCurrentRecord =
          { s.kCurrentRecord with
            fKind := directiveKind (directiveText (CheckLine line).2) s.kCurrentRecord.fKind
            fName := nameField text
            fPad := List.replicate kAEPad kAEInvalidOpcode }) ∧
        s'.kRecords = setLastSize s.kRecords s.kBytes.length ++ [s'.kCurrentRecord]) := by
  constructor
  · intro hrec
    rcases compileLine_opens h with h1 | ⟨_, h2⟩
    · exact h1
    · exfalso
      have := (compileLine_plain hrec h).1
      rw [this] at h2
      have hl := congrArg List.length h2
      simp [setLastSize_length] at hl
  · intro hrec
    rcases compileLine_opens h with ⟨h1, _⟩ | h2
    · exfalso
      obtain ⟨_, ⟨rec, hr⟩, _, _⟩ := compileLine_directive hrec h
      rw [h1] at hr
      have hl := congrArg List.length hr
      simp [setLastSize_length] at hl
    · exact h2

/-- Lines that are no directive keep the record list and the current record. -/
theorem compileLines_plain_current :
    ∀ (lines : List Line) (s s' : AsmState),
      (∀ l ∈ lines, recognisedDirective l = false) → compileLines lines s = .ret () s' →
      s'.kRecords = s.kRecords ∧ s'.kCurrentRecord = s.kCurrentRecord
  | [], s, s', _, h => by
    unfold compileLines at h
    cases h
    exact ⟨rfl, rfl⟩
  | line :: rest, s, s', hno, h => by
    obtain ⟨s1, h1, h2⟩ := compileLines_cons_ret h
    have ih := compileLines_plain_current rest s1 s'
      (fun l hl => hno l (List.mem_cons_of_mem _ hl)) h2
    have h0 := (compileLine_current h1).1 (hno line (List.mem_cons_self _ _))
    exact ⟨ih.1.trans h0.1, ih.2.trans h0.2⟩

theorem writeDecimal_grows {text : Line} {s s' : AsmState} {b : Bool}
    (h : writeDecimal text s = .ret b s') : s.kBytes.length ≤ s'.kBytes.length := by
  unfold writeDecimal at h
  simp only at h
  split at h
  · cases h; exact Nat.le_refl _
  · cases h
    rw [pushNumber_bytes, List.length_append]
    exact Nat.le_add_right _ _

/-- The function `WriteNumber` never shortens the byte buffer. -/
theorem WriteNumber_grows {pos : Nat} {jump_label : Line} {s s' : AsmState} {b : Bool}
    (h : WriteNumber pos jump_label s = .ret b s') : s.kBytes.length ≤ s'.kBytes.length := by
  have hb : ∀ {base : Nat} {what : String} {text : Line},
      writeBased base what text s = .ret b s' → s.kBytes.length ≤ s'.kBytes.length := by
    intro base what text h1
    rw [(writeBased_ret h1).2, pushNumber_bytes, List.length_append]
    exact Nat.le_add_right _ _
  unfold WriteNumber at h
  split at h
  · cases h
  split at h
  · cases h; exact Nat.le_refl _
  split at h
  · exact hb h
  split at h
  · exact hb h
  split at h
  · exact hb h
  · exact writeDecimal_grows h

theorem writeOpcodes_grows (line : Line) :
    ∀ (table : List CpuCodeAMD64) (s s' : AsmState),
      writeOpcodes line table s = .ret () s' → s.kBytes.length ≤ s'.kBytes.length
  | [], s, s', h => by
    unfold writeOpcodes at h
    cases h
    exact Nat.le_refl _
  | op :: rest, s, s', h => by
    unfold writeOpcodes at h
    split at h
    · dsimp only at h
      split at h
      · split at h
        · next b s2 hw =>
          have h1 := WriteNumber_grows hw
          have h2 := writeOpcodes_grows line rest s2 s' h
          simp only [List.length_append, List.length_singleton] at h1
          omega
        · cases h
        · cases h
        · cases h
      · have h2 := writeOpcodes_grows line rest _ s' h
        simp only [List.length_append, List.length_singleton] at h2
        omega
    · exact writeOpcodes_grows line rest s s' h

theorem writeDirectives_grows {line : Line} {s s' : AsmState} {b : Bool}
    (h : writeDirectives line s = .ret b s') : s.kBytes.length ≤ s'.kBytes.length := by
  unfold writeDirectives at h
  dsimp only at h
  cases hdb : (match find line "db".toList with
      | some i => WriteNumber (i + 2 + 1) line s
      | none => Outcome.ret true s) with
  | ret b1 s1 =>
    rw [hdb] at h
    have h1 : s.kBytes.length ≤ s1.kBytes.length := by
      split at hdb
      · exact WriteNumber_grows hdb
      · cases hdb; exact Nat.le_refl _
    unfold Outcome.bind at h
    dsimp only at h
    split at h
    · split at h
      · cases h
      · cases h
        rw [(orgStep_sameTables _ _ s1).2]
        exact h1
    · cases h; exact h1
  | throw w s1 => rw [hdb] at h; cases h
  | exit c s1 => rw [hdb] at h; cases h
  | undefined => rw [hdb] at h; cases h

theorem WriteLine_grows {line : Line} {s s' : AsmState} {b : Bool}
    (h : WriteLine line s = .ret b s') : s.kBytes.length ≤ s'.kBytes.length := by
  unfold WriteLine at h
  split at h
  · cases h; exact Nat.le_refl _
  · cases ho : writeOpcodes line kOpcodesAMD64 s with
    | ret u s1 =>
      rw [ho] at h
      unfold Outcome.bind at h
      dsimp only at h
      cases u
      exact Nat.le_trans (writeOpcodes_grows line _ s s1 ho) (writeDirectives_grows h)
    | throw w s1 => rw [ho] at h; cases h
    | exit c s1 => rw [ho] at h; cases h
    | undefined => rw [ho] at h; cases h

theorem compileLine_grows {line : Line} {s s' : AsmState}
    (h : compileLine line s = .ret () s') : s.kBytes.length ≤ s'.kBytes.length := by
  unfold compileLine at h
  dsimp only at h
  split at h
  · rw [(print_error_ret h).2.1]
  · cases ha : asm_read_attributes (CheckLine line).2 s with
    | ret b s1 =>
      rw [ha] at h
      unfold Outcome.bind at h
      dsimp only at h
      cases hw : WriteLine (CheckLine line).2 s1 with
      | ret b2 s2 =>
        rw [hw] at h
        dsimp only at h
        cases h
        have h2 := WriteLine_grows hw
        rcases asm_read_attributes_ret ha with ⟨_, h1, _⟩ | ⟨_, _, _, _, _, _, h1⟩
        · rw [h1] at h2; exact h2
        · rw [h1] at h2; exact h2
      | throw w s2 => rw [hw] at h; cases h
      | exit c s2 => rw [hw] at h; cases h
      | undefined => rw [hw] at h; cases h
    | throw w s1 => rw [ha] at h; cases h
    | exit c s1 => rw [ha] at h; cases h
    | undefined => rw [ha] at h; cases h

/-- The byte buffer never shrinks over a run of the compilation loop. -/
theorem compileLines_grows :
    ∀ (lines : List Line) (s s' : AsmState), compileLines lines s = .ret () s' →
      s.kBytes.length ≤ s'.kBytes.length
  | [], s, s', h => by
    unfold compileLines at h
    cases h
    exact Nat.le_refl _
  | line :: rest, s, s', h => by
    obtain ⟨s1, h1, h2⟩ := compileLines_cons_ret h
    exact Nat.le_trans (compileLine_grows h1) (compileLines_grows rest s1 s' h2)

theorem bufferAtDirectives_cons {line : Line} {rest : List Line} {s s1 : AsmState}
    (h : compileLine line s = .ret () s1) :
    bufferAtDirectives (line :: rest) s =
      if recognisedDirective line then s.kBytes.length :: bufferAtDirectives rest s1
      else bufferAtDirectives rest s1 := by
  rw [bufferAtDirectives, h]

/-- The buffer lengths met at the directives of a run lie between the length at its
start and the length at its end, and do not decrease. -/
theorem bufferAtDirectives_sorted :
    ∀ (lines : List Line) (s s' : AsmState), compileLines lines s = .ret () s' →
      (∀ m ∈ bufferAtDirectives lines s, s.kBytes.length ≤ m ∧ m ≤ s'.kBytes.length) ∧
        List.Pairwise (· ≤ ·) (bufferAtDirectives lines s)
  | [], s, s', _ => by
    simp [bufferAtDirectives]
  | line :: rest, s, s', h => by
    obtain ⟨s1, h1, h2⟩ := compileLines_cons_ret h
    obtain ⟨ih1, ih2⟩ := bufferAtDirectives_sorted rest s1 s' h2
    have g1 := compileLine_grows h1
    have g2 := compileLines_grows rest s1 s' h2
    rw [bufferAtDirectives_cons h1]
    split
    · refine ⟨?_, ?_⟩
      · intro m hm
        rw [List.mem_cons] at hm
        rcases hm with hm | hm
        · subst hm; exact ⟨Nat.le_refl _, Nat.le_trans g1 g2⟩
        · exact ⟨Nat.le_trans g1 (ih1 m hm).1, (ih1 m hm).2⟩
      · rw [List.pairwise_cons]
        exact ⟨fun m hm => Nat.le_trans g1 (ih1 m hm).1, ih2⟩
    · exact ⟨fun m hm => ⟨Nat.le_trans g1 (ih1 m hm).1, (ih1 m hm).2⟩, ih2⟩

theorem setLastSize_sizes (front : List AERecordHeader) (a : AERecordHeader) (n : Nat) :
    (setLastSize (front ++ [a]) n).map (·.fSize) = front.map (·.fSize) ++ [n] := by
  rw [setLastSize_append_singleton]
  simp

theorem finishRecords_sizes :
    ∀ (recs : List AERecordHeader) (k : Nat),
      (finishRecords recs k).map (·.fSize) = recs.map (·.fSize)
  | [], _ => rfl
  | a :: rest, k => by
    simp only [finishRecords, List.map_cons]
    rw [finishRecords_sizes rest (k + 1)]

/-- The size fields of the record list after a run: with a directive in the run, the
last record of before is finalised at the first directive, every record opened but the
last holds the buffer length met at the directive after it, and the last record holds
the size of the current record. -/
theorem compileLines_sizes :
    ∀ (lines : List Line) (s s' : AsmState), compileLines lines s = .ret () s' →
      s'.kCurrentRecord.fSize = s.kCurrentRecord.fSize ∧
      s'.kRecords.map (·.fSize) =
        match bufferAtDirectives lines s with
        | [] => s.kRecords.map (·.fSize)
        | m :: ms => (setLastSize s.kRecords m).map (·.fSize) ++ ms ++ [s.kCurrentRecord.fSize]
  | [], s, s', h => by
    unfold compileLines at h
    cases h
    exact ⟨rfl, rfl⟩
  | line :: rest, s, s', h => by
    obtain ⟨s1, h1, h2⟩ := compileLines_cons_ret h
    obtain ⟨ihc, ihr⟩ := compileLines_sizes rest s1 s' h2
    rw [bufferAtDirectives_cons h1]
    by_cases hrec : recognisedDirective line = true
    · obtain ⟨⟨text, hc⟩, hr⟩ := (compileLine_current h1).2 hrec
      have hcs : s1.kCurrentRecord.fSize = s.kCurrentRecord.fSize := by rw [hc]
      rw [if_pos hrec]
      refine ⟨ihc.trans hcs, ?_⟩
      rw [ihr]
      cases hb : bufferAtDirectives rest s1 with
      | nil =>
        dsimp only
        rw [hr, List.map_append, List.map_singleton, hcs, List.append_nil]
      | cons m ms =>
        dsimp only
        rw [hr, setLastSize_sizes, hcs]
        simp
    · have hrf : recognisedDirective line = false := by simpa using hrec
      obtain ⟨hr, hc⟩ := (compileLine_current h1).1 hrf
      rw [if_neg hrec]
      refine ⟨ihc.trans (by rw [hc]), ?_⟩
      rw [ihr, hr, hc]

theorem print_error_exit {s s' : AsmState} {c : Nat} (h : print_error s = .exit c s') :
    c = 3 := by
  unfold print_error at h
  split at h
  · cases h; rfl
  · cases h

theorem print_error_bind_throw_exit {α : Type} {what : String} {s s' : AsmState} {c : Nat}
    (h : ((print_error s).bind fun _ s1 => (Outcome.throw what s1 : Outcome α)) = .exit c s') :
    c = 3 := by
  unfold print_error at h
  by_cases hc : s.kAcceptableErrors > s.kErrorLimit
  · rw [if_pos hc] at h
    cases h
    rfl
  · rw [if_neg hc] at h
    cases h

theorem WriteNumber_exit {pos : Nat} {jump_label : Line} {s s' : AsmState} {c : Nat}
    (h : WriteNumber pos jump_label s = .exit c s') : c = 3 := by
  have hb : ∀ {base : Nat} {what : String} {text : Line},
      writeBased base what text s = .exit c s' → c = 3 := by
    intro base what text h1
    unfold writeBased at h1
    dsimp only at h1
    split at h1
    · exact print_error_bind_throw_exit h1
    · cases h1
  unfold WriteNumber at h
  split at h
  · cases h
  split at h
  · cases h
  split at h
  · exact hb h
  split at h
  · exact hb h
  split at h
  · exact hb h
  · unfold writeDecimal at h
    dsimp only at h
    split at h <;> cases h

theorem writeOpcodes_exit (line : Line) :
    ∀ (table : List CpuCodeAMD64) (s s' : AsmState) (c : Nat),
      writeOpcodes line table s = .exit c s' → c = 3
  | [], s, s', c, h => by
    unfold writeOpcodes at h
    cases h
  | op :: rest, s, s', c, h => by
    unfold writeOpcodes at h
    split at h
    · dsimp only at h
      split at h
      · split at h
        · exact writeOpcodes_exit line rest _ s' c h
        · cases h
        · next c2 s2 hw =>
          cases h
          exact WriteNumber_exit hw
        · cases h
      · exact writeOpcodes_exit line rest _ s' c h
    · exact writeOpcodes_exit line rest s s' c h

theorem writeDirectives_exit {line : Line} {s s' : AsmState} {c : Nat}
    (h : writeDirectives line s = .exit c s') : c = 3 := by
  unfold writeDirectives at h
  dsimp only at h
  cases hdb : (match find line "db".toList with
      | some i => WriteNumber (i + 2 + 1) line s
      | none => Outcome.ret true s) with
  | ret b1 s1 =>
    rw [hdb] at h
    unfold Outcome.bind at h
    dsimp only at h
    split at h
    · split at h <;> cases h
    · cases h
  | throw w s1 => rw [hdb] at h; cases h
  | exit c1 s1 =>
    rw [hdb] at h
    cases h
    split at hdb
    · exact WriteNumber_exit hdb
    · cases hdb
  | undefined => rw [hdb] at h; cases h

theorem WriteLine_exit {line : Line} {s s' : AsmState} {c : Nat}
    (h : WriteLine line s = .exit c s') : c = 3 := by
  unfold WriteLine at h
  split at h
  · cases h
  · cases ho : writeOpcodes line kOpcodesAMD64 s with
    | ret u s1 =>
      rw [ho] at h
      exact writeDirectives_exit h
    | throw w s1 => rw [ho] at h; cases h
    | exit c1 s1 =>
      rw [ho] at h
      cases h
      exact writeOpcodes_exit line _ s s' c ho
    | undefined => rw [ho] at h; cases h

theorem asm_read_attributes_exit {line : Line} {s s' : AsmState} {c : Nat}
    (h : asm_read_attributes line s = .exit c s') : c = 3 := by
  unfold asm_read_attributes readAttributes at h
  split at h
  · split at h
    · exact print_error_bind_throw_exit h
    · dsimp only at h
      split at h
      · cases h
      · unfold openRecord at h
        split at h <;> cases h
  · split at h
    · split at h
      · exact print_error_bind_throw_exit h
      · dsimp only at h
        split at h
        · cases h
        · split at h
          · cases h
          · unfold openRecord at h
            split at h <;> cases h
    · cases h

theorem compileLine_exit {line : Line} {s s' : AsmState} {c : Nat}
    (h : compileLine line s = .exit c s') : c = 3 := by
  unfold compileLine at h
  dsimp only at h
  split at h
  · exact print_error_exit h
  · cases ha : asm_read_attributes (CheckLine line).2 s with
    | ret b s1 =>
      rw [ha] at h
      unfold Outcome.bind at h
      dsimp only at h
      cases hw : WriteLine (CheckLine line).2 s1 with
      | ret b2 s2 => rw [hw] at h; cases h
      | throw w s2 => rw [hw] at h; cases h
      | exit c2 s2 =>
        rw [hw] at h
        cases h
        exact WriteLine_exit hw
      | undefined => rw [hw] at h; cases h
    | throw w s1 => rw [ha] at h; cases h
    | exit c1 s1 =>
      rw [ha] at h
      cases h
      exact asm_read_attributes_exit ha
    | undefined => rw [ha] at h; cases h

/-- The only status the compilation loop ends the process with is 3, that of
`print_error`. -/
theorem compileLines_exit :
    ∀ (lines : List Line) (s s' : AsmState) (c : Nat),
      compileLines lines s = .exit c s' → c = 3
  | [], s, s', c, h => by
    unfold compileLines at h
    cases h
  | line :: rest, s, s', c, h => by
    unfold compileLines at h
    split at h
    · exact compileLines_exit rest _ s' c h
    · cases h
    · next c1 s1 hc =>
      cases h
      exact compileLine_exit hc
    · cases h

theorem WriteNumber_extends {pos : Nat} {jump_label : Line} {s s' : AsmState} {b : Bool}
    (h : WriteNumber pos jump_label s = .ret b s') : ∃ extra, s'.kBytes = s.kBytes ++ extra := by
  have hb : ∀ {base : Nat} {what : String} {text : Line},
      writeBased base what text s = .ret b s' → ∃ extra, s'.kBytes = s.kBytes ++ extra := by
    intro base what text h1
    rw [(writeBased_ret h1).2, pushNumber_bytes]
    exact ⟨_, rfl⟩
  unfold WriteNumber at h
  split at h
  · cases h
  split at h
  · cases h; exact ⟨[], (List.append_nil _).symm⟩
  split at h
  · exact hb h
  split at h
  · exact hb h
  split at h
  · exact hb h
  · unfold writeDecimal at h
    simp only at h
    split at h
    · cases h; exact ⟨[], (List.append_nil _).symm⟩
    · cases h
      exact ⟨_, pushNumber_bytes _ _⟩

theorem writeOpcodes_extends (line : Line) :
    ∀ (table : List CpuCodeAMD64) (s s' : AsmState),
      writeOpcodes line table s = .ret () s' → ∃ extra, s'.kBytes = s.kBytes ++ extra
  | [], s, s', h => by
    unfold writeOpcodes at h
    cases h
    exact ⟨[], (List.append_nil _).symm⟩
  | op :: rest, s, s', h => by
    unfold writeOpcodes at h
    split at h
    · dsimp only at h
      split at h
      · split at h
        · next b s2 hw =>
          obtain ⟨e1, h1⟩ := WriteNumber_extends hw
          obtain ⟨e2, h2⟩ := writeOpcodes_extends line rest s2 s' h
          refine ⟨[op.fOpcode % 256] ++ e1 ++ e2, ?_⟩
          rw [h2, h1]
          simp
        · cases h
        · cases h
        · cases h
      · obtain ⟨e2, h2⟩ := writeOpcodes_extends line rest _ s' h
        refine ⟨[op.fOpcode % 256] ++ e2, ?_⟩
        rw [h2]
        simp
    · exact writeOpcodes_extends line rest s s' h

theorem writeDirectives_extends {line : Line} {s s' : AsmState} {b : Bool}
    (h : writeDirectives line s = .ret b s') : ∃ extra, s'.kBytes = s.kBytes ++ extra := by
  unfold writeDirectives at h
  dsimp only at h
  cases hdb : (match find line "db".toList with
      | some i => WriteNumber (i + 2 + 1) line s
      | none => Outcome.ret true s) with
  | ret b1 s1 =>
    rw [hdb] at h
    have h1 : ∃ extra, s1.kBytes = s.kBytes ++ extra := by
      split at hdb
      · exact WriteNumber_extends hdb
      · cases hdb; exact ⟨[], (List.append_nil _).symm⟩
    unfold Outcome.bind at h
    dsimp only at h
    split at h
    · split at h
      · cases h
      · cases h
        rw [(orgStep_sameTables _ _ s1).2]
        exact h1
    · cases h; exact h1
  | throw w s1 => rw [hdb] at h; cases h
  | exit c s1 => rw [hdb] at h; cases h
  | undefined => rw [hdb] at h; cases h

/-- The opcode loop over a table in two parts is the loop over the first part, then
the loop over the second. -/
theorem writeOpcodes_append_ret (line : Line) (post : List CpuCodeAMD64) :
    ∀ (pre : List CpuCodeAMD64) (s s' : AsmState),
      writeOpcodes line (pre ++ post) s = .ret () s' →
      ∃ s1, writeOpcodes line pre s = .ret () s1 ∧ writeOpcodes line post s1 = .ret () s'
  | [], s, s', h => ⟨s, rfl, h⟩
  | op :: rest, s, s', h => by
    rw [List.cons_append] at h
    rw [writeOpcodes] at h
    rw [writeOpcodes]
    split at h
    · next hm =>
      rw [if_pos hm]
      dsimp only at h ⊢
      split at h
      · next hmov =>
        rw [if_pos hmov]
        split at h
        · next b s2 hw =>
          exact writeOpcodes_append_ret line post rest s2 s' h
        · cases h
        · cases h
        · cases h
      · next hmov =>
        rw [if_neg hmov]
        exact writeOpcodes_append_ret line post rest _ s' h
    · next hm =>
      rw [if_neg hm]
      exact writeOpcodes_append_ret line post rest s s' h

/-- The round of the opcode loop for an entry that matches the line: its opcode byte is
appended first, and what the rest of the loop appends comes after it. -/
theorem writeOpcodes_head (line : Line) (op : CpuCodeAMD64) (post : List CpuCodeAMD64)
    (s s' : AsmState) (hm : (find_word line op.fName && is_valid line) = true)
    (h : writeOpcodes line (op :: post) s = .ret () s') :
    ∃ later, s'.kBytes = s.kBytes ++ [op.fOpcode % 256] ++ later := by
  rw [writeOpcodes, if_pos hm] at h
  dsimp only at h
  split at h
  · split at h
    · next b s2 hw =>
      obtain ⟨e1, h1⟩ := WriteNumber_extends hw
      obtain ⟨e2, h2⟩ := writeOpcodes_extends line post s2 s' h
      refine ⟨e1 ++ e2, ?_⟩
      rw [h2, h1]
      simp
    · cases h
    · cases h
    · cases h
  · obtain ⟨e2, h2⟩ := writeOpcodes_extends line post _ s' h
    exact ⟨e2, h2⟩

/-! ## The worked example (C1) -/

/-- C1, as stated, fails: after the three lines of the example the byte buffer is not
the `mov` opcode, the four bytes of the literal 0x10 and the `ret` opcode, whether
the zero bytes of the literal are taken with or without the 0xFF sentinel. -/
theorem example_buffer_is_not_literal_0x10 :
    (compileLines exampleProgram (initialState false)).bytes? ≠
        some ([0x48] ++ (NumberCast32 0x10).map sentinel ++ [0xC3]) ∧
      (compileLines exampleProgram (initialState false)).bytes? ≠
        some ([0x48] ++ NumberCast32 0x10 ++ [0xC3]) := by
  decide

/-- C1, amended: the three lines of the example are processed without error and leave
exactly one record and the six-byte buffer `48 01 FF FF FF C3`: the `mov` opcode, the
four bytes `WriteNumber` appends for the text two characters past the mnemonic (the
digit of `r1`, value 1), and the `ret` opcode.  The object writer then succeeds and
the `code_size` of the header is the length of that buffer. -/
theorem example_program_assembles :
    ∃ s o, compileLines exampleProgram (initialState false) = .ret () s ∧
      s.kRecords.length = 1 ∧
      s.kBytes = [0x48, 0x01, 0xFF, 0xFF, 0xFF, 0xC3] ∧
      s.kBytes = [0x48] ++ (NumberCast32 (parsedValue 5 "mov r1, 0x10".toList)).map sentinel
        ++ [0xC3] ∧
      writeObject 0 s = some o ∧
      o.records.length = 1 ∧
      o.hdr.fCodeSize = s.kBytes.length := by
  refine ⟨_, _, rfl, ?_, ?_, ?_, rfl, ?_, ?_⟩ <;> decide

/-! ## Numeric literals (C2 - C7) -/

/-- C2, evaluated: from the initial state `0xFF`, `0b11111111` and `255` decode to the
same bytes (value 255) in AMD64 `WriteNumber`, but `0o377` is read in base 7 and
decodes to the value 3; PowerPC `WriteNumber` does the same, and `GetNumber32`, which
keeps the prefix in the parsed text, returns 0 for `0o377` and 255 for `0xFF`. -/
theorem octal_literal_is_read_in_base_7 :
    (WriteNumber 0 "0xFF".toList (initialState false)).bytes? = some [0xFF, 0xFF, 0xFF, 0xFF] ∧
    (WriteNumber 0 "0b11111111".toList (initialState false)).bytes?
      = some [0xFF, 0xFF, 0xFF, 0xFF] ∧
    (WriteNumber 0 "255".toList (initialState false)).bytes? = some [0xFF, 0xFF, 0xFF, 0xFF] ∧
    (WriteNumber 0 "0o377".toList (initialState false)).bytes? = some [0x03, 0xFF, 0xFF, 0xFF] ∧
    (PPC.WriteNumber 0 "0xFF".toList (initialState false)).bytes?
      = some [0xFF, 0, 0, 0, 0, 0, 0, 0] ∧
    (PPC.WriteNumber 0 "0o377".toList (initialState false)).bytes?
      = some [0x03, 0, 0, 0, 0, 0, 0, 0] ∧
    (GetNumber32 0 "0xFF".toList []).number? = some [0xFF, 0, 0, 0] ∧
    (GetNumber32 0 "0o377".toList []).number? = some [0, 0, 0, 0] := by
  decide

/-- C3, evaluated: `0o10` decodes to 7 and `0o7` to 0, where base 8 gives 8 and 7:
the `'o'` case hands the digits to `strtoq` with base 7. -/
theorem octal_digits_are_not_read_in_base_8 :
    parsedValue 0 "0o10".toList = 7 ∧
    (WriteNumber 0 "0o10".toList (initialState false)).bytes? = some [0x07, 0xFF, 0xFF, 0xFF] ∧
    parsedValue 0 "0o7".toList = 0 ∧
    (WriteNumber 0 "0o7".toList (initialState false)).bytes? = some [0xFF, 0xFF, 0xFF, 0xFF] := by
  decide

/-- C4: whenever `WriteNumber` returns true, the byte buffer has grown by exactly four
bytes, and the `i`-th of them is byte `i` of the parsed value counted from the low
end, with 0xFF standing for a byte that is 0x00. -/
theorem WriteNumber_appends_low_bytes (pos : Nat) (jump_label : Line) (s s' : AsmState)
    (h : WriteNumber pos jump_label s = .ret true s') :
    s'.kBytes.length = s.kBytes.length + 4 ∧
    s'.kBytes = s.kBytes ++ (List.range 4).map fun i =>
      if byteOf (parsedValue pos jump_label) i = 0x00 then 0xFF
      else byteOf (parsedValue pos jump_label) i := by
  have hb := WriteNumber_ret_true h
  rw [NumberCast32_bytes] at hb
  rw [hb]
  constructor
  · simp
  · rfl

/-- Witness of C4: the literal `0x10` decoded from the initial state. -/
theorem WriteNumber_appends_low_bytes_witness :
    (pushNumber 16 (initialState false)).kBytes.length = (initialState false).kBytes.length + 4 ∧
    (pushNumber 16 (initialState false)).kBytes = (initialState false).kBytes ++
      (List.range 4).map fun i =>
        if byteOf (parsedValue 0 "0x10".toList) i = 0x00 then 0xFF
        else byteOf (parsedValue 0 "0x10".toList) i :=
  WriteNumber_appends_low_bytes 0 "0x10".toList (initialState false)
    (pushNumber 16 (initialState false)) (by decide)

/-- C5, as stated, fails for the value 255: the four bytes `WriteNumber` appends for the
literal `255` leave the write pass as `00 00 00 00`, not as the little-endian
encoding `FF 00 00 00`. -/
theorem literal_255_does_not_round_trip :
    ((WriteNumber 0 "255".toList (initialState false)).bytes?.map writePass) ≠
        some (leBytes 4 255) ∧
      ((WriteNumber 0 "255".toList (initialState false)).bytes?.map writePass) =
        some [0x00, 0x00, 0x00, 0x00] := by
  decide

/-- C5, amended: for every 32-bit value `v`, the four bytes `WriteNumber` appends for
a literal of value `v` leave the write pass as the little-endian bytes of `v` with
every 0xFF byte turned into 0x00; they are exactly the encoding of `v` if and only
if no byte of `v` is 0xFF. -/
theorem literal_round_trip_iff (pos : Nat) (jump_label : Line) (s s' : AsmState) (v : Nat)
    (hv : v < 2 ^ 32) (hval : parsedValue pos jump_label = v)
    (h : WriteNumber pos jump_label s = .ret true s') :
    writePass (s'.kBytes.drop s.kBytes.length) =
        (leBytes 4 v).map (fun b => if b = 0xFF then 0x00 else b) ∧
      (writePass (s'.kBytes.drop s.kBytes.length) = leBytes 4 v ↔
        ∀ b ∈ leBytes 4 v, b ≠ 0xFF) := by
  have hb := WriteNumber_ret_true h
  have hn : NumberCast32 (v : Int) = leBytes 4 v := by
    unfold NumberCast32
    congr 1
    omega
  rw [hval, hn] at hb
  rw [hb, List.drop_left, writePass_map_sentinel]
  exact ⟨rfl, map_unsentinel_eq_self_iff _⟩

/-- Witness of C5: the literal `0x10` decoded from the initial state. -/
theorem literal_round_trip_iff_witness :
    writePass ((pushNumber 16 (initialState false)).kBytes.drop
        (initialState false).kBytes.length) =
        (leBytes 4 16).map (fun b => if b = 0xFF then 0x00 else b) ∧
      (writePass ((pushNumber 16 (initialState false)).kBytes.drop
        (initialState false).kBytes.length) = leBytes 4 16 ↔
        ∀ b ∈ leBytes 4 16, b ≠ 0xFF) :=
  literal_round_trip_iff 0 "0x10".toList (initialState false)
    (pushNumber 16 (initialState false)) 16 (by decide) (by decide) (by decide)

/-- C6: the payload the write pass produces is the buffer without its 0x00 bytes and
with every 0xFF byte replaced by 0x00, the other bytes unchanged and in order. -/
theorem writePass_eq_filter_map (buf : List Nat) :
    writePass buf = (buf.filter (· ≠ 0)).map (fun b => if b = 0xFF then 0 else b) := by
  induction buf with
  | nil => rfl
  | cons b rest ih =>
    by_cases h0 : b = 0
    · simp [writePass, h0, ih]
    · by_cases hF : b = 0xFF
      · simp [writePass, hF, ih]
      · simp [writePass, h0, hF, ih]

/-- C7, evaluated: an out-of-range literal is accepted and leaves `errno = ERANGE`; in
the state so reached the literals `0x0`, `0b0` and `0o0` throw and `0` returns false,
although each parses cleanly to zero.  The same happens in the compilation loop on
the lines `db 0xFFFFFFFFFFFFFFFFFFFF` and `db 0x0`. -/
theorem zero_literal_is_flagged_after_range_error :
    ∃ s1 s2, WriteNumber 0 "0xFFFFFFFFFFFFFFFFFFFF".toList (initialState false) = .ret true s1 ∧
      s1.errno = ERANGE ∧
      WriteNumber 0 "0x0".toList s1 = .throw "invalid_hex" (afterErrors 1 s1) ∧
      WriteNumber 0 "0b0".toList s1 = .throw "invalid_bin" (afterErrors 1 s1) ∧
      WriteNumber 0 "0o0".toList s1 = .throw "invalid_octal" (afterErrors 1 s1) ∧
      WriteNumber 0 "0".toList s1 = .ret false s1 ∧
      compileLines ["export .text main".toList, "db 0xFFFFFFFFFFFFFFFFFFFF".toList,
          "db 0x0".toList] (initialState false) = .throw "invalid_hex" s2 := by
  refine ⟨_, _, rfl, ?_, ?_, ?_, ?_, ?_, rfl⟩ <;> decide

/-! ## The line validator (C8, C9) -/

/-- C8: for a non-empty line that contains none of `import`, `export`, `#`, `;`,
`CheckLine` returns the empty error string exactly when every character is in the
allow-set and either the line has no `,` or a character other than space and tab
follows its first `,`. -/
theorem CheckLine_accepts_iff (line : Line) (hne : line ≠ [])
    (himport : ¬ "import".toList <:+: line) (hexport : ¬ "export".toList <:+: line)
    (hhash : '#' ∉ line) (hsemi : ';' ∉ line) :
    (CheckLine line).1 = [] ↔
      (∀ c ∈ line, inAllowSet c) ∧
        (',' ∉ line ∨ ∃ c ∈ afterFirstComma line, c ≠ ' ' ∧ c ≠ '\t') := by
  have hh : ¬ "#".toList <:+: line := fun h => hhash (h.subset (by simp))
  have hs : ¬ ";".toList <:+: line := fun h => hsemi (h.subset (by simp))
  have hemp : line.isEmpty = false := by
    cases line with
    | nil => exact absurd rfl hne
    | cons a l => rfl
  unfold CheckLine
  rw [hemp, find_word_eq_false_of_absent himport, find_word_eq_false_of_absent hexport,
    find_word_eq_false_of_absent hh, find_word_eq_false_of_absent hs]
  simp only [Bool.or_self, Bool.false_eq_true, if_false]
  by_cases hv : is_valid line = true
  · have hall := (is_valid_iff line).1 hv
    simp only [hv, Bool.not_true, Bool.false_eq_true, if_false]
    cases hf : find line [','] with
    | none =>
      have := (find_singleton_none ',' line).1 hf
      exact ⟨fun _ => ⟨hall, Or.inl this⟩, fun _ => rfl⟩
    | some i =>
      obtain ⟨_, hdrop, hlt⟩ := find_singleton_some ',' line i hf
      have hmem : ',' ∈ line := by
        by_contra hc
        rw [(find_singleton_none ',' line).2 hc] at hf
        cases hf
      have hsub : substr line (i + 1) = afterFirstComma line := hdrop
      simp only
      by_cases hlast : i + 1 = line.length
      · have hnil : afterFirstComma line = [] := by
          rw [← hsub]; unfold substr; simp [hlast]
        simp [hlast, hnil, hmem, msgLacksRight]
      · have hgt : ¬ (i + 1 > line.length) := by omega
        simp only [beq_iff_eq, hlast, if_false, hgt, hsub]
        by_cases hn : nothing_on_right (afterFirstComma line) = true
        · have := (nothing_on_right_iff _).1 hn
          simp only [hn, if_true]
          constructor
          · intro h; simp [msgNotComplete] at h
          · rintro ⟨_, h | ⟨c, hc, h1, h2⟩⟩
            · exact absurd hmem h
            · rcases this c hc with h | h
              · exact absurd h h1
              · exact absurd h h2
        · simp only [hn, Bool.false_eq_true, if_false, true_iff]
          refine ⟨hall, Or.inr ?_⟩
          by_contra hcon
          apply hn
          rw [nothing_on_right_iff]
          intro c hc
          by_contra hc2
          apply hcon
          refine ⟨c, hc, ?_, ?_⟩ <;> intro h <;> exact hc2 (by simp [h])
  · have hnall : ¬ ∀ c ∈ line, inAllowSet c := fun h => hv ((is_valid_iff line).2 h)
    simp [hv, hnall, msgNonAlnum]

/-- Witness of C8: the line `mov r1, 0x10`. -/
theorem CheckLine_accepts_iff_witness :
    (CheckLine "mov r1, 0x10".toList).1 = [] ↔
      (∀ c ∈ "mov r1, 0x10".toList, inAllowSet c) ∧
        (',' ∉ "mov r1, 0x10".toList ∨
          ∃ c ∈ afterFirstComma "mov r1, 0x10".toList, c ≠ ' ' ∧ c ≠ '\t') :=
  CheckLine_accepts_iff "mov r1, 0x10".toList (by decide) (by decide) (by decide)
    (by decide) (by decide)

/-- C9, as stated, fails: on `mov $ # c` and on `mov $ ; c` the text in front of the
comment marker holds `$`, which is outside the allow-set, and `CheckLine` (AMD64 and
PowerPC) still returns the empty error string. -/
theorem comment_line_is_not_validity_checked :
    ('$' ∈ beforeComment "mov $ # c".toList ∧ ¬ inAllowSet '$') ∧
      (CheckLine "mov $ # c".toList).1 = [] ∧
      (PPC.CheckLine [] "mov $ # c".toList).1 = [] ∧
      ('$' ∈ beforeComment "mov $ ; c".toList) ∧
      (CheckLine "mov $ ; c".toList).1 = [] ∧
      (PPC.CheckLine [] "mov $ ; c".toList).1 = [] := by
  refine ⟨⟨by decide, ?_⟩, by decide, by decide, by decide, by decide, by decide⟩
  unfold inAllowSet
  decide

/-- C9, amended: on a line where `#` or `;` stands as a token, and for PowerPC on every
line that holds a `#` anywhere, `CheckLine` removes the text from the first `#` on, or
with no `#` from the first `;` on, and returns the empty error string without checking
what remains. -/
theorem CheckLine_strips_comment_unchecked (opcodeNames : List Line) (line : Line) :
    (find_word line "#".toList = true ∨ find_word line ";".toList = true →
        CheckLine line = ([], beforeComment line)) ∧
      ('#' ∈ line ∨ find_word line ";".toList = true →
        PPC.CheckLine opcodeNames line = ([], beforeComment line)) := by
  have hcore : '#' ∈ line ∨ find_word line ";".toList = true →
      (match find line ['#'] with
      | some i => (([] : Line), eraseFrom line i)
      | none =>
        match find line [';'] with
        | some i => ([], eraseFrom line i)
        | none => if !is_valid line then (msgNonAlnum ++ line, line) else ([], line))
      = ([], beforeComment line) := by
    intro h
    cases hf : find line ['#'] with
    | some i =>
      have hmem : '#' ∈ line := by
        by_contra hc
        rw [(find_singleton_none '#' line).2 hc] at hf
        cases hf
      simp only [beforeComment, hmem, if_true, eraseFrom,
        (find_singleton_some '#' line i hf).1]
    | none =>
      have hnot : '#' ∉ line := (find_singleton_none '#' line).1 hf
      have hsemi : find_word line ";".toList = true := h.resolve_left hnot
      obtain ⟨j, hj⟩ := find_isSome_of_find_word hsemi
      have hj2 : find line [';'] = some j := hj
      simp only [hj2, beforeComment, hnot, if_false, eraseFrom,
        (find_singleton_some ';' line j hj2).1]
  have hmem : find_word line "#".toList = true → '#' ∈ line := by
    intro h1
    obtain ⟨i, hi⟩ := find_isSome_of_find_word h1
    have h2 : find line ['#'] = some i := hi
    by_contra hc
    rw [(find_singleton_none '#' line).2 hc] at h2
    cases h2
  have hsome : '#' ∈ line → (find line ['#']).isSome = true := by
    intro h1
    cases hf : find line ['#'] with
    | none => exact absurd h1 ((find_singleton_none '#' line).1 hf)
    | some i => rfl
  constructor
  · intro h
    unfold CheckLine
    rw [if_pos]
    · exact hcore (h.imp_left hmem)
    · generalize find_word line "#".toList = b1 at h
      generalize find_word line ";".toList = b2 at h
      rcases h with h | h <;> subst h <;> simp
  · intro h
    unfold PPC.CheckLine
    rw [if_pos]
    · exact hcore h
    · rcases h with h | h
      · rw [hsome h]; simp
      · rw [h]; simp

/-- Witness of C9: the line `mov $ # c` for AMD64, and for PowerPC the line `ret#x`, on
which `#` is no token. -/
theorem CheckLine_strips_comment_unchecked_witness :
    CheckLine "mov $ # c".toList = ([], beforeComment "mov $ # c".toList) ∧
      (find_word "ret#x".toList "#".toList = false ∧
        PPC.CheckLine [] "ret#x".toList = ([], beforeComment "ret#x".toList) ∧
        beforeComment "ret#x".toList = "ret".toList) :=
  ⟨(CheckLine_strips_comment_unchecked [] "mov $ # c".toList).1 (Or.inl (by decide)),
    by decide,
    (CheckLine_strips_comment_unchecked [] "ret#x".toList).2 (Or.inl (by decide)),
    by decide⟩

/-! ## Directives in flat-binary mode (C10) -/

/-- C10, as stated, fails: eleven rejected lines bring the error count to 11, past
`kErrorLimit`; an `export` line that follows in flat-binary mode makes `print_error`
end the process with status 3, and nothing is thrown. -/
theorem directive_past_error_limit_exits :
    compileLines (List.replicate 11 "$".toList) (initialState true) =
        .ret () (afterErrors 11 (initialState true)) ∧
      asm_read_attributes "export .text main".toList (afterErrors 11 (initialState true)) =
        .exit 3 (afterErrors 11 (initialState true)) ∧
      PPC.asm_read_attributes "export .code64 main".toList (afterErrors 11 (initialState true)) =
        .exit 3 (afterErrors 11 (initialState true)) ∧
      compileLines (List.replicate 11 "$".toList ++ ["export .text main".toList])
        (initialState true) = .exit 3 (afterErrors 11 (initialState true)) := by
  decide

/-- C10, amended: in flat-binary mode `asm_read_attributes` (AMD64 and PowerPC) never
returns on a line recognised as `import` or `export`: it throws `invalid_import_bin`
or `invalid_export_bin`, or, when more than `kErrorLimit` errors were already counted,
`print_error` ends the process with status 3.  Either way the byte buffer, the record
list, the origin-label table and the origin counter are as before the call. -/
theorem directive_in_flat_binary_fails (line : Line) (s : AsmState)
    (hbin : s.kOutputAsBinary = true)
    (hdir : find_word line "import ".toList = true ∨ find_word line "export ".toList = true) :
    ∃ s' what, s'.kBytes = s.kBytes ∧ s'.kRecords = s.kRecords ∧
      s'.kOriginLabel = s.kOriginLabel ∧ s'.kOrigin = s.kOrigin ∧
      what = (if find_word line "import ".toList then "invalid_import_bin"
        else "invalid_export_bin") ∧
      asm_read_attributes line s =
        (if s.kErrorLimit < s.kAcceptableErrors then .exit 3 s' else .throw what s') ∧
      PPC.asm_read_attributes line s =
        (if s.kErrorLimit < s.kAcceptableErrors then .exit 3 s' else .throw what s') := by
  unfold asm_read_attributes PPC.asm_read_attributes
  rw [readAttributes_binary _ _ _ line s hbin hdir, readAttributes_binary _ _ _ line s hbin hdir]
  by_cases hl : s.kErrorLimit < s.kAcceptableErrors
  · exact ⟨s, _, rfl, rfl, rfl, rfl, rfl, by simp [hl], by simp [hl]⟩
  · exact ⟨afterErrors ((s.kAcceptableErrors + 1) % 4294967296) s, _, rfl, rfl, rfl, rfl, rfl,
      by simp [hl], by simp [hl]⟩

/-- Witness of C10: `export .text main` from the initial state with `-binary`. -/
theorem directive_in_flat_binary_fails_witness :
    ∃ s' what, s'.kBytes = (initialState true).kBytes ∧
      s'.kRecords = (initialState true).kRecords ∧
      s'.kOriginLabel = (initialState true).kOriginLabel ∧
      s'.kOrigin = (initialState true).kOrigin ∧
      what = (if find_word "export .text main".toList "import ".toList then "invalid_import_bin"
        else "invalid_export_bin") ∧
      asm_read_attributes "export .text main".toList (initialState true) =
        (if (initialState true).kErrorLimit < (initialState true).kAcceptableErrors
          then .exit 3 s' else .throw what s') ∧
      PPC.asm_read_attributes "export .text main".toList (initialState true) =
        (if (initialState true).kErrorLimit < (initialState true).kAcceptableErrors
          then .exit 3 s' else .throw what s') :=
  directive_in_flat_binary_fails "export .text main".toList (initialState true) rfl
    (Or.inr (by decide))

/-! ## Directives in object mode (C11 - C18) -/

/-- C11: in object mode, on a line recognised as `import <name>` whose mangled result
is at most 64 bytes long, `asm_read_attributes` returns true and appends exactly one
record; its 64-byte name field is the decimal length of `<name>`, then `:ld:`, then
`<name>` with `$` for every space and comma, then zero bytes up to 64. -/
theorem import_record_name_field (line : Line) (s : AsmState)
    (hobj : s.kOutputAsBinary = false) (hrec : find_word line "import ".toList = true)
    (hfit : (importMangled (directiveName "import ".toList line)).length ≤ 64) :
    ∃ s' rec, asm_read_attributes line s = .ret true s' ∧
      s'.kRecords = setLastSize s.kRecords s.kBytes.length ++ [rec] ∧
      s'.kRecords.length = s.kRecords.length + 1 ∧
      rec.fName = zeroPadded (importMangled (directiveName "import ".toList line)) ∧
      rec.fName.length = 64 := by
  have hm : to_string (directiveName "import ".toList line).length ++ kUndefinedSymbol ++
      mangle [' ', ','] (directiveName "import ".toList line) =
      importMangled (directiveName "import ".toList line) := by
    rw [mangle_space_comma]; rfl
  rw [asm_read_attributes_import line s hobj hrec, hm, openRecord_fits _ _ _ hfit]
  refine ⟨_, _, rfl, rfl, ?_, rfl, ?_⟩
  · simp [setLastSize_length]
  · show (nameField _).length = 64
    unfold nameField kAESymbolLen
    rw [List.length_append, List.length_replicate]
    omega

/-- Witness of C11: `import .text foo, bar` from the initial state. -/
theorem import_record_name_field_witness :
    ∃ s' rec, asm_read_attributes "import .text foo, bar".toList (initialState false) =
        .ret true s' ∧
      s'.kRecords = setLastSize (initialState false).kRecords
        (initialState false).kBytes.length ++ [rec] ∧
      s'.kRecords.length = (initialState false).kRecords.length + 1 ∧
      rec.fName = zeroPadded
        (importMangled (directiveName "import ".toList "import .text foo, bar".toList)) ∧
      rec.fName.length = 64 :=
  import_record_name_field "import .text foo, bar".toList (initialState false) rfl
    (by decide) (by decide)

/-- C12, as stated, fails: for `import .code64 foo` the PowerPC assembler opens a
record named `11:UndefinedSymbol:.code64$foo`, not `11:ld:.code64$foo`. -/
theorem ppc_import_marker_is_not_ld :
    (PPC.asm_read_attributes "import .code64 foo".toList (initialState false)).state?.map
        (fun s => s.kRecords.map (·.fName)) =
        some [zeroPadded "11:UndefinedSymbol:.code64$foo".toList] ∧
      importMangled ".code64 foo".toList = "11:ld:.code64$foo".toList ∧
      zeroPadded "11:UndefinedSymbol:.code64$foo".toList ≠
        zeroPadded (importMangled ".code64 foo".toList) := by
  decide

/-- C12, amended: in object mode, on a line recognised as `import <name>` whose result
fits the 64-byte field, the PowerPC `asm_read_attributes` opens a record whose name
field is the decimal length of `<name>`, then `:UndefinedSymbol:`, then `<name>`
with `$` for every space and comma, then zero bytes up to 64. -/
theorem ppc_import_record_name_field (line : Line) (s : AsmState)
    (hobj : s.kOutputAsBinary = false) (hrec : find_word line "import ".toList = true)
    (hfit : ((toString (directiveName "import ".toList line).length).toList ++
      ":UndefinedSymbol:".toList ++ dollarName (directiveName "import ".toList line)).length
        ≤ 64) :
    ∃ s' rec, PPC.asm_read_attributes line s = .ret true s' ∧
      s'.kRecords = setLastSize s.kRecords s.kBytes.length ++ [rec] ∧
      rec.fName = zeroPadded ((toString (directiveName "import ".toList line).length).toList ++
        ":UndefinedSymbol:".toList ++ dollarName (directiveName "import ".toList line)) := by
  obtain ⟨kind, hk⟩ := PPC_asm_read_attributes_import line s hobj hrec
  have hm : to_string (directiveName "import ".toList line).length ++ PPC.kUndefinedSymbol ++
      mangle [' ', ','] (directiveName "import ".toList line) =
      (toString (directiveName "import ".toList line).length).toList ++
        ":UndefinedSymbol:".toList ++ dollarName (directiveName "import ".toList line) := by
    rw [mangle_space_comma]; rfl
  rw [hk, hm, openRecord_fits _ _ _ hfit]
  exact ⟨_, _, rfl, rfl, rfl⟩

/-- Witness of C12: `import .code64 foo` from the initial state. -/
theorem ppc_import_record_name_field_witness :
    ∃ s' rec, PPC.asm_read_attributes "import .code64 foo".toList (initialState false) =
        .ret true s' ∧
      s'.kRecords = setLastSize (initialState false).kRecords
        (initialState false).kBytes.length ++ [rec] ∧
      rec.fName = zeroPadded
        ((toString (directiveName "import ".toList "import .code64 foo".toList).length).toList
          ++ ":UndefinedSymbol:".toList ++
          dollarName (directiveName "import ".toList "import .code64 foo".toList)) :=
  ppc_import_record_name_field "import .code64 foo".toList (initialState false) rfl
    (by decide) (by decide)

/-- C13, as stated, fails: after `import .text foo` in object mode the undefined-symbol
list is still empty, the import is one ordinary record, and the object writer emits
no pseudo-record. -/
theorem import_adds_no_undefined_symbol :
    ∃ s o, compileLines ["import .text foo".toList] (initialState false) = .ret () s ∧
      s.kUndefinedSymbols.length = 0 ∧ s.kRecords.length = 1 ∧
      writeObject 0 s = some o ∧ o.symbols = [] ∧ o.records.length = 1 := by
  refine ⟨_, _, rfl, ?_, ?_, rfl, ?_, ?_⟩ <;> decide

/-- C13, amended: in object mode, on a line recognised as `import <name>` whose
mangled result fits the name field, `asm_read_attributes` leaves the undefined-symbol
list as it was and appends one record to the record list; with an empty list (which
nothing in the assembler ever fills) the object writer emits no pseudo-record. -/
theorem import_leaves_undefined_symbols (line : Line) (s : AsmState)
    (hobj : s.kOutputAsBinary = false) (hrec : find_word line "import ".toList = true)
    (hfit : (importMangled (directiveName "import ".toList line)).length ≤ 64) :
    ∃ s', asm_read_attributes line s = .ret true s' ∧
      s'.kUndefinedSymbols = s.kUndefinedSymbols ∧
      s'.kRecords.length = s.kRecords.length + 1 ∧
      (s.kUndefinedSymbols = [] → ∀ pos o, writeObject pos s' = some o →
        o.symbols = [] ∧ o.records.length = s.kRecords.length + 1) := by
  have hm : to_string (directiveName "import ".toList line).length ++ kUndefinedSymbol ++
      mangle [' ', ','] (directiveName "import ".toList line) =
      importMangled (directiveName "import ".toList line) := by
    rw [mangle_space_comma]; rfl
  rw [asm_read_attributes_import line s hobj hrec, hm, openRecord_fits _ _ _ hfit]
  refine ⟨_, rfl, rfl, ?_, ?_⟩
  · simp [setLastSize_length]
  · intro hu pos o ho
    unfold writeObject at ho
    split at ho
    · cases ho
    · cases ho
      dsimp only
      rw [hu]
      refine ⟨rfl, ?_⟩
      have hlen : ∀ (recs : List AERecordHeader) (n : Nat),
          (finishRecords recs n).length = recs.length := by
        intro recs
        induction recs with
        | nil => intro n; rfl
        | cons r rest ih => intro n; simp [finishRecords, ih]
      simp [hlen, setLastSize_length]

/-- Witness of C13: `import .text foo` from the initial state. -/
theorem import_leaves_undefined_symbols_witness :
    ∃ s', asm_read_attributes "import .text foo".toList (initialState false) = .ret true s' ∧
      s'.kUndefinedSymbols = (initialState false).kUndefinedSymbols ∧
      s'.kRecords.length = (initialState false).kRecords.length + 1 ∧
      ((initialState false).kUndefinedSymbols = [] → ∀ pos o, writeObject pos s' = some o →
        o.symbols = [] ∧ o.records.length = (initialState false).kRecords.length + 1) :=
  import_leaves_undefined_symbols "import .text foo".toList (initialState false) rfl
    (by decide) (by decide)

/-- C14: when the lines of an input are compiled from the initial state in object
mode and the object is written, the `count` of the header is the number of lines on
which `asm_read_attributes` recognised an `import` or `export` directive. -/
theorem header_count_is_directive_count (lines : List Line) (s : AsmState) (o : ObjectFile)
    (hrun : compileLines lines (initialState false) = .ret () s)
    (hw : writeObject 0 s = some o) :
    o.hdr.fCount = (lines.filter recognisedDirective).length := by
  obtain ⟨hlen, hu, _⟩ := compileLines_count lines (initialState false) s hrun
  unfold writeObject at hw
  split at hw
  · cases hw
  · cases hw
    dsimp only
    rw [hlen, hu]
    simp [initialState]

/-- Witness of C14: two directives and two instruction lines. -/
theorem header_count_is_directive_count_witness :
    ∃ s o, compileLines ["export .text main".toList, "ret".toList,
        "import .text foo".toList, "nop".toList] (initialState false) = .ret () s ∧
      writeObject 0 s = some o ∧
      o.hdr.fCount = (["export .text main".toList, "ret".toList,
        "import .text foo".toList, "nop".toList].filter recognisedDirective).length ∧
      o.hdr.fCount = 2 := by
  refine ⟨_, _, rfl, rfl, ?_, by decide⟩
  exact header_count_is_directive_count _ _ _ rfl rfl

/-- C16, as stated, fails: for `export .text main` the name field of the record is
`.text$main`, with `$` in place of the space, and not `.text main`. -/
theorem export_name_has_dollar_for_space :
    (asm_read_attributes "export .text main".toList (initialState false)).state?.map
        (fun s => s.kRecords.map (·.fName)) = some [zeroPadded ".text$main".toList] ∧
      directiveName "export ".toList "export .text main".toList = ".text main".toList ∧
      zeroPadded ".text$main".toList ≠ zeroPadded ".text main".toList := by
  decide

/-- C16, amended: in object mode, on a line recognised as `export <name>` (and not as
`import`) with `<name>` at most 64 bytes long, the record opened has as its name field
the text `<name>` with every space replaced by `$`, without length prefix and with
no other change, followed by zero bytes up to 64. -/
theorem export_record_name_field (line : Line) (s : AsmState)
    (hobj : s.kOutputAsBinary = false) (himp : find_word line "import ".toList = false)
    (hrec : find_word line "export ".toList = true)
    (hfit : (directiveName "export ".toList line).length ≤ 64) :
    ∃ s' rec, asm_read_attributes line s = .ret true s' ∧
      s'.kRecords = setLastSize s.kRecords s.kBytes.length ++ [rec] ∧
      rec.fName = zeroPadded
        ((directiveName "export ".toList line).map fun c => if c = ' ' then '$' else c) := by
  have hf : (mangle [' '] (directiveName "export ".toList line)).length ≤ kAESymbolLen := by
    unfold mangle
    rw [List.length_map]
    exact hfit
  rw [asm_read_attributes_export line s hobj himp hrec, openRecord_fits _ _ _ hf]
  refine ⟨_, _, rfl, rfl, ?_⟩
  show nameField (mangle [' '] _) = _
  rw [mangle_space]
  rfl

/-- Witness of C16: `export .text main` from the initial state. -/
theorem export_record_name_field_witness :
    ∃ s' rec, asm_read_attributes "export .text main".toList (initialState false) =
        .ret true s' ∧
      s'.kRecords = setLastSize (initialState false).kRecords
        (initialState false).kBytes.length ++ [rec] ∧
      rec.fName = zeroPadded
        ((directiveName "export ".toList "export .text main".toList).map
          fun c => if c = ' ' then '$' else c) :=
  export_record_name_field "export .text main".toList (initialState false) rfl
    (by decide) (by decide) (by decide)

/-- C17, as stated, fails: in `export .text a`, `ret`, `export .text b`, `ret`,
`export .text c` one byte is emitted between the directives of `b` and `c` (the
buffer grows from 1 to 2 bytes), and the size of `b` is finalised to 2, not to 1.
From the empty buffer, `export .text foo` directly followed by `export .data bar`
gives `foo` the size 0, and a later `ret` does not change it. -/
theorem record_size_is_not_the_bytes_between :
    (compileLines ["export .text a".toList, "ret".toList, "export .text b".toList]
        (initialState false)).bytes?.map List.length = some 1 ∧
      (compileLines ["export .text a".toList, "ret".toList, "export .text b".toList,
        "ret".toList] (initialState false)).bytes?.map List.length = some 2 ∧
      (compileLines ["export .text a".toList, "ret".toList, "export .text b".toList,
        "ret".toList, "export .text c".toList] (initialState false)).state?.map
        (fun s => s.kRecords.map (·.fSize)) = some [1, 2, 0] ∧
      (compileLines ["export .text foo".toList, "export .data bar".toList, "ret".toList]
        (initialState false)).state?.map (fun s => s.kRecords.map (·.fSize)) =
        some [0, 0] := by
  decide

/-- C17, amended: when a directive line opens record `A`, instruction lines then
append `k` bytes, and the next directive line is processed, the size of `A` is
finalised to the length of the byte buffer at that moment, which is `k` plus the
length the buffer had once the line of `A` was processed (so `k` itself when the
buffer was empty); the other records stay as they were, one record is appended, and
instruction lines processed later do not change the record list. -/
theorem record_size_is_buffer_length (l1 l2 : Line) (instrs : List Line)
    (s s1 s2 s3 : AsmState) (k : Nat)
    (hd1 : recognisedDirective l1 = true) (hd2 : recognisedDirective l2 = true)
    (hno : ∀ l ∈ instrs, recognisedDirective l = false)
    (h1 : compileLine l1 s = .ret () s1) (hrun : compileLines instrs s1 = .ret () s2)
    (hk : s2.kBytes.length = s1.kBytes.length + k)
    (h2 : compileLine l2 s2 = .ret () s3) :
    ∃ front A B, s1.kRecords = front ++ [A] ∧
      s3.kRecords = front ++ [{ A with fSize := s1.kBytes.length + k }, B] ∧
      ∀ more s4, (∀ l ∈ more, recognisedDirective l = false) →
        compileLines more s3 = .ret () s4 → s4.kRecords = s3.kRecords := by
  obtain ⟨_, ⟨A, hA⟩, _, _⟩ := compileLine_directive hd1 h1
  have h12 := compileLines_plain instrs s1 s2 hno hrun
  obtain ⟨_, ⟨B, hB⟩, _, _⟩ := compileLine_directive hd2 h2
  refine ⟨setLastSize s.kRecords s.kBytes.length, A, B, hA, ?_, ?_⟩
  · rw [hB, h12, hA, setLastSize_append_singleton, hk]
    simp
  · intro more s4 hm hr
    exact compileLines_plain more s3 s4 hm hr

/-- Witness of C17: `export .text a`, `ret`, `export .text b` from the state reached
after `export .text z` and `ret`. -/
theorem record_size_is_buffer_length_witness :
    ∃ front A B,
      (stateAfter ["export .text z".toList, "ret".toList, "export .text a".toList]).kRecords =
        front ++ [A] ∧
      (stateAfter ["export .text z".toList, "ret".toList, "export .text a".toList,
        "ret".toList, "export .text b".toList]).kRecords =
        front ++ [{ A with fSize := (stateAfter ["export .text z".toList, "ret".toList,
          "export .text a".toList]).kBytes.length + 1 }, B] ∧
      ∀ more s4, (∀ l ∈ more, recognisedDirective l = false) →
        compileLines more (stateAfter ["export .text z".toList, "ret".toList,
          "export .text a".toList, "ret".toList, "export .text b".toList]) = .ret () s4 →
        s4.kRecords = (stateAfter ["export .text z".toList, "ret".toList,
          "export .text a".toList, "ret".toList, "export .text b".toList]).kRecords :=
  record_size_is_buffer_length "export .text a".toList "export .text b".toList
    ["ret".toList]
    (stateAfter ["export .text z".toList, "ret".toList])
    (stateAfter ["export .text z".toList, "ret".toList, "export .text a".toList])
    (stateAfter ["export .text z".toList, "ret".toList, "export .text a".toList, "ret".toList])
    (stateAfter ["export .text z".toList, "ret".toList, "export .text a".toList, "ret".toList,
      "export .text b".toList])
    1 (by decide) (by decide) (by decide) (by decide) (by decide) (by decide) (by decide)

/-- C18, as stated, fails: `export .code64 b` opens a record of kind Data (0xD) after
`export .data a` and of kind Code (0xC) after `export .text a`; `.code64` is no
section token of the AMD64 assembler, and the kind is the one carried over. -/
theorem code64_kind_follows_earlier_record :
    (compileLines ["export .data a".toList, "export .code64 b".toList]
        (initialState false)).state?.map (fun s => s.kRecords.map (·.fKind)) =
        some [0xD, 0xD] ∧
      (compileLines ["export .text a".toList, "export .code64 b".toList]
        (initialState false)).state?.map (fun s => s.kRecords.map (·.fKind)) =
        some [0xC, 0xC] := by
  decide

/-- C18, amended: in object mode the record an `import` or `export` directive opens
has kind Code (0xC) when the name is exactly `__start` or contains `.text`, kind
Data (0xD) when it contains `.data` but not `.text`, kind Zero (0xE) when it contains
`.page_zero` and neither of the others, and in every other case (also for `.code64`)
the kind the current record carries from the directive processed before. -/
theorem directive_record_kind (line : Line) (s : AsmState)
    (hobj : s.kOutputAsBinary = false) :
    (find_word line "import ".toList = true →
      (importMangled (directiveName "import ".toList line)).length ≤ 64 →
      ∃ s' recs rec, asm_read_attributes line s = .ret true s' ∧
        s'.kRecords = recs ++ [rec] ∧ s'.kCurrentRecord = rec ∧
        rec.fKind = directiveKind (directiveName "import ".toList line)
          s.kCurrentRecord.fKind) ∧
    (find_word line "import ".toList = false → find_word line "export ".toList = true →
      (directiveName "export ".toList line).length ≤ 64 →
      ∃ s' recs rec, asm_read_attributes line s = .ret true s' ∧
        s'.kRecords = recs ++ [rec] ∧ s'.kCurrentRecord = rec ∧
        rec.fKind = directiveKind (directiveName "export ".toList line)
          s.kCurrentRecord.fKind) ∧
    (∀ name previous, directiveKind name previous =
      if name = "__start".toList ∨ containsText name ".text".toList = true then 0xC
      else if containsText name ".data".toList = true then 0xD
      else if containsText name ".page_zero".toList = true then 0xE
      else previous) := by
  refine ⟨?_, ?_, ?_⟩
  · intro hrec hfit
    have hm : to_string (directiveName "import ".toList line).length ++ kUndefinedSymbol ++
        mangle [' ', ','] (directiveName "import ".toList line) =
        importMangled (directiveName "import ".toList line) := by
      rw [mangle_space_comma]; rfl
    rw [asm_read_attributes_import line s hobj hrec, hm, openRecord_fits _ _ _ hfit]
    exact ⟨_, _, _, rfl, rfl, rfl, rfl⟩
  · intro himp hrec hfit
    have hf : (mangle [' '] (directiveName "export ".toList line)).length ≤ kAESymbolLen := by
      unfold mangle
      rw [List.length_map]
      exact hfit
    rw [asm_read_attributes_export line s hobj himp hrec, openRecord_fits _ _ _ hf]
    exact ⟨_, _, _, rfl, rfl, rfl, rfl⟩
  · intro name previous
    unfold directiveKind sectionKind kPefCode kPefData kPefZero
    split_ifs <;> first | rfl | (exfalso; tauto)

/-- Witness of C18: `export .data64 bar` from the initial state. -/
theorem directive_record_kind_witness :
    ∃ s' recs rec, asm_read_attributes "export .data64 bar".toList (initialState false) =
        .ret true s' ∧
      s'.kRecords = recs ++ [rec] ∧ s'.kCurrentRecord = rec ∧
      rec.fKind = directiveKind (directiveName "export ".toList "export .data64 bar".toList)
        (initialState false).kCurrentRecord.fKind ∧
      rec.fKind = 0xD :=
  have h := (directive_record_kind "export .data64 bar".toList (initialState false) rfl).2.1
    (by decide) (by decide) (by decide)
  by
    obtain ⟨s', recs, rec, h1, h2, h3, h4⟩ := h
    refine ⟨s', recs, rec, h1, h2, h3, h4, ?_⟩
    rw [h4]
    decide

/-! ## Instruction lines (C19, C20) -/

/-- C19, as stated, fails: the line `foo` passes `CheckLine`, is no directive and
holds no mnemonic of the opcode table, and `WriteLine` returns true on it with the
state unchanged; no error is raised. -/
theorem unknown_instruction_is_accepted :
    (CheckLine "foo".toList).1 = [] ∧
      find_word "foo".toList "import ".toList = false ∧
      find_word "foo".toList "export ".toList = false ∧
      (∀ op ∈ kOpcodesAMD64, find_word "foo".toList op.fName = false) ∧
      WriteLine "foo".toList (initialState false) = .ret true (initialState false) ∧
      compileLines ["export .text main".toList, "foo".toList] (initialState false) =
        compileLines ["export .text main".toList] (initialState false) := by
  decide

/-- C19, amended: on a line that is not recognised as `export` and on which no
mnemonic of the opcode table stands as a token, `WriteLine` raises no
unrecognized-instruction error: the opcode loop appends nothing and only the `db`
and `org` handling runs; without `db` and `org ` in the line `WriteLine` returns true
and leaves the state unchanged. -/
theorem WriteLine_without_mnemonic (line : Line) (s : AsmState)
    (hexp : find_word line "export ".toList = false)
    (hnone : ∀ op ∈ kOpcodesAMD64, find_word line op.fName = false) :
    writeOpcodes line kOpcodesAMD64 s = .ret () s ∧
      WriteLine line s = writeDirectives line s ∧
      (find line "db".toList = none → find line "org ".toList = none →
        WriteLine line s = .ret true s) := by
  have hskip := writeOpcodes_skip line s kOpcodesAMD64 hnone
  have hw : WriteLine line s = writeDirectives line s := by
    unfold WriteLine
    rw [if_neg (by rw [hexp]; exact Bool.false_ne_true), hskip]
    rfl
  refine ⟨hskip, hw, ?_⟩
  intro hdb horg
  rw [hw]
  unfold writeDirectives
  rw [hdb, horg]
  rfl

/-- Witness of C19: the line `foo` in the initial state. -/
theorem WriteLine_without_mnemonic_witness :
    writeOpcodes "foo".toList kOpcodesAMD64 (initialState false) =
        .ret () (initialState false) ∧
      WriteLine "foo".toList (initialState false) =
        writeDirectives "foo".toList (initialState false) ∧
      (find "foo".toList "db".toList = none → find "foo".toList "org ".toList = none →
        WriteLine "foo".toList (initialState false) = .ret true (initialState false)) :=
  WriteLine_without_mnemonic "foo".toList (initialState false) (by decide) (by decide)

/-- C20, evaluated: on `org 100` the loop over the bases 10, 16, 2, 7 assigns the
origin counter four times and leaves the last value, 49 (`100` read in base 7), not
100; on `org 8` it leaves 0.  No byte is appended. -/
theorem org_keeps_the_last_base :
    (WriteLine "org 100".toList (initialState false)).state?.map
        (fun s => (s.kOrigin, s.kBytes)) = some (49, []) ∧
      (WriteLine "org 8".toList (initialState false)).state?.map
        (fun s => (s.kOrigin, s.kBytes)) = some (0, []) ∧
      (orgStep "100".toList (initialState false) 10).kOrigin = 100 ∧
      (strtol "100".toList 7).value = 49 := by
  decide

/-! ## The PowerPC encoder (C21 - C24) -/

/-- C21, as stated, fails: with `kAsmRegisterLimit` 32, `add r1, r32` is encoded though
the index 32 equals the limit, and `mr r1, r999` is encoded though its second
register token has three digits (the scan of a mnemonic in `m` stops at the first
token). -/
theorem limit_index_and_later_token_are_accepted :
    (PPC.WriteLine 'r' 32 [⟨"add".toList, .GREG, 0x7C000214⟩] "add r1, r32".toList
        (initialState false)).bytes? = some [0x14, 0x02, 0x20, 0x7C, 0, 0, 0, 0] ∧
      (PPC.WriteLine 'r' 32 [⟨"mr".toList, .GREG, 0x7C000378⟩] "mr r1, r999".toList
        (initialState false)).bytes? = some [0x78, 0x03, 0x20, 0x7C, 0, 0, 0, 0] := by
  refine ⟨?_, ?_⟩ <;> decide

/-- C21, amended: on a line whose first matching table entry is of a register class, a
register token (the prefix character, then a digit) with three digits or an index
strictly greater than `kAsmRegisterLimit` makes the PowerPC `WriteLine` report the
error and throw `invalid_register_index`, leaving the byte buffer alone, provided the
scan reaches the token: the mnemonic does not start with `m`, or the token is the first
register token of the line.  Past the error limit `print_error` ends the process with
status 3 instead. -/
theorem bad_register_token_is_rejected (p : Char) (limit : Nat)
    (pre post : List PPC.CpuOpcodePPC) (op : PPC.CpuOpcodePPC) (line : Line) (s : AsmState)
    (i : Nat)
    (hexp : find_word line "export ".toList = false)
    (hpre : ∀ e ∈ pre, (find_word line e.name && is_valid line) = false)
    (hop : (find_word line op.name && is_valid line) = true)
    (hty : op.type ≠ .other ∧ op.type ≠ .PCREL)
    (hi : i < line.length)
    (htok : registerTokenAt p line i = true)
    (hreach : (charAt op.name 0 == 'm') = false ∨ ∀ j < i, registerTokenAt p line j = false)
    (hbad : (isdigit (charAt line (i + 2)) = true ∧ isdigit (charAt line (i + 3)) = true) ∨
      limit < registerIndex line i) :
    PPC.WriteLine p limit (pre ++ op :: post) line s =
      (if s.kErrorLimit < s.kAcceptableErrors then .exit 3 s
        else .throw "invalid_register_index"
          { s with kAcceptableErrors := (s.kAcceptableErrors + 1) % 4294967296 }) := by
  unfold PPC.WriteLine
  rw [if_neg (by rw [hexp]; decide), writeFirstMatch_first p limit line op post s pre hpre hop]
  have hscan : PPC.scanRegisters p limit op.name line line.length 0
      ((NumberCast64 op.opcode).getD 2 0) 0 s =
      (print_error s).bind fun _ s1 => .throw "invalid_register_index" s1 := by
    rcases hreach with hm | hfirst
    · exact scanRegisters_rejects_any p limit op.name line i hm htok hbad line.length 0 _ _ s
        (Nat.zero_le _) (by omega)
    · exact scanRegisters_rejects p limit op.name line i _ 0 s hi htok hfirst hbad
  have hw : PPC.writeRegisters p limit op line s =
      (print_error s).bind fun _ s1 => .throw "invalid_register_index" s1 := by
    unfold PPC.writeRegisters
    dsimp only
    rw [hscan]
    unfold print_error
    by_cases h : s.kErrorLimit < s.kAcceptableErrors
    · rw [if_pos h]; rfl
    · rw [if_neg h]; rfl
  unfold PPC.writeEntry
  have hsw : (match op.type with
      | .other => Outcome.ret () { s with kBytes := s.kBytes ++ NumberCast32 op.opcode }
      | .PCREL => PPC.writePcRel op.name line s
      | _ => PPC.writeRegisters p limit op line s) = PPC.writeRegisters p limit op line s := by
    cases hto : op.type with
    | other => exact absurd hto hty.1
    | PCREL => exact absurd hto hty.2
    | _ => rfl
  dsimp only
  rw [hsw, hw]
  unfold print_error
  by_cases h : s.kErrorLimit < s.kAcceptableErrors
  · rw [if_pos h, if_pos h]; rfl
  · rw [if_neg h, if_neg h]; rfl

/-- Witness of C21: `add r1, r33` with limit 32 (second token, index above the limit),
the `add` entry second in the table. -/
theorem bad_register_token_is_rejected_witness :
    PPC.WriteLine 'r' 32
        ([⟨"mr".toList, .GREG, 0x7C000378⟩] ++
          (⟨"add".toList, .GREG, 0x7C000214⟩ : PPC.CpuOpcodePPC) :: [])
        "add r1, r33".toList (initialState false) =
      (if (initialState false).kErrorLimit < (initialState false).kAcceptableErrors then
        .exit 3 (initialState false)
        else .throw "invalid_register_index"
          { initialState false with
            kAcceptableErrors := ((initialState false).kAcceptableErrors + 1) % 4294967296 }) :=
  bad_register_token_is_rejected 'r' 32 [⟨"mr".toList, .GREG, 0x7C000378⟩] []
    ⟨"add".toList, .GREG, 0x7C000214⟩ "add r1, r33".toList (initialState false) 8
    (by decide) (by decide) (by decide) (by decide) (by decide) (by decide)
    (Or.inl (by decide)) (by decide)

/-- C22: the offset folded for a register index is 0x20 times the index in one byte, so
it has period 8: it grows with the index below 8, the indices 0 and 8 get the same
offset, the offset of index 8 is below that of index 7, and `add r8, r8` is encoded
as `add r0, r0` is. -/
theorem register_offsets_collide :
    (∀ n, PPC.registerOffset n = 0x20 * n % 256) ∧
      (∀ n, PPC.registerOffset (n + 8) = PPC.registerOffset n) ∧
      (∀ i j, i < j → j < 8 → PPC.registerOffset i < PPC.registerOffset j) ∧
      PPC.registerOffset 8 = PPC.registerOffset 0 ∧
      PPC.registerOffset 8 < PPC.registerOffset 7 ∧
      PPC.WriteLine 'r' 32 [⟨"add".toList, .GREG, 0x7C000214⟩] "add r8, r8".toList
          (initialState false) =
        PPC.WriteLine 'r' 32 [⟨"add".toList, .GREG, 0x7C000214⟩] "add r0, r0".toList
          (initialState false) := by
  refine ⟨registerOffset_eq, ?_, ?_, by decide, by decide, by decide⟩
  · intro n
    rw [registerOffset_eq, registerOffset_eq]
    omega
  · intro i j hij hj
    rw [registerOffset_eq, registerOffset_eq]
    omega

/-- C23, as stated, fails: after `export .code64 foo` twice the label table holds `foo`
at origin 0 and again at origin 1, and `lda r1, foo` emits, after the opcode, the
eight bytes of 0, the ordinal of the first export. -/
theorem lda_emits_the_first_export :
    ∃ s, ((PPC.asm_read_attributes "export .code64 foo".toList (initialState false)).bind
        fun _ s1 => PPC.asm_read_attributes "export .code64 foo".toList s1) = .ret true s ∧
      s.kOriginLabel = [("foo".toList, 0), ("foo".toList, 1)] ∧
      (PPC.WriteLine 'r' 32 [⟨"lda".toList, .GREG, 0x38000000⟩] "lda r1, foo".toList s).bytes? =
        some ([0, 0, 0x20, 0x38, 0, 0, 0, 0] ++ NumberCast64 0) ∧
      NumberCast64 0 ≠ NumberCast64 1 := by
  refine ⟨_, rfl, ?_, ?_, ?_⟩ <;> decide

/-- C23, amended: when a label name has been exported more than once, resolving that
label for `lda` (the statements from `asm_write_label` on, for a label text without
line feed and without `import`) emits the eight bytes of the origin ordinal recorded
by the first export of that name, whatever later exports recorded. -/
theorem lda_resolves_first_export (cpy : Line) (a : Nat) (pre post : List (Line × Nat))
    (s : AsmState)
    (hlabels : s.kOriginLabel = pre ++ (cpy, a) :: post)
    (hpre : ∀ l ∈ pre, l.1 ≠ cpy)
    (hnl : find cpy ['\n'] = none)
    (himp : find cpy "import".toList = none) :
    PPC.writeLabel "lda".toList cpy s =
      .ret true { s with kBytes := s.kBytes ++ NumberCast64 a } := by
  unfold PPC.writeLabel
  simp only [hnl, himp]
  rw [if_pos (by decide), hlabels, findLabel_first cpy a post pre hpre]

/-- Witness of C23: `foo` looked up with exports of `bar` at 4, `foo` at 5 and `foo`
at 9. -/
theorem lda_resolves_first_export_witness :
    PPC.writeLabel "lda".toList "foo".toList
        { initialState false with
          kOriginLabel := [("bar".toList, 4), ("foo".toList, 5), ("foo".toList, 9)] } =
      .ret true
        { initialState false with
          kOriginLabel := [("bar".toList, 4), ("foo".toList, 5), ("foo".toList, 9)]
          kBytes := [] ++ NumberCast64 5 } :=
  lda_resolves_first_export "foo".toList 5 [("bar".toList, 4)] [("foo".toList, 9)]
    { initialState false with
      kOriginLabel := [("bar".toList, 4), ("foo".toList, 5), ("foo".toList, 9)] }
    rfl (by decide) (by decide) (by decide)

/-- C24: with a `PCREL` entry `b`, the line `b 0x10` appends `00 00 00 48`, not
`10 00 00 48`: the base is chosen from `line[pos + 1]`, the character `0` that leads
the literal, so the decimal case reads the text and stops at `x`.  The lines `b 0b101`
and `b 0o17` append the same four bytes; a decimal operand is encoded, `b 16`
appends `10 00 00 48`. -/
theorem pcrel_prefixed_literal_is_read_as_zero :
    (PPC.WriteLine 'r' 32 [⟨"b".toList, .PCREL, 0x48000000⟩] "b 0x10".toList
        (initialState false)).bytes? = some [0x00, 0x00, 0x00, 0x48] ∧
      (PPC.WriteLine 'r' 32 [⟨"b".toList, .PCREL, 0x48000000⟩] "b 0b101".toList
        (initialState false)).bytes? = some [0x00, 0x00, 0x00, 0x48] ∧
      (PPC.WriteLine 'r' 32 [⟨"b".toList, .PCREL, 0x48000000⟩] "b 0o17".toList
        (initialState false)).bytes? = some [0x00, 0x00, 0x00, 0x48] ∧
      (PPC.WriteLine 'r' 32 [⟨"b".toList, .PCREL, 0x48000000⟩] "b 16".toList
        (initialState false)).bytes? = some [0x10, 0x00, 0x00, 0x48] ∧
      PPC.pcrelBase (charAt "b 0x10".toList
        (posAfter (find "b 0x10".toList "b".toList) "b".toList.length + 1)) =
          (10, "invalid_hex") := by
  refine ⟨?_, ?_, ?_, ?_, ?_⟩ <;> decide

/-! ## The object writer (C25 - C29) -/

/-- C25, as stated, fails: in the object written for `export .text main`, `ret` the pad
bytes of the header and of the record are all 0x00, not 0xFF. -/
theorem pad_bytes_are_zero_not_ff :
    ∃ o, assembleObject ["export .text main".toList, "ret".toList] = some o ∧
      o.hdr.fPad = [0, 0, 0, 0, 0, 0, 0, 0] ∧
      o.records.map (·.fPad) = [[0, 0, 0, 0, 0, 0, 0, 0]] ∧
      o.hdr.fPad ≠ List.replicate 8 0xFF := by
  refine ⟨_, rfl, ?_, ?_, ?_⟩ <;> decide

/-- C25, amended: in every object file written after lines compiled from the initial
state, the 8 pad bytes of the object header, of every record header and of every
pseudo-record are all 0x00, the value of `kAEInvalidOpcode`. -/
theorem pad_bytes_are_invalid_opcode (lines : List Line) (s : AsmState) (o : ObjectFile)
    (hrun : compileLines lines (initialState false) = .ret () s)
    (hw : writeObject 0 s = some o) :
    o.hdr.fPad = List.replicate 8 0x00 ∧
      ∀ r ∈ o.records ++ o.symbols, r.fPad = List.replicate 8 0x00 := by
  obtain ⟨_, hr, hs, _, hh⟩ := writeObject_some hw
  have hinv := compileLines_pad lines (initialState false) s
    (by intro r hr; simp [initialState] at hr) hrun
  constructor
  · rw [hh]; rfl
  · intro r hmem
    rw [List.mem_append] at hmem
    rcases hmem with hm | hm
    · rw [hr] at hm
      exact finishRecords_pad _ _ 0 (setLastSize_pad _ _ _ hinv) r hm
    · rw [hs] at hm
      exact symbolRecords_pad _ _ r hm

/-- Witness of C25: the object written for `export .text main`, `ret`. -/
theorem pad_bytes_are_invalid_opcode_witness :
    ∃ o, writeObject 0 (stateAfter ["export .text main".toList, "ret".toList]) = some o ∧
      o.hdr.fPad = List.replicate 8 0x00 ∧
      ∀ r ∈ o.records ++ o.symbols, r.fPad = List.replicate 8 0x00 :=
  ⟨_, rfl, pad_bytes_are_invalid_opcode ["export .text main".toList, "ret".toList]
    (stateAfter ["export .text main".toList, "ret".toList]) _ (by decide) rfl⟩

/-- C26: for the object written from stream position 0 for `n` records and `m`
undefined symbols, the header serialises to 36 bytes and its size field is 36, every
record header serialises to 104 bytes, and `start_code` is 36 + 104 * (n + m), the
offset in the file at which the payload begins. -/
theorem start_code_is_payload_offset (s : AsmState) (o : ObjectFile)
    (h : writeObject 0 s = some o) :
    o.hdr.serialise.length = 36 ∧ o.hdr.fSize = 36 ∧
      (∀ r ∈ o.records ++ o.symbols, r.serialise.length = 104) ∧
      o.records.length = s.kRecords.length ∧
      o.symbols.length = s.kUndefinedSymbols.length ∧
      o.hdr.fStartCode = 36 + 104 * (s.kRecords.length + s.kUndefinedSymbols.length) ∧
      o.serialise.drop o.hdr.fStartCode = o.payload := by
  obtain ⟨_, hr, hs, _, hh⟩ := writeObject_some h
  have hrl : o.records.length = s.kRecords.length := by
    rw [hr, finishRecords_length, setLastSize_length]
  have hsl : o.symbols.length = s.kUndefinedSymbols.length := by
    rw [hs, symbolRecords_length]
  have hst : o.hdr.fStartCode = 36 + 104 * (s.kRecords.length + s.kUndefinedSymbols.length) := by
    rw [hh]
    simp [sizeofAEHeader, sizeofAERecordHeader]
  refine ⟨AEHeader_serialise_length _, ?_, fun r _ => AERecordHeader_serialise_length r,
    hrl, hsl, hst, ?_⟩
  · rw [hh]; rfl
  · unfold ObjectFile.serialise
    have hlen : (o.hdr.serialise ++ (o.records.map AERecordHeader.serialise).flatten ++
        (o.symbols.map AERecordHeader.serialise).flatten).length = o.hdr.fStartCode := by
      rw [List.length_append, List.length_append, AEHeader_serialise_length,
        join_serialise_length, join_serialise_length, hrl, hsl, hst]
      omega
    rw [← hlen, List.drop_left]

/-- Witness of C26: the object written after `export .text main` and `ret`. -/
theorem start_code_is_payload_offset_witness :
    ∃ o, writeObject 0 (stateAfter ["export .text main".toList, "ret".toList]) = some o ∧
      o.hdr.serialise.length = 36 ∧ o.hdr.fSize = 36 ∧
      (∀ r ∈ o.records ++ o.symbols, r.serialise.length = 104) ∧
      o.records.length =
        (stateAfter ["export .text main".toList, "ret".toList]).kRecords.length ∧
      o.symbols.length =
        (stateAfter ["export .text main".toList, "ret".toList]).kUndefinedSymbols.length ∧
      o.hdr.fStartCode = 36 + 104 *
        ((stateAfter ["export .text main".toList, "ret".toList]).kRecords.length +
          (stateAfter ["export .text main".toList, "ret".toList]).kUndefinedSymbols.length) ∧
      o.serialise.drop o.hdr.fStartCode = o.payload :=
  ⟨_, rfl, start_code_is_payload_offset _ _ rfl⟩

/-- C27: for every input the AMD64 assembler assembles in object mode, the code size
written in the header is the number of payload bytes written after the record
headers. -/
theorem code_size_is_payload_length (lines : List Line) (o : ObjectFile)
    (h : assembleObject lines = some o) :
    o.hdr.fCodeSize = o.payload.length ∧
      (o.serialise.drop o.hdr.fStartCode).length = o.hdr.fCodeSize := by
  unfold assembleObject at h
  split at h
  · next u s hrun =>
    cases u
    have hz := compileLines_nonzero lines _ s hrun (by simp [initialState])
    obtain ⟨_, _, _, hp, hh⟩ := writeObject_some h
    have h1 : o.hdr.fCodeSize = o.payload.length := by
      rw [hp, hh, writePass_length _ hz]
    refine ⟨h1, ?_⟩
    rw [(start_code_drop h), h1]
  · cases h

/-- Witness of C27: the input `export .text main`, `mov rax, 0x10`, `ret`. -/
theorem code_size_is_payload_length_witness :
    ∃ o, assembleObject ["export .text main".toList, "mov rax, 0x10".toList, "ret".toList]
        = some o ∧
      o.hdr.fCodeSize = o.payload.length ∧
      (o.serialise.drop o.hdr.fStartCode).length = o.hdr.fCodeSize :=
  ⟨_, rfl, code_size_is_payload_length
    ["export .text main".toList, "mov rax, 0x10".toList, "ret".toList] _ rfl⟩

/-- C28, as stated, fails: with one record and one undefined symbol the writer gives
the record offset 0 and the pseudo-record offset 2; the ordinal 1 is not written. -/
theorem symbol_offsets_skip_an_ordinal :
    ∃ o, writeObject 0
        { initialState false with
          kRecords := [(initialState false).kCurrentRecord]
          kUndefinedSymbols := ["foo".toList] } = some o ∧
      (o.records ++ o.symbols).map (·.fOffset) = [0, 2] ∧
      (o.records ++ o.symbols).map (·.fOffset) ≠ List.range (1 + 1) := by
  refine ⟨_, rfl, ?_, ?_⟩ <;> decide

/-- C28, amended: for n records and m undefined symbols the writer assigns offset i to
the i-th record (i = 0..n-1) and offset n + 1 + j to the j-th undefined-symbol
pseudo-record (j = 0..m-1): the counter is incremented once between the two loops, so
the ordinal n is never written. -/
theorem writer_offsets (pos : Nat) (s : AsmState) (o : ObjectFile)
    (h : writeObject pos s = some o) :
    o.records.map (·.fOffset) = List.range' 0 s.kRecords.length ∧
      o.symbols.map (·.fOffset) =
        List.range' (s.kRecords.length + 1) s.kUndefinedSymbols.length ∧
      s.kRecords.length ∉ (o.records ++ o.symbols).map (·.fOffset) := by
  obtain ⟨_, hr, hs, _, _⟩ := writeObject_some h
  have h1 : o.records.map (·.fOffset) = List.range' 0 s.kRecords.length := by
    rw [hr, finishRecords_offsets, setLastSize_length]
  have h2 : o.symbols.map (·.fOffset) =
      List.range' (s.kRecords.length + 1) s.kUndefinedSymbols.length := by
    rw [hs, symbolRecords_offsets]
  refine ⟨h1, h2, ?_⟩
  rw [List.map_append, h1, h2, List.mem_append, List.mem_range'_1, List.mem_range'_1]
  omega

/-- Witness of C28: two records and two undefined symbols. -/
theorem writer_offsets_witness :
    ∃ o, writeObject 0
        { initialState false with
          kRecords := [(initialState false).kCurrentRecord, (initialState false).kCurrentRecord]
          kUndefinedSymbols := ["foo".toList, "bar".toList] } = some o ∧
      o.records.map (·.fOffset) = [0, 1] ∧ o.symbols.map (·.fOffset) = [3, 4] :=
  ⟨_, rfl,
    (writer_offsets 0
      { initialState false with
        kRecords := [(initialState false).kCurrentRecord, (initialState false).kCurrentRecord]
        kUndefinedSymbols := ["foo".toList, "bar".toList] } _ rfl).1,
    (writer_offsets 0
      { initialState false with
        kRecords := [(initialState false).kCurrentRecord, (initialState false).kCurrentRecord]
        kUndefinedSymbols := ["foo".toList, "bar".toList] } _ rfl).2.1⟩

/-- C29, as stated, fails: the input `import .text foo` holds no `export`, and
object-mode assembly writes an object file with one record for it; and on twelve lines
`$`, which hold no directive, the process is ended with status 3 by `print_error`, with
the output file left on disk, instead of returning a failure code. -/
theorem import_alone_writes_an_object :
    find "import .text foo".toList "export".toList = none ∧
      (∃ o, assembleObject ["import .text foo".toList] = some o ∧ o.records.length = 1 ∧
        MPUXAssemblerAMD64 ["import .text foo".toList] = .written o) ∧
      (List.replicate 12 "$".toList).filter recognisedDirective = [] ∧
      MPUXAssemblerAMD64 (List.replicate 12 "$".toList) = .exited 3 := by
  refine ⟨by decide, ⟨_, rfl, by decide, rfl⟩, by decide, by decide⟩

/-- C29, amended: for every input on which no line is a recognised `import` or
`export` directive, object-mode assembly writes no object: when the compilation loop
runs to its end or an exception is caught, the entry point removes the output file and
returns the failure code; when `print_error` ends the process inside the loop, the
status is 3 and the output file stays on disk, empty.  When the loop runs to its end,
the writer fails exactly when no line is a recognised directive. -/
theorem no_directive_no_object (lines : List Line)
    (h : lines.filter recognisedDirective = []) :
    (MPUXAssemblerAMD64 lines =
        match compileLines lines (initialState false) with
        | .ret _ _ => .failed
        | .throw _ _ => .failed
        | .exit _ _ => .exited 3
        | .undefined => .undefined) ∧
      (∀ o, MPUXAssemblerAMD64 lines ≠ .written o) ∧
      assembleObject lines = none ∧
      ∀ more s, compileLines more (initialState false) = .ret () s →
        (writeObject 0 s = none ↔ more.filter recognisedDirective = []) := by
  have key : ∀ more s, compileLines more (initialState false) = .ret () s →
      (writeObject 0 s = none ↔ more.filter recognisedDirective = []) := by
    intro more s hrun
    have hc := (compileLines_count more _ s hrun).1
    have h0 : (initialState false).kRecords.length = 0 := rfl
    rw [h0, Nat.zero_add] at hc
    unfold writeObject
    constructor
    · intro hn
      split at hn
      · next he =>
        rw [List.isEmpty_iff] at he
        rw [he] at hc
        exact List.length_eq_zero.mp hc.symm
      · cases hn
    · intro hf
      rw [hf] at hc
      have : s.kRecords = [] := List.length_eq_zero.mp hc
      rw [this]
      rfl
  have hrun : MPUXAssemblerAMD64 lines =
      match compileLines lines (initialState false) with
      | .ret _ _ => .failed
      | .throw _ _ => .failed
      | .exit _ _ => .exited 3
      | .undefined => .undefined := by
    unfold MPUXAssemblerAMD64
    cases hc : compileLines lines (initialState false) with
    | ret u s =>
      cases u
      dsimp only
      rw [(key lines s hc).2 h]
    | throw w s => rfl
    | exit c s =>
      dsimp only
      rw [compileLines_exit lines _ s c hc]
    | undefined => rfl
  refine ⟨hrun, ?_, ?_, key⟩
  · intro o ho
    rw [hrun] at ho
    split at ho <;> cases ho
  · unfold assembleObject
    split
    · next u s hc => cases u; exact (key lines s hc).2 h
    · rfl

/-- Witness of C29: the input `ret`, `nop`, on which the entry point returns the
failure code with the output file removed. -/
theorem no_directive_no_object_witness :
    MPUXAssemblerAMD64 ["ret".toList, "nop".toList] = .failed ∧
      assembleObject ["ret".toList, "nop".toList] = none :=
  ⟨(no_directive_no_object ["ret".toList, "nop".toList] (by decide)).1.trans (by decide),
    (no_directive_no_object ["ret".toList, "nop".toList] (by decide)).2.2.1⟩

/-! ## The opcode loop of the AMD64 `WriteLine` (C30) -/

/-- C30: the line `nop` appends two bytes, one for each of the two `nop` entries of the
table, and the line `jmp` appends nine, the opcode of the `jmp` entry of the
initialiser and those of the eight `jmp` entries the entry point adds. -/
theorem every_matching_entry_is_emitted :
    (WriteLine "nop".toList (initialState false)).bytes? = some [0x90, 0x90] ∧
      (WriteLine "jmp".toList (initialState false)).bytes? =
        some [0xE9, 0xE3, 0xE4, 0xE5, 0xE6, 0xE7, 0xE8, 0xE9, 0xEA] ∧
      (stateAfter ["export .text main".toList, "nop".toList]).kBytes = [0x90, 0x90] := by
  refine ⟨?_, ?_, ?_⟩ <;> decide

/-! ## Opcodes and directives in the AMD64 `WriteLine` (C31, C32) -/

/-- C31: the table holds the 30 conditional jumps in the order of `opcodes_jump` with the
opcodes 0x0F80 + i, but `WriteLine` appends one byte for each of them, 0x80 + i: the
0x0F byte of the opcode does not reach the byte buffer (`ja` appends `80`, not
`0F 80`). -/
theorem jump_opcode_loses_its_high_byte :
    (jumpEntries (opcodes_jump.take kJumpLimit) 0).map (fun e => (e.fName, e.fOpcode)) =
        (List.range 30).map (fun i => (opcodes_jump.getD i [], 0x0F80 + i)) ∧
      opcodes_jump.map (fun name => (WriteLine name (initialState false)).bytes?) =
        (List.range 30).map (fun i => some [0x80 + i]) ∧
      (WriteLine "ja".toList (initialState false)).bytes? = some [0x80] ∧
      (WriteLine "ja".toList (initialState false)).bytes? ≠ some [0x0F, 0x80] := by
  refine ⟨?_, ?_, ?_, ?_⟩ <;> decide

/-- C32: `WriteLine` returns at once on a line recognised as `export`, but a line
recognised as `import` goes through the opcode loop and the `db` and `org` handling:
`import .text int_handler` appends `CD`, the opcode of `int`.  The `db` and `org`
handling runs on any line that is no `export`: `import db 5` appends a number and
`import org 5` sets the origin counter to 5 (on these two lines `import ` is followed
by a letter and is no token, so no record is opened for them). -/
theorem import_line_is_encoded :
    (∀ line s, find_word line "export ".toList = true → WriteLine line s = .ret true s) ∧
      recognisedDirective "import .text int_handler".toList = true ∧
      (WriteLine "import .text int_handler".toList (initialState false)).bytes? = some [0xCD] ∧
      (stateAfter ["import .text int_handler".toList]).kBytes = [0xCD] ∧
      (stateAfter ["import db 5".toList]).kBytes = [5, 0xFF, 0xFF, 0xFF] ∧
      (WriteLine "import org 5".toList (initialState false)).state?.map (·.kOrigin) = some 5 ∧
      (initialState false).kOrigin = 0 := by
  refine ⟨?_, by decide, by decide, by decide, by decide, by decide, by decide⟩
  intro line s h
  unfold WriteLine
  rw [if_pos h]

/-! ## The undefined-symbol reference of the PowerPC `WriteLine` (C33) -/

/-- C33: the statements from `asm_write_label` on are reached for a mnemonic that
contains `stw` or `ld` only, and for such a mnemonic a label that is not in the
origin-label table, holds no `import`, does not start with `0` and is not empty
leaves them at the `break` before the reference is built: nothing is appended and
the origin counter is not incremented.  `lda r1, bar` appends the eight opcode bytes
only and leaves the origin counter at 10; `sta r1, bar`, which never reaches those
statements, appends the opcode bytes only and increments the counter. -/
theorem undefined_reference_is_never_emitted :
    (∀ name cpy s,
        ((find name "stw".toList).isSome || (find name "ld".toList).isSome) = true →
        find cpy ['\n'] = none → find cpy "import".toList = none →
        PPC.findLabel cpy s.kOriginLabel = none → charAt cpy 0 ≠ '0' → cpy ≠ [] →
        PPC.writeLabel name cpy s = .ret false s) ∧
      (PPC.WriteLine 'r' 32 [⟨"lda".toList, .GREG, 0x38000000⟩] "lda r1, bar".toList
          { initialState false with kOrigin := 10 }).state?.map (fun s => (s.kBytes, s.kOrigin)) =
        some ([0, 0, 0x20, 0x38, 0, 0, 0, 0], 10) ∧
      (PPC.WriteLine 'r' 32 [⟨"sta".toList, .GREG, 0x38000000⟩] "sta r1, bar".toList
          { initialState false with kOrigin := 10 }).state?.map (fun s => (s.kBytes, s.kOrigin)) =
        some ([0, 0, 0x20, 0x38, 0, 0, 0, 0], 11) ∧
      PPC.pushReloc (to_string 3 ++ PPC.kUndefinedSymbol ++ "bar".toList) false ++ [0] =
        ("3:UndefinedSymbol:bar".toList.map Char.toNat) ++ [0] := by
  refine ⟨?_, by decide, by decide, by decide⟩
  intro name cpy s hname hnl himp hlab h0 hne
  have hst : ((find name "ld".toList).isSome || (find name "st".toList).isSome) = true := by
    rw [Bool.or_eq_true] at hname ⊢
    rcases hname with h | h
    · exact Or.inr (find_isSome_of_longer "st".toList "stw".toList ⟨['w'], rfl⟩ name h)
    · exact Or.inl h
  have hlen : ¬ cpy.length < 1 := by
    cases cpy with
    | nil => exact absurd rfl hne
    | cons c cs => simp
  have h0b : (charAt cpy 0 == '0') = false := by simpa using h0
  unfold PPC.writeLabel
  simp only [hnl, himp, hlab, h0b, hlen, hst, if_true, if_false, Bool.false_eq_true]
  split <;> rfl

/-! ## Comment markers left by `CheckLine` (C34) -/

/-- C34, as stated, fails: on `ret ; x # y` both `CheckLine` functions report no error
and leave `ret ; x `, which still holds the `;`: the text is cut at the first `#`,
which is not the first comment marker of the line. -/
theorem semicolon_before_hash_is_left :
    CheckLine "ret ; x # y".toList = ([], "ret ; x ".toList) ∧
      PPC.CheckLine [] "ret ; x # y".toList = ([], "ret ; x ".toList) ∧
      ';' ∈ "ret ; x ".toList := by
  refine ⟨?_, ?_, ?_⟩ <;> decide

/-- C34, amended: whenever `CheckLine` (AMD64 or PowerPC) returns without error, the
line it leaves is the text in front of the first `#`, or for a line without `#` the
text in front of the first `;`; it holds no `#`, and it holds a `;` exactly when the
line has a `;` in front of its first `#`. -/
theorem CheckLine_leaves_text_before_comment (opcodeNames : List Line) (line : Line) :
    ((CheckLine line).1 = [] →
        (CheckLine line).2 = beforeComment line ∧ '#' ∉ (CheckLine line).2 ∧
        (';' ∈ (CheckLine line).2 ↔ '#' ∈ line ∧ ';' ∈ line.takeWhile (· != '#'))) ∧
      ((PPC.CheckLine opcodeNames line).1 = [] →
        (PPC.CheckLine opcodeNames line).2 = beforeComment line ∧
        '#' ∉ (PPC.CheckLine opcodeNames line).2 ∧
        (';' ∈ (PPC.CheckLine opcodeNames line).2 ↔
          '#' ∈ line ∧ ';' ∈ line.takeWhile (· != '#'))) := by
  constructor
  · intro h
    rw [CheckLine_snd line h]
    exact ⟨rfl, beforeComment_markers line⟩
  · intro h
    rw [PPC_CheckLine_snd opcodeNames line h]
    exact ⟨rfl, beforeComment_markers line⟩

/-- Witness of C34: the line `ret # done` (AMD64) and the line `ret ; done` (PowerPC). -/
theorem CheckLine_leaves_text_before_comment_witness :
    ((CheckLine "ret # done".toList).1 = [] ∧
        (CheckLine "ret # done".toList).2 = beforeComment "ret # done".toList ∧
        '#' ∉ (CheckLine "ret # done".toList).2) ∧
      ((PPC.CheckLine [] "ret ; done".toList).1 = [] ∧
        (PPC.CheckLine [] "ret ; done".toList).2 = beforeComment "ret ; done".toList ∧
        '#' ∉ (PPC.CheckLine [] "ret ; done".toList).2) :=
  ⟨⟨by decide,
      ((CheckLine_leaves_text_before_comment [] "ret # done".toList).1 (by decide)).1,
      ((CheckLine_leaves_text_before_comment [] "ret # done".toList).1 (by decide)).2.1⟩,
    ⟨by decide,
      ((CheckLine_leaves_text_before_comment [] "ret ; done".toList).2 (by decide)).1,
      ((CheckLine_leaves_text_before_comment [] "ret ; done".toList).2 (by decide)).2.1⟩⟩

/-! ## Zero bytes and the write pass (C35, C36) -/

/-- C35: from the empty byte buffer of the initial state, after any sequence of lines
the AMD64 compilation loop processes the byte buffer holds no 0x00 byte, so the write
pass drops none; no entry of the opcode table has low byte 0x00, and `WriteNumber`
never leaves a zero byte in a buffer that had none. -/
theorem byte_buffer_has_no_zero (lines : List Line) (binary : Bool) (s : AsmState)
    (hrun : compileLines lines (initialState binary) = .ret () s) :
    0 ∉ s.kBytes ∧ (writePass s.kBytes).length = s.kBytes.length ∧
      (∀ op ∈ kOpcodesAMD64, op.fOpcode % 256 ≠ 0) ∧
      (∀ pos label s0 s1 b, WriteNumber pos label s0 = .ret b s1 → 0 ∉ s0.kBytes →
        0 ∉ s1.kBytes) := by
  have hz : 0 ∉ s.kBytes :=
    compileLines_nonzero lines _ s hrun (by cases binary <;> simp [initialState])
  exact ⟨hz, writePass_length _ hz, kOpcodesAMD64_nonzero,
    fun _ _ _ _ _ h h0 => WriteNumber_nonzero h h0⟩

/-- Witness of C35: the lines `export .text main`, `mov rax, 0`, `db 0`, `ret`. -/
theorem byte_buffer_has_no_zero_witness :
    0 ∉ (stateAfter ["export .text main".toList, "mov rax, 0".toList, "db 0".toList,
        "ret".toList]).kBytes ∧
      (stateAfter ["export .text main".toList, "mov rax, 0".toList, "db 0".toList,
        "ret".toList]).kBytes ≠ [] :=
  ⟨(byte_buffer_has_no_zero ["export .text main".toList, "mov rax, 0".toList, "db 0".toList,
      "ret".toList] false
      (stateAfter ["export .text main".toList, "mov rax, 0".toList, "db 0".toList,
        "ret".toList]) (by decide)).1, by decide⟩

/-- C36: for every entry of the AMD64 opcode table that matches the line, `WriteLine`
appends the low byte of the entry's opcode when the loop reaches the entry, and for
that byte the write pass puts the same byte in the payload, except for `call`, the one
entry whose opcode byte is 0xFF, for which it puts 0x00.  Here `s1` is the state in
which the loop reaches the entry and `later` is what `WriteLine` appends after the
byte. -/
theorem opcode_payload_byte (pre post : List CpuCodeAMD64) (op : CpuCodeAMD64) (line : Line)
    (s s' : AsmState) (b : Bool)
    (htable : kOpcodesAMD64 = pre ++ op :: post)
    (hexp : find_word line "export ".toList = false)
    (hmatch : (find_word line op.fName && is_valid line) = true)
    (hrun : WriteLine line s = .ret b s') :
    ∃ s1 later, writeOpcodes line pre s = .ret () s1 ∧
      s'.kBytes = s1.kBytes ++ [op.fOpcode % 256] ++ later ∧
      writePass s'.kBytes =
        writePass s1.kBytes ++ [if op.fName = "call".toList then 0x00 else op.fOpcode % 256] ++
          writePass later ∧
      (op.fName = "call".toList ↔ op.fOpcode % 256 = 0xFF) := by
  have hmem : op ∈ kOpcodesAMD64 := by
    rw [htable]
    exact List.mem_append_right _ (List.mem_cons_self _ _)
  unfold WriteLine at hrun
  rw [if_neg (by rw [hexp]; decide), htable] at hrun
  cases ho : writeOpcodes line (pre ++ op :: post) s with
  | ret u s2 =>
    rw [ho] at hrun
    cases u
    obtain ⟨s1, hpre, hrest⟩ := writeOpcodes_append_ret line (op :: post) pre s s2 ho
    obtain ⟨l1, hl1⟩ := writeOpcodes_head line op post s1 s2 hmatch hrest
    obtain ⟨l2, hl2⟩ := writeDirectives_extends hrun
    have hbytes : s'.kBytes = s1.kBytes ++ [op.fOpcode % 256] ++ (l1 ++ l2) := by
      rw [hl2, hl1]
      simp
    refine ⟨s1, l1 ++ l2, hpre, hbytes, ?_, (kOpcodesAMD64_payload op hmem).2⟩
    rw [hbytes, writePass_append, writePass_append, (kOpcodesAMD64_payload op hmem).1]
  | throw w s2 => rw [ho] at hrun; cases hrun
  | exit c s2 => rw [ho] at hrun; cases hrun
  | undefined => rw [ho] at hrun; cases hrun

/-- Witness of C36: the line `call` after the byte of `ret`: the entry `call` is the
fifteenth of the table, `WriteLine` appends `FF` and the write pass writes `00`. -/
theorem opcode_payload_byte_witness :
    ∃ s1 later, writeOpcodes "call".toList (kOpcodesAMD64.take 14)
        (stateAfter ["export .text main".toList, "ret".toList]) = .ret () s1 ∧
      (stateAfter ["export .text main".toList, "ret".toList, "call".toList]).kBytes =
        s1.kBytes ++ [0xFF % 256] ++ later ∧
      writePass (stateAfter ["export .text main".toList, "ret".toList, "call".toList]).kBytes =
        writePass s1.kBytes ++
          [if (⟨"call".toList, 0xFF⟩ : CpuCodeAMD64).fName = "call".toList then 0x00
            else 0xFF % 256] ++ writePass later ∧
      ((⟨"call".toList, 0xFF⟩ : CpuCodeAMD64).fName = "call".toList ↔ 0xFF % 256 = 0xFF) :=
  opcode_payload_byte (kOpcodesAMD64.take 14) (kOpcodesAMD64.drop 15) ⟨"call".toList, 0xFF⟩
    "call".toList (stateAfter ["export .text main".toList, "ret".toList])
    (stateAfter ["export .text main".toList, "ret".toList, "call".toList]) true
    (by decide) (by decide) (by decide) (by decide)

/-! ## The kind carried in the current record (C37) -/

/-- C37: in object mode, when the name of an `import` or `export` directive holds none
of the section tokens and is not `__start`, the record opened has the kind the current
record carries, and it becomes the current record in turn.  The current record starts
with kind Code (0xC), every directive line of the compilation loop leaves the record it
opened as the current record, and the other lines leave the current record alone: the
kind is that of the directive processed before, Code for the first directive. -/
theorem untagged_directive_keeps_kind (line : Line) (s : AsmState)
    (hobj : s.kOutputAsBinary = false)
    (hdir : find_word line "import ".toList = true ∨ find_word line "export ".toList = true)
    (hfit : (recordText line).length ≤ 64)
    (hun : untagged (directiveText line) = true) :
    (∃ s' recs, asm_read_attributes line s = .ret true s' ∧
        s'.kRecords = recs ++ [s'.kCurrentRecord] ∧
        s'.kCurrentRecord.fKind = s.kCurrentRecord.fKind) ∧
      (∀ binary, (initialState binary).kCurrentRecord.fKind = 0xC) ∧
      (∀ l t t', compileLine l t = .ret () t' → recognisedDirective l = true →
        ∃ recs, t'.kRecords = recs ++ [t'.kCurrentRecord]) ∧
      (∀ ls t t', (∀ l ∈ ls, recognisedDirective l = false) →
        compileLines ls t = .ret () t' → t'.kCurrentRecord = t.kCurrentRecord) := by
  refine ⟨?_, fun b => by cases b <;> rfl, ?_, ?_⟩
  · have hret : ∃ s', asm_read_attributes line s = .ret true s' := by
      unfold recordText at hfit
      by_cases hi : find_word line "import ".toList = true
      · rw [if_pos hi] at hfit
        have hm : to_string (directiveName "import ".toList line).length ++ kUndefinedSymbol ++
            mangle [' ', ','] (directiveName "import ".toList line) =
            importMangled (directiveName "import ".toList line) := by
          rw [mangle_space_comma]; rfl
        rw [asm_read_attributes_import line s hobj hi, hm, openRecord_fits _ _ _ hfit]
        exact ⟨_, rfl⟩
      · have hif : find_word line "import ".toList = false := by simpa using hi
        rw [if_neg hi] at hfit
        rw [asm_read_attributes_export line s hobj hif (hdir.resolve_left hi),
          openRecord_fits _ _ _ hfit]
        exact ⟨_, rfl⟩
    obtain ⟨s', hs'⟩ := hret
    obtain ⟨_, ⟨text, hc⟩, hr⟩ := asm_read_attributes_opens hs'
    refine ⟨s', _, hs', hr, ?_⟩
    rw [hc]
    exact directiveKind_untagged hun _
  · intro l t t' h hrec
    exact ⟨_, ((compileLine_current h).2 hrec).2⟩
  · intro ls t t' hno h
    exact (compileLines_plain_current ls t t' hno h).2

/-- Witness of C37: `export _bar` in the state reached after `export .data foo` and
`ret`: the record of `_bar` has kind Data (0xD). -/
theorem untagged_directive_keeps_kind_witness :
    ∃ s' recs, asm_read_attributes "export _bar".toList
        (stateAfter ["export .data foo".toList, "ret".toList]) = .ret true s' ∧
      s'.kRecords = recs ++ [s'.kCurrentRecord] ∧
      s'.kCurrentRecord.fKind =
        (stateAfter ["export .data foo".toList, "ret".toList]).kCurrentRecord.fKind ∧
      (stateAfter ["export .data foo".toList, "ret".toList]).kCurrentRecord.fKind = 0xD :=
  have h := (untagged_directive_keeps_kind "export _bar".toList
    (stateAfter ["export .data foo".toList, "ret".toList])
    (by decide) (Or.inr (by decide)) (by decide) (by decide)).1
  by
    obtain ⟨s', recs, h1, h2, h3⟩ := h
    exact ⟨s', recs, h1, h2, h3, by decide⟩

/-! ## The size fields of the records (C38) -/

/-- C38: in the object written after a run of the AMD64 compilation loop from the
initial state, every record but the last holds the length the byte buffer had when the
next directive was processed, the last record holds the total length of the byte
buffer, which is also the code size of the header, and the sizes in record order do
not decrease. -/
theorem record_sizes_are_cumulative (lines : List Line) (s : AsmState) (o : ObjectFile)
    (hrun : compileLines lines (initialState false) = .ret () s)
    (hw : writeObject 0 s = some o) :
    o.records.map (·.fSize) =
        (bufferAtDirectives lines (initialState false)).drop 1 ++ [s.kBytes.length] ∧
      List.Pairwise (· ≤ ·) (o.records.map (·.fSize)) ∧
      o.hdr.fCodeSize = s.kBytes.length ∧
      o.records.length = (bufferAtDirectives lines (initialState false)).length := by
  obtain ⟨hne, hr, _, _, hh⟩ := writeObject_some hw
  obtain ⟨_, hsz⟩ := compileLines_sizes lines _ s hrun
  obtain ⟨hb, hp⟩ := bufferAtDirectives_sorted lines _ s hrun
  have hsizes : o.records.map (·.fSize) =
      (bufferAtDirectives lines (initialState false)).drop 1 ++ [s.kBytes.length] := by
    rw [hr, finishRecords_sizes]
    cases hm : bufferAtDirectives lines (initialState false) with
    | nil =>
      rw [hm] at hsz
      exfalso
      apply hne
      have : (s.kRecords.map (·.fSize)).length = 0 := by rw [hsz]; rfl
      rw [List.length_map] at this
      exact List.length_eq_zero.mp this
    | cons m ms =>
      rw [hm] at hsz
      dsimp only at hsz
      rcases List.eq_nil_or_concat s.kRecords with h0 | ⟨front, a, h1⟩
      · exact absurd h0 hne
      · rw [List.concat_eq_append] at h1
        rw [h1, setLastSize_sizes, List.drop_one, List.tail_cons]
        rw [h1, List.map_append, List.map_singleton] at hsz
        have hi : (setLastSize (initialState false).kRecords m).map (·.fSize) = [] := rfl
        rw [hi, List.nil_append] at hsz
        rw [(List.append_inj' hsz rfl).1]
  refine ⟨hsizes, ?_, ?_, ?_⟩
  · rw [hsizes, List.pairwise_append]
    refine ⟨(hp.sublist (List.drop_sublist 1 _)), List.pairwise_singleton _ _, ?_⟩
    intro a ha b hbm
    rw [List.mem_singleton] at hbm
    subst hbm
    exact (hb a (List.mem_of_mem_drop ha)).2
  · rw [hh]
  · have := congrArg List.length hsizes
    rw [List.length_map, List.length_append, List.length_drop, List.length_singleton] at this
    rw [this]
    cases hm : bufferAtDirectives lines (initialState false) with
    | nil =>
      exfalso
      rw [hm] at hsizes
      rw [hm] at hsz
      apply hne
      have : (s.kRecords.map (·.fSize)).length = 0 := by rw [hsz]; rfl
      rw [List.length_map] at this
      exact List.length_eq_zero.mp this
    | cons m ms => simp

/-- Witness of C38: `export .text a`, `ret`, `export .text b`, `nop`, `ret`: the
sizes written are 1 and 4. -/
theorem record_sizes_are_cumulative_witness :
    ∃ o, writeObject 0 (stateAfter ["export .text a".toList, "ret".toList,
        "export .text b".toList, "nop".toList, "ret".toList]) = some o ∧
      o.records.map (·.fSize) = [1, 4] ∧
      List.Pairwise (· ≤ ·) (o.records.map (·.fSize)) ∧
      o.hdr.fCodeSize = 4 :=
  have h := record_sizes_are_cumulative ["export .text a".toList, "ret".toList,
      "export .text b".toList, "nop".toList, "ret".toList]
    (stateAfter ["export .text a".toList, "ret".toList,
      "export .text b".toList, "nop".toList, "ret".toList]) _ (by decide) rfl
  ⟨_, rfl, by decide, h.2.1, by decide⟩

/-! ## The frame of `WriteNumber` (C39) -/

/-- C39, as stated, fails: with a stale `ERANGE` in `errno` and eleven errors counted,
`WriteNumber` on `0x0` neither returns nor throws: `print_error` ends the process with
status 3. -/
theorem WriteNumber_can_exit :
    WriteNumber 0 "0x0".toList (afterErrors 11 { initialState false with errno := ERANGE }) =
      .exit 3 (afterErrors 11 { initialState false with errno := ERANGE }) := by
  decide

/-- C39, amended: every call of the AMD64 `WriteNumber` with `pos` inside the text or
at its end is all-or-nothing on the byte buffer: it returns true and the buffer is the
old buffer followed by exactly four new bytes, or it returns false, throws, or (past
the error limit) ends the process with status 3, and the buffer is unchanged; when
the character at `pos` is not a digit it returns false and changes nothing. -/
theorem WriteNumber_all_or_nothing (pos : Nat) (jump_label : Line) (s : AsmState)
    (hpos : pos ≤ jump_label.length) :
    ((∃ s' bytes, WriteNumber pos jump_label s = .ret true s' ∧ bytes.length = 4 ∧
          s'.kBytes = s.kBytes ++ bytes) ∨
        (∃ s', WriteNumber pos jump_label s = .ret false s' ∧ s'.kBytes = s.kBytes) ∨
        (∃ what s', WriteNumber pos jump_label s = .throw what s' ∧ s'.kBytes = s.kBytes) ∨
        (∃ s', WriteNumber pos jump_label s = .exit 3 s' ∧ s'.kBytes = s.kBytes)) ∧
      (isdigit (charAt jump_label pos) = false → WriteNumber pos jump_label s = .ret false s) := by
  have lift : ∀ base what text,
      ((∃ s' bytes, writeBased base what text s = .ret true s' ∧ bytes.length = 4 ∧
          s'.kBytes = s.kBytes ++ bytes) ∨
        (∃ s', writeBased base what text s = .ret false s' ∧ s'.kBytes = s.kBytes) ∨
        (∃ w s', writeBased base what text s = .throw w s' ∧ s'.kBytes = s.kBytes) ∨
        (∃ s', writeBased base what text s = .exit 3 s' ∧ s'.kBytes = s.kBytes)) := by
    intro base what text
    rcases writeBased_outcome base what text s with h | h | h
    · exact Or.inl h
    · exact Or.inr (Or.inr (Or.inl ⟨what, h⟩))
    · exact Or.inr (Or.inr (Or.inr h))
  constructor
  · unfold WriteNumber
    rw [if_neg (by omega)]
    split
    · exact Or.inr (Or.inl ⟨s, rfl, rfl⟩)
    split
    · exact lift _ _ _
    split
    · exact lift _ _ _
    split
    · exact lift _ _ _
    · rcases writeDecimal_outcome (substr jump_label pos) s with h | h
      · exact Or.inl h
      · exact Or.inr (Or.inl h)
  · intro hd
    unfold WriteNumber
    rw [if_neg (by omega), if_pos (by rw [hd]; rfl)]

/-- Witness of C39: `WriteNumber` at the `0` of `db 0x10`. -/
theorem WriteNumber_all_or_nothing_witness :
    ((∃ s' bytes, WriteNumber 3 "db 0x10".toList (initialState false) = .ret true s' ∧
          bytes.length = 4 ∧ s'.kBytes = (initialState false).kBytes ++ bytes) ∨
        (∃ s', WriteNumber 3 "db 0x10".toList (initialState false) = .ret false s' ∧
          s'.kBytes = (initialState false).kBytes) ∨
        (∃ what s', WriteNumber 3 "db 0x10".toList (initialState false) = .throw what s' ∧
          s'.kBytes = (initialState false).kBytes) ∨
        (∃ s', WriteNumber 3 "db 0x10".toList (initialState false) = .exit 3 s' ∧
          s'.kBytes = (initialState false).kBytes)) ∧
      (isdigit (charAt "db 0x10".toList 3) = false →
        WriteNumber 3 "db 0x10".toList (initialState false) = .ret false (initialState false)) :=
  WriteNumber_all_or_nothing 3 "db 0x10".toList (initialState false) (by decide)

end Asm
